import Mathlib

/-!
# Invoice field extraction (`src/server/index.js`, `extractInvoiceData`)

A shallow embedding of the extraction engine and of the parts of the
JavaScript runtime it calls: `String.prototype.match` with the regular
expressions of the source, `trim`, `split`, `replace`, `includes`,
`toLowerCase`, `parseInt` and `parseFloat`.

Conventions.

* A JavaScript string is a Lean `String` (a list of Unicode scalar values). The
  regular expressions of the source have no `u` flag and so work on UTF-16 code
  units; every character they name is in the Basic Multilingual Plane, and a
  character outside it is only ever matched by `[^\n\r]` or removed by
  `[^\d.]`, as a whole, so on well-formed text the two views agree.
* A JavaScript number is `JSNumber`: `NaN` or an exact rational. The runtime
  rounds a parsed numeral to the nearest double; the embedding keeps the exact
  value of the numeral.
* A `TypeError` (reading a property of `undefined`) is `Except.error`.

Two parts of the client (`src/client/App.js`) are embedded as well: the pending
invoices of `App` (`savePendingInvoice`, `syncPendingInvoices`), with the state
and `localStorage` passed explicitly and one outcome per request, and the totals
of `InvoiceCreator` over exact rationals.
-/

namespace InvoiceExtraction

/-! ## Characters -/

/-- White space and line terminators of ECMAScript: what `\s` matches and what `trim` removes. -/
def isWhiteSpace (c : Char) : Bool :=
  c.toNat == 9 || c.toNat == 10 || c.toNat == 11 || c.toNat == 12 || c.toNat == 13 ||
  c.toNat == 32 || c.toNat == 0xA0 || c.toNat == 0x1680 ||
  (0x2000 ≤ c.toNat && c.toNat ≤ 0x200A) ||
  c.toNat == 0x2028 || c.toNat == 0x2029 || c.toNat == 0x202F || c.toNat == 0x205F ||
  c.toNat == 0x3000 || c.toNat == 0xFEFF

/-- The class `\d`: the ten ASCII digits. -/
def isDigit (c : Char) : Bool := 48 ≤ c.toNat && c.toNat ≤ 57

/-- Code of the upper-case form of an ASCII letter, the code itself otherwise. This is
`Canonicalize` of a regular expression with the `i` flag and without the `u` flag, taken
on codes: a character outside ASCII is never canonicalised to an ASCII one, and the
characters outside ASCII named in the patterns are no letters. -/
def canonCode (c : Char) : Nat :=
  if 97 ≤ c.toNat ∧ c.toNat ≤ 122 then c.toNat - 32 else c.toNat

/-- Code of the lower-case form of an ASCII letter, the code itself otherwise. -/
def lowerCode (c : Char) : Nat :=
  if 65 ≤ c.toNat ∧ c.toNat ≤ 90 then c.toNat + 32 else c.toNat

/-- Lower-case form of one character, as `toLowerCase` gives it on ASCII; the mappings of
`toLowerCase` outside ASCII neither create nor remove an ASCII letter of the currency
keywords, which is all the source asks of the lowered text. -/
def toLowerChar (c : Char) : Char :=
  if 65 ≤ c.toNat ∧ c.toNat ≤ 90 then Char.ofNat (c.toNat + 32) else c

/-- The method `toLowerCase` of a string. -/
def toLowerCase (s : List Char) : List Char := s.map toLowerChar

/-! ## Strings -/

/-- The method `trim`: white space removed at both ends. -/
def trim (s : List Char) : List Char :=
  ((s.dropWhile isWhiteSpace).reverse.dropWhile isWhiteSpace).reverse

/-- Whether `p` starts `s`. -/
def startsWith : List Char → List Char → Bool
  | [], _ => true
  | _ :: _, [] => false
  | a :: p, b :: s => a == b && startsWith p s

/-- The method `includes`: `sub` occurs in `s` as a contiguous run. -/
def includes : List Char → List Char → Bool
  | [], sub => startsWith sub []
  | c :: s, sub => startsWith sub (c :: s) || includes s sub

/-- Splitting at every occurrence of one character: `text.split('\n')`. The second
argument is the piece being read, reversed. -/
def splitOnChar (sep : Char) : List Char → List Char → List (List Char)
  | [], cur => [cur.reverse]
  | c :: s, cur => if c == sep then cur.reverse :: splitOnChar sep s [] else splitOnChar sep s (c :: cur)

/-- Splitting at runs of white space: `split(/\s+/)`. The flag says that the previous
character was white space, so that a run separates once. -/
def splitWhiteSpace : List Char → Bool → List Char → List (List Char)
  | [], _, cur => [cur.reverse]
  | c :: s, inRun, cur =>
    if isWhiteSpace c then
      if inRun then splitWhiteSpace s true [] else cur.reverse :: splitWhiteSpace s true []
    else splitWhiteSpace s false (c :: cur)

/-- The method `join(' ')`. -/
def joinSpace : List (List Char) → List Char
  | [] => []
  | [a] => a
  | a :: b :: rest => a ++ ' ' :: joinSpace (b :: rest)

/-! ## Regular expressions -/

/-- One member of a character class. -/
inductive ClassItem where
  | chr (c : Char)
  | range (lo hi : Char)
  | digit
  | space
  deriving DecidableEq

/-- The regular expressions of the source: a character set (a literal character is a set of
one), concatenation, greedy repetition `{min,max}` (`*`, `+`, `?` are instances), the
capturing group (each pattern has at most one, never under a quantifier, so the step of
`RepeatMatcher` that resets the captures of the quantified atom changes nothing and is left
out) and the empty pattern. -/
inductive Regex where
  | set (invert : Bool) (items : List ClassItem)
  | seq (a b : Regex)
  | rep (r : Regex) (min : Nat) (max : Option Nat)
  | group (r : Regex)
  | empty

/-- A regular expression literal: its body and its `i` flag. -/
structure RegExp where
  ignoreCase : Bool
  body : Regex

/-- State of a match: the input still to read and the capture of group 1
(`none` is `undefined`). -/
structure MState where
  rest : List Char
  cap : Option (List Char)
  deriving DecidableEq

/-- Whether the code `n` belongs to a class member. -/
def ClassItem.hasCode : ClassItem → Nat → Bool
  | .chr c, n => n == c.toNat
  | .range lo hi, n => lo.toNat ≤ n && n ≤ hi.toNat
  | .digit, n => 48 ≤ n && n ≤ 57
  | .space, _ => false

/-- Whether a class member matches the character `ch`: some character of the member has the
canonical form of `ch`. With the `i` flag the characters that share the canonical form of
`ch` are `ch` and its two ASCII case forms. -/
def ClassItem.matchesChar (ic : Bool) : ClassItem → Char → Bool
  | .space, ch => isWhiteSpace ch
  | it, ch => it.hasCode ch.toNat || (ic && (it.hasCode (canonCode ch) || it.hasCode (lowerCode ch)))

/-- The matcher of a character set (`CharacterSetMatcher`). -/
def setMatches (ic invert : Bool) (items : List ClassItem) (ch : Char) : Bool :=
  (items.any fun it => it.matchesChar ic ch) != invert

/-- The matcher of a quantified atom (`RepeatMatcher`), greedy, as the list of its results in
the order backtracking tries them. An iteration that reads nothing once `min` is reached is
dropped. The first argument bounds the iterations: `min` plus the length of the input is
never exceeded, since every iteration lowers `min` or reads a character. -/
def repeatMatcher (m : MState → List MState) : Nat → Nat → Option Nat → MState → List MState
  | 0, _, _, x => [x]
  | fuel + 1, min, max, x =>
    if max = some 0 then [x]
    else
      let d := fun (y : MState) =>
        if min = 0 ∧ y.rest.length = x.rest.length then []
        else repeatMatcher m fuel (min - 1) (max.map (· - 1)) y
      if min ≠ 0 then (m x).flatMap d else (m x).flatMap d ++ [x]

/-- The backtracking matcher of ECMAScript: every way to match `r` at the start of the input,
in priority order; the head of the list is the match a JavaScript engine reports. -/
def matchRe (ic : Bool) : Regex → MState → List MState
  | .set inv items, x =>
    match x.rest with
    | [] => []
    | ch :: cs => if setMatches ic inv items ch then [⟨cs, x.cap⟩] else []
  | .seq a b, x => (matchRe ic a x).flatMap (matchRe ic b)
  | .rep r min max, x => repeatMatcher (matchRe ic r) (min + x.rest.length) min max x
  | .group r, x =>
    (matchRe ic r x).map fun y => ⟨y.rest, some (x.rest.take (x.rest.length - y.rest.length))⟩
  | .empty, x => [x]

/-- The loop of `RegExpBuiltinExec` for a pattern without `g` and `y`: the match at the first
start index that has one, every index up to the length of the input being tried. None of
the patterns looks behind the start index, so the matcher reads the suffix only. -/
def exec (re : RegExp) : List Char → Option MState
  | [] => (matchRe re.ignoreCase re.body ⟨[], none⟩).head?
  | c :: s =>
    match (matchRe re.ignoreCase re.body ⟨c :: s, none⟩).head? with
    | some y => some y
    | none => exec re s

/-- The method `test` of a regular expression. -/
def RegExp.test (re : RegExp) (s : List Char) : Bool := (exec re s).isSome

/-! ### Pattern syntax -/

/-- A run of literal characters. -/
def lit (s : String) : Regex := s.data.foldr (fun c r => .seq (.set false [.chr c]) r) .empty

/-- A class `[...]` of single characters. -/
def oneOf (s : String) : Regex := .set false (s.data.map .chr)

/-- The escape `\s`. -/
def ws : Regex := .set false [.space]

/-- The escape `\d`. -/
def dg : Regex := .set false [.digit]

/-- The quantifier `*`. -/
def star (r : Regex) : Regex := .rep r 0 none

/-- The quantifier `+`. -/
def plus (r : Regex) : Regex := .rep r 1 none

/-- The quantifier `?`. -/
def opt (r : Regex) : Regex := .rep r 0 (some 1)

/-- The quantifier `{n}`. -/
def times (n : Nat) (r : Regex) : Regex := .rep r n (some n)

/-- The quantifier `{n,m}`. -/
def between (n m : Nat) (r : Regex) : Regex := .rep r n (some m)

/-- Concatenation of a list of patterns. -/
def cat : List Regex → Regex
  | [] => .empty
  | r :: rs => .seq r (cat rs)

/-- The class `[a-z0-9\-]`. -/
def tokenChar : Regex := .set false [.range 'a' 'z', .range '0' '9', .chr '-']

/-- The class `[^\n\r]`. -/
def notLineBreak : Regex := .set true [.chr '\n', .chr '\r']

/-- The class of currency symbols `[\$৳€£]`. -/
def currencySymbol : Regex := oneOf "$৳€£"

/-- The date token `\d{1,2}[\/\-]\d{1,2}[\/\-]\d{2,4}`. -/
def dateToken : Regex :=
  cat [between 1 2 dg, oneOf "/-", between 1 2 dg, oneOf "/-", between 2 4 dg]

/-- The amount `\d+(?:,\d{3})*(?:\.\d{2})?`. -/
def amount : Regex :=
  cat [plus dg, star (cat [lit ",", times 3 dg]), opt (cat [lit ".", times 2 dg])]

/-- The percentage number `\d+(?:\.\d+)?`. -/
def percentNumber : Regex := cat [plus dg, opt (cat [lit ".", plus dg])]

/-- Patterns `/label\s*#?\s*:?\s*([a-z0-9\-]+)/i` of the invoice number. -/
def invoicePatterns : List RegExp :=
  [ ⟨true, cat [lit "invoice", star ws, opt (lit "#"), star ws, opt (lit ":"), star ws, .group (plus tokenChar)]⟩,
    ⟨true, cat [lit "inv", star ws, opt (lit "#"), star ws, opt (lit ":"), star ws, .group (plus tokenChar)]⟩,
    ⟨true, cat [lit "invoice", plus ws, lit "no", opt (lit "."), star ws, opt (lit ":"), star ws, .group (plus tokenChar)]⟩,
    ⟨true, cat [lit "bill", star ws, opt (lit "#"), star ws, opt (lit ":"), star ws, .group (plus tokenChar)]⟩,
    ⟨true, cat [lit "receipt", star ws, opt (lit "#"), star ws, opt (lit ":"), star ws, .group (plus tokenChar)]⟩ ]

/-- Patterns of the date: three labelled ones with the `i` flag, then the bare token. -/
def datePatterns : List RegExp :=
  [ ⟨true, cat [lit "date", star ws, opt (lit ":"), star ws, .group dateToken]⟩,
    ⟨true, cat [lit "invoice", plus ws, lit "date", star ws, opt (lit ":"), star ws, .group dateToken]⟩,
    ⟨true, cat [lit "issue", plus ws, lit "date", star ws, opt (lit ":"), star ws, .group dateToken]⟩,
    ⟨false, cat [.group dateToken]⟩ ]

/-- Patterns of the due date. -/
def dueDatePatterns : List RegExp :=
  [ ⟨true, cat [lit "due", plus ws, lit "date", star ws, opt (lit ":"), star ws, .group dateToken]⟩,
    ⟨true, cat [lit "payment", plus ws, lit "due", star ws, opt (lit ":"), star ws, .group dateToken]⟩,
    ⟨true, cat [lit "due", plus ws, lit "by", star ws, opt (lit ":"), star ws, .group dateToken]⟩ ]

/-- Patterns of the total amount. -/
def totalPatterns : List RegExp :=
  [ ⟨true, cat [lit "total", star ws, opt (lit ":"), star ws, opt currencySymbol, star ws, .group amount]⟩,
    ⟨true, cat [lit "grand", plus ws, lit "total", star ws, opt (lit ":"), star ws, opt currencySymbol, star ws, .group amount]⟩,
    ⟨true, cat [lit "amount", plus ws, lit "due", star ws, opt (lit ":"), star ws, opt currencySymbol, star ws, .group amount]⟩,
    ⟨true, cat [lit "balance", plus ws, lit "due", star ws, opt (lit ":"), star ws, opt currencySymbol, star ws, .group amount]⟩,
    ⟨true, cat [lit "net", plus ws, lit "amount", star ws, opt (lit ":"), star ws, opt currencySymbol, star ws, .group amount]⟩ ]

/-- Patterns `/label\s*:?\s*([^\n\r]+)/i` of the supplier name. -/
def supplierPatterns : List RegExp :=
  [ ⟨true, cat [lit "supplier", star ws, opt (lit ":"), star ws, .group (plus notLineBreak)]⟩,
    ⟨true, cat [lit "from", star ws, opt (lit ":"), star ws, .group (plus notLineBreak)]⟩,
    ⟨true, cat [lit "company", star ws, opt (lit ":"), star ws, .group (plus notLineBreak)]⟩,
    ⟨true, cat [lit "vendor", star ws, opt (lit ":"), star ws, .group (plus notLineBreak)]⟩,
    ⟨true, cat [lit "seller", star ws, opt (lit ":"), star ws, .group (plus notLineBreak)]⟩ ]

/-- Patterns of the customer name. -/
def customerPatterns : List RegExp :=
  [ ⟨true, cat [lit "bill", plus ws, lit "to", star ws, opt (lit ":"), star ws, .group (plus notLineBreak)]⟩,
    ⟨true, cat [lit "customer", star ws, opt (lit ":"), star ws, .group (plus notLineBreak)]⟩,
    ⟨true, cat [lit "client", star ws, opt (lit ":"), star ws, .group (plus notLineBreak)]⟩,
    ⟨true, cat [lit "to", star ws, opt (lit ":"), star ws, .group (plus notLineBreak)]⟩ ]

/-- Patterns of the supplier address. -/
def addressPatterns : List RegExp :=
  [ ⟨true, cat [lit "address", star ws, opt (lit ":"), star ws, .group (plus notLineBreak)]⟩,
    ⟨true, cat [lit "location", star ws, opt (lit ":"), star ws, .group (plus notLineBreak)]⟩ ]

/-- Patterns `/label\s*:?\s*(\d+(?:\.\d+)?)%/i` of the tax rate. -/
def taxPatterns : List RegExp :=
  [ ⟨true, cat [lit "tax", star ws, opt (lit ":"), star ws, .group percentNumber, lit "%"]⟩,
    ⟨true, cat [lit "vat", star ws, opt (lit ":"), star ws, .group percentNumber, lit "%"]⟩,
    ⟨true, cat [lit "gst", star ws, opt (lit ":"), star ws, .group percentNumber, lit "%"]⟩ ]

/-- Patterns of the discount rate. -/
def discountPatterns : List RegExp :=
  [ ⟨true, cat [lit "discount", star ws, opt (lit ":"), star ws, .group percentNumber, lit "%"]⟩,
    ⟨true, cat [lit "discount", plus ws, lit "rate", star ws, opt (lit ":"), star ws, .group percentNumber, lit "%"]⟩ ]

/-- The three shapes of an item line, none with the `i` flag and none with a group:
`/\d+\s*[x×]\s*[\$৳€£]?\s*\d+/`, `/\d+\s*@\s*[\$৳€£]?\s*\d+/` and `/\d+\s*[\$৳€£]?\s*\d+/`. -/
def itemShapes : List RegExp :=
  [ ⟨false, cat [plus dg, star ws, oneOf "x×", star ws, opt currencySymbol, star ws, plus dg]⟩,
    ⟨false, cat [plus dg, star ws, lit "@", star ws, opt currencySymbol, star ws, plus dg]⟩,
    ⟨false, cat [plus dg, star ws, opt currencySymbol, star ws, plus dg]⟩ ]

/-! ## Numbers -/

/-- A JavaScript number, as far as the extractor produces one. -/
inductive JSNumber where
  | nan
  | num (q : ℚ)
  deriving DecidableEq

/-- The operator `||` on numbers: the left operand unless it is `NaN` or zero. -/
def JSNumber.orElse (a b : JSNumber) : JSNumber :=
  match a with
  | .nan => b
  | .num q => if q = 0 then b else .num q

/-- Value of a digit in a radix, `none` for a character that is no digit of it. -/
def radixDigit (radix : Nat) (c : Char) : Option Nat :=
  let v := if 48 ≤ c.toNat ∧ c.toNat ≤ 57 then c.toNat - 48
    else if 97 ≤ c.toNat ∧ c.toNat ≤ 122 then c.toNat - 87
    else if 65 ≤ c.toNat ∧ c.toNat ≤ 90 then c.toNat - 55
    else radix
  if v < radix then some v else none

/-- Value of a run of digits in a radix, most significant first. -/
def digitsValue (radix : Nat) (s : List Char) : Nat :=
  s.foldl (fun acc c => acc * radix + (radixDigit radix c).getD 0) 0

/-- The number `parseInt` makes of a sign and a run of digits: `NaN` when there is no digit. -/
def signedDigits (neg : Bool) (radix : Nat) (ds : List Char) : JSNumber :=
  if ds = [] then .nan
  else if neg then .num (-(digitsValue radix ds : ℚ)) else .num (digitsValue radix ds : ℚ)

/-- The function `parseInt` with no radix argument: leading white space, a sign, the `0x`
marker, then the longest run of digits. -/
def parseInt (s : List Char) : JSNumber :=
  let s1 := s.dropWhile isWhiteSpace
  let s2 := if s1.head? = some '-' ∨ s1.head? = some '+' then s1.tail else s1
  let hex := startsWith ['0', 'x'] s2 || startsWith ['0', 'X'] s2
  let radix := if hex then 16 else 10
  let s3 := if hex then s2.drop 2 else s2
  signedDigits (s1.head? = some '-') radix (s3.takeWhile fun c => (radixDigit radix c).isSome)

/-- The function `parseFloat` on a string whose numeral has no sign and no exponent: leading
white space, then the longest prefix `digits`, `digits.digits` or `.digits`; `NaN` when
there is none. Every argument the extractor passes is either made of digits and `.` only
(a capture of a number pattern, or a token with all other characters removed) or the word
`undefined`, so the sign, the exponent and `Infinity` never arise. -/
def parseFloat (s : List Char) : JSNumber :=
  let s1 := s.dropWhile isWhiteSpace
  let ip := s1.takeWhile isDigit
  let fp := match s1.dropWhile isDigit with
    | '.' :: t => t.takeWhile isDigit
    | _ => []
  if ip = [] ∧ fp = [] then .nan
  else .num ((digitsValue 10 (ip ++ fp) : ℚ) / (10 : ℚ) ^ fp.length)

/-- What `ToString` makes of an array element or capture that may be `undefined`. -/
def toStringArg : Option (List Char) → List Char
  | some s => s
  | none => "undefined".data

/-! ## The extractor -/

/-- The only failure the function body can raise: a method called on `undefined`. -/
inductive JSError where
  | typeError
  deriving DecidableEq

/-- One entry of `items`. -/
structure Item where
  name : String
  quantity : JSNumber
  rate : JSNumber
  deriving DecidableEq

/-- The record `data` that `extractInvoiceData` returns. -/
structure InvoiceData where
  invoice_number : String
  date : String
  due_date : String
  total_amount : String
  supplier_name : String
  supplier_address : String
  customer_name : String
  customer_address : String
  items : List Item
  tax_rate : JSNumber
  discount_rate : JSNumber
  currency : String
  deriving DecidableEq

/-- The loop `for (const pattern of patterns) { const match = text.match(pattern); if (match)
{ ...match[1]...; break; } }`: `none` when no pattern matches, else `match[1]` of the first
pattern that does (`some none` is a match whose group 1 is `undefined`). -/
def firstMatch : List RegExp → List Char → Option (Option (List Char))
  | [], _ => none
  | p :: ps, text =>
    match exec p text with
    | some m => some m.cap
    | none => firstMatch ps text

/-- A field set by `data.f = match[1].trim()`; the default `''` stays when no pattern matches. -/
def trimmedField (patterns : List RegExp) (text : List Char) : Except JSError String :=
  match firstMatch patterns text with
  | none => pure ""
  | some none => throw .typeError
  | some (some s) => pure (String.mk (trim s))

/-- The field `total_amount`, set by `match[1].replace(/,/g, '').trim()`. -/
def totalField (text : List Char) : Except JSError String :=
  match firstMatch totalPatterns text with
  | none => pure ""
  | some none => throw .typeError
  | some (some s) => pure (String.mk (trim (s.filter fun c => c != ',')))

/-- A field set by `parseFloat(match[1])`; the default `0` stays when no pattern matches. -/
def rateField (patterns : List RegExp) (text : List Char) : JSNumber :=
  match firstMatch patterns text with
  | none => .num 0
  | some c => parseFloat (toStringArg c)

/-- The currency detection: an `if`/`else if` chain over `includes`. -/
def detectCurrency (text : List Char) : String :=
  if includes text ['$'] || includes (toLowerCase text) "usd".data then "USD"
  else if includes text ['৳'] || includes (toLowerCase text) "bdt".data then "BDT"
  else if includes text ['€'] || includes (toLowerCase text) "eur".data then "EUR"
  else if includes text ['£'] || includes (toLowerCase text) "gbp".data then "GBP"
  else "USD"

/-- The array `lines = text.split('\n')`. -/
def lines (text : List Char) : List (List Char) := splitOnChar '\n' text []

/-- The filter predicate of `itemLines`: one of the three shapes is found in the line. -/
def isItemLine (line : List Char) : Bool := itemShapes.any fun re => re.test line

/-- The array `itemLines`. -/
def itemLines (text : List Char) : List (List Char) := (lines text).filter isItemLine

/-- The array `parts = line.trim().split(/\s+/)`. -/
def parts (line : List Char) : List (List Char) := splitWhiteSpace (trim line) false []

/-- The callback of `map` over the item lines. `parts[parts.length - 1].replace(...)` raises on
an empty array; `parts[parts.length - 2]` may be `undefined`, which `parseInt` reads as the
word `undefined`. -/
def parseItemLine (line : List Char) : Except JSError Item :=
  let ps := parts line
  let name := joinSpace (ps.take (ps.length - 2))
  let quantity := (parseInt (toStringArg (if 2 ≤ ps.length then ps.get? (ps.length - 2) else none))).orElse (.num 1)
  match ps.getLast? with
  | none => throw .typeError
  | some last =>
    pure { name := String.mk (if name = [] then "Item".data else name),
           quantity := quantity,
           rate := (parseFloat (last.filter fun c => isDigit c || c == '.')).orElse (.num 0) }

/-- The call `itemLines.slice(0, 5).map(...)`: the callback applied in order; a failure of
the callback ends the call. -/
def mapItems : List (List Char) → Except JSError (List Item)
  | [] => pure []
  | l :: ls => do
    let it ← parseItemLine l
    let rest ← mapItems ls
    pure (it :: rest)

/-- The function `extractInvoiceData(text)`. The source also computes `cleanText` (white space
collapsed, lower case) and never reads it. `customer_address` is never assigned. -/
def extractInvoiceData (text : String) : Except JSError InvoiceData := do
  let invoice_number ← trimmedField invoicePatterns text.data
  let date ← trimmedField datePatterns text.data
  let due_date ← trimmedField dueDatePatterns text.data
  let total_amount ← totalField text.data
  let supplier_name ← trimmedField supplierPatterns text.data
  let customer_name ← trimmedField customerPatterns text.data
  let supplier_address ← trimmedField addressPatterns text.data
  let currency := detectCurrency text.data
  let tax_rate := rateField taxPatterns text.data
  let discount_rate := rateField discountPatterns text.data
  let parsed ← mapItems ((itemLines text.data).take 5)
  let items :=
    if parsed.length = 0 ∧ total_amount ≠ "" then
      [{ name := "Service/Item", quantity := .num 1, rate := parseFloat total_amount.data }]
    else parsed
  pure { invoice_number, date, due_date, total_amount, supplier_name, supplier_address,
         customer_name, customer_address := "", items, tax_rate, discount_rate, currency }


/-! ## Declarative reading of the patterns -/

/-- Whether a pattern contains the capturing group. -/
def Regex.hasGroup : Regex → Bool
  | .set _ _ => false
  | .seq a b => a.hasGroup || b.hasGroup
  | .rep r _ _ => r.hasGroup
  | .group _ => true
  | .empty => false

/-- The body of the capturing group of a pattern `a₁ a₂ … (g) b` whose parts other than the
group capture nothing; `none` for a pattern of another form. -/
def Regex.groupBody : Regex → Option Regex
  | .seq a b =>
    match a with
    | .group g => if g.hasGroup || b.hasGroup then none else some g
    | _ => if a.hasGroup then none else b.groupBody
  | _ => none

/-- The words a pattern matches, iteration by iteration as `RepeatMatcher` unfolds. -/
inductive Matches (ic : Bool) : Regex → List Char → Prop
  | set {inv : Bool} {items : List ClassItem} {c : Char} :
      setMatches ic inv items c = true → Matches ic (.set inv items) [c]
  | seq {a b : Regex} {u v : List Char} :
      Matches ic a u → Matches ic b v → Matches ic (.seq a b) (u ++ v)
  | repDone {r : Regex} {min : Nat} {max : Option Nat} :
      min = 0 ∨ max = some 0 → Matches ic (.rep r min max) []
  | repStep {r : Regex} {min : Nat} {max : Option Nat} {u v : List Char} :
      max ≠ some 0 → Matches ic r u → Matches ic (.rep r (min - 1) (max.map (· - 1))) v →
      Matches ic (.rep r min max) (u ++ v)
  | group {r : Regex} {w : List Char} : Matches ic r w → Matches ic (.group r) w
  | empty : Matches ic .empty []


/-! ## The returned record, field by field -/

/-- Value of a field set by `match[1].trim()`. -/
def fieldText (patterns : List RegExp) (text : List Char) : String :=
  match firstMatch patterns text with
  | some (some s) => String.mk (trim s)
  | _ => ""

/-- Value of `total_amount`. -/
def totalText (text : List Char) : String :=
  match firstMatch totalPatterns text with
  | some (some s) => String.mk (trim (s.filter fun c => c != ','))
  | _ => ""

/-- The item read from one kept line. -/
def itemOf (line : List Char) : Item :=
  let ps := parts line
  let name := joinSpace (ps.take (ps.length - 2))
  { name := String.mk (if name = [] then "Item".data else name),
    quantity := (parseInt (toStringArg (if 2 ≤ ps.length then ps.get? (ps.length - 2) else none))).orElse (.num 1),
    rate := (parseFloat ((ps.getLastD []).filter fun c => isDigit c || c == '.')).orElse (.num 0) }

/-- Value of `items`: the first five kept lines, or the item made from the total. -/
def itemsOf (text : List Char) : List Item :=
  if ((itemLines text).take 5).length = 0 ∧ totalText text ≠ "" then
    [{ name := "Service/Item", quantity := .num 1, rate := parseFloat (totalText text).data }]
  else ((itemLines text).take 5).map itemOf

/-- The record `extractInvoiceData` returns, see `extractInvoiceData_eq`. -/
def extractedRecord (text : String) : InvoiceData :=
  { invoice_number := fieldText invoicePatterns text.data,
    date := fieldText datePatterns text.data,
    due_date := fieldText dueDatePatterns text.data,
    total_amount := totalText text.data,
    supplier_name := fieldText supplierPatterns text.data,
    supplier_address := fieldText addressPatterns text.data,
    customer_name := fieldText customerPatterns text.data,
    customer_address := "",
    items := itemsOf text.data,
    tax_rate := rateField taxPatterns text.data,
    discount_rate := rateField discountPatterns text.data,
    currency := detectCurrency text.data }


/-! ## Notions of the specification -/

/-- Value of a run of decimal digits as a natural number, from the positional reading of
`Nat.ofDigits`. -/
def decimalValue (s : List Char) : Nat := Nat.ofDigits 10 (s.reverse.map fun c => c.toNat - 48)

/-- Text of a decimal numeral: the integer digits, then `.` and the fraction digits if any. -/
def numeralText (ip : List Char) : Option (List Char) → List Char
  | none => ip
  | some fp => ip ++ '.' :: fp

/-- Numeric value of a decimal numeral. -/
def numeralValue (ip : List Char) : Option (List Char) → ℚ
  | none => decimalValue ip
  | some fp => decimalValue ip + (decimalValue fp : ℚ) / 10 ^ fp.length


/-- A string of one or more decimal digits, optionally followed by `.` and exactly two
digits. -/
def IsPlainAmount (s : List Char) : Prop :=
  ∃ ds : List Char, ds ≠ [] ∧ (∀ c ∈ ds, isDigit c = true) ∧
    (s = ds ∨ ∃ a b : Char, isDigit a = true ∧ isDigit b = true ∧ s = ds ++ ['.', a, b])

/-- Whether `c` is the lower-case ASCII letter `k` or its upper-case form, 32 codes below. -/
def sameLetter (k c : Char) : Bool := c == k || c.toNat + 32 == k.toNat

/-- Whether the text starts with the word `kw`, given in lower case, in any letter case. -/
def startsWithAnyCase : List Char → List Char → Bool
  | [], _ => true
  | _ :: _, [] => false
  | k :: kw, c :: s => sameLetter k c && startsWithAnyCase kw s

/-- Whether the word `kw`, given in lower case, occurs in the text in any letter case. -/
def occursAnyCase (kw : List Char) : List Char → Bool
  | [] => startsWithAnyCase kw []
  | c :: s => startsWithAnyCase kw (c :: s) || occursAnyCase kw s

/-- A numeric date token: one or two digits, `/` or `-`, one or two digits, `/` or `-`, then
two or four digits. -/
def IsDateToken (tok : List Char) : Prop :=
  ∃ (d1 d2 d3 : List Char) (s1 s2 : Char), tok = d1 ++ s1 :: (d2 ++ s2 :: d3) ∧
    (∀ c ∈ d1 ++ d2 ++ d3, isDigit c = true) ∧
    (d1.length = 1 ∨ d1.length = 2) ∧ (d2.length = 1 ∨ d2.length = 2) ∧
    (d3.length = 2 ∨ d3.length = 4) ∧ (s1 = '/' ∨ s1 = '-') ∧ (s2 = '/' ∨ s2 = '-')

/-- The currency as the specification words it: the first of the four currencies, in the
order USD, BDT, EUR, GBP, whose symbol occurs in the text or whose code occurs in it in any
letter case; USD when there is none. -/
def currencyBySpec (text : List Char) : String :=
  if '$' ∈ text ∨ occursAnyCase "usd".data text = true then "USD"
  else if '৳' ∈ text ∨ occursAnyCase "bdt".data text = true then "BDT"
  else if '€' ∈ text ∨ occursAnyCase "eur".data text = true then "EUR"
  else if '£' ∈ text ∨ occursAnyCase "gbp".data text = true then "GBP"
  else "USD"

/-- Whether a character is an ASCII letter, `A` to `Z` or `a` to `z`. -/
def isAsciiLetter (c : Char) : Bool :=
  (65 ≤ c.toNat && c.toNat ≤ 90) || (97 ≤ c.toNat && c.toNat ≤ 122)

/-- Whether a character may stand in an invoice number: an ASCII letter, a digit or a
hyphen. -/
def isNumberChar (c : Char) : Bool := isAsciiLetter c || isDigit c || c == '-'


/-! ## Regular expression objects and their state -/

/-- A regular expression object: the pattern, the flags `g` and `y`, and the property
`lastIndex`, the only state of the object that a match reads or writes. -/
structure RegExpObject where
  source : RegExp
  global : Bool
  sticky : Bool
  lastIndex : Nat

/-- The operation `RegExpBuiltinExec`, behind `String.prototype.match` (for a pattern without
`g`) and `RegExp.prototype.test`: the match and the object as the call leaves it. The search
starts at `lastIndex` when the object has the flag `g` or `y` and at 0 otherwise; with one of
these flags the call writes `lastIndex`, the end of the match or 0 after a failure. -/
def regExpBuiltinExec (R : RegExpObject) (S : List Char) : Option MState × RegExpObject :=
  let start := if R.global || R.sticky then R.lastIndex else 0
  let result :=
    if start > S.length then none
    else if R.sticky then (matchRe R.source.ignoreCase R.source.body ⟨S.drop start, none⟩).head?
    else exec R.source (S.drop start)
  match result with
  | none => (none, if R.global || R.sticky then { R with lastIndex := 0 } else R)
  | some y =>
    (some y, if R.global || R.sticky then { R with lastIndex := S.length - y.rest.length } else R)

/-- The `lastIndex` of the objects of the regular expression literals of the function, by
the place of the literal in the source, 0 for the first. The source makes these objects anew
at every call, with `lastIndex` 0; the store lets them come with any value, such as an
earlier call could have left had the objects been kept. -/
abbrev RegexStore := Nat → Nat

/-- A match with the object of the `k`-th literal, none of which has the flag `g` or `y`. -/
def literalExec (k : Nat) (re : RegExp) (S : List Char) (σ : RegexStore) :
    Option MState × RegexStore :=
  let r := regExpBuiltinExec ⟨re, false, false, σ k⟩ S
  (r.1, Function.update σ k r.2.lastIndex)

/-- The loop over a list of patterns, from the `k`-th literal on, with the store threaded. -/
def firstMatchAt (k : Nat) : List RegExp → List Char → RegexStore →
    Option (Option (List Char)) × RegexStore
  | [], _, σ => (none, σ)
  | p :: ps, text, σ =>
    match literalExec k p text σ with
    | (some m, σ1) => (some m.cap, σ1)
    | (none, σ1) => firstMatchAt (k + 1) ps text σ1

/-- The disjunction `a.test(line) || b.test(line) || c.test(line)`, evaluated from the left
up to the first test that succeeds. -/
def testAnyAt (k : Nat) : List RegExp → List Char → RegexStore → Bool × RegexStore
  | [], _, σ => (false, σ)
  | p :: ps, line, σ =>
    match literalExec k p line σ with
    | (some _, σ1) => (true, σ1)
    | (none, σ1) => testAnyAt (k + 1) ps line σ1

/-- The call `lines.filter(...)`, line after line. -/
def filterLinesAt (k : Nat) : List (List Char) → RegexStore → List (List Char) × RegexStore
  | [], σ => ([], σ)
  | l :: ls, σ =>
    let t := testAnyAt k itemShapes l σ
    let rest := filterLinesAt k ls t.2
    (if t.1 then l :: rest.1 else rest.1, rest.2)

/-- A computation on the store that may raise. -/
abbrev Steps (α : Type) := RegexStore → Except JSError α × RegexStore

/-- One statement after another: a failure ends the run with the store as it is. -/
def Steps.andThen {α β : Type} (x : Steps α) (f : α → Steps β) : Steps β := fun σ =>
  match x σ with
  | (.ok a, σ1) => f a σ1
  | (.error e, σ1) => (.error e, σ1)

/-- The statement `data.f = match[1].trim()` inside the loop over the patterns of a field. -/
def trimmedFieldAt (k : Nat) (patterns : List RegExp) (text : List Char) : Steps String :=
  fun σ =>
    match firstMatchAt k patterns text σ with
    | (none, σ1) => (.ok "", σ1)
    | (some none, σ1) => (.error .typeError, σ1)
    | (some (some s), σ1) => (.ok (String.mk (trim s)), σ1)

/-- The statement `data.total_amount = match[1].replace(/,/g, '').trim()` inside its loop. The
literal `/,/g` has the flag `g`, but `replace` sets the `lastIndex` of its object to 0 before
it starts and leaves it at 0, and the object is made for this one call. -/
def totalFieldAt (k : Nat) (text : List Char) : Steps String := fun σ =>
  match firstMatchAt k totalPatterns text σ with
  | (none, σ1) => (.ok "", σ1)
  | (some none, σ1) => (.error .typeError, σ1)
  | (some (some s), σ1) => (.ok (String.mk (trim (s.filter fun c => c != ','))), σ1)

/-- The statement `data.f = parseFloat(match[1])` inside the loop over the patterns of a rate. -/
def rateFieldAt (k : Nat) (patterns : List RegExp) (text : List Char) : Steps JSNumber :=
  fun σ =>
    match firstMatchAt k patterns text σ with
    | (none, σ1) => (.ok (.num 0), σ1)
    | (some c, σ1) => (.ok (parseFloat (toStringArg c)), σ1)

/-- The statement `const itemLines = lines.filter(...)`. -/
def itemLinesAt (k : Nat) (text : List Char) : Steps (List (List Char)) := fun σ =>
  let r := filterLinesAt k (lines text) σ
  (.ok r.1, r.2)

/-- The statement `data.items = itemLines.slice(0, 5).map(...)`, which uses no regular
expression object: the literals `/\s+/` and `/[^\d.]/g` serve `split` and `replace`, which
leave no state in them. -/
def parsedItemsOf (kept : List (List Char)) : Steps (List Item) := fun σ =>
  (mapItems (kept.take 5), σ)

/-- The body of `extractInvoiceData` statement by statement, with the state of its regular
expression objects; the literals passed to `match` and `test` are numbered 0 to 35 in the
order of the source. The literal `/\s+/g` of the unused `cleanText` is passed to `replace`
and keeps no state either. -/
def extractInvoiceDataWith (text : String) : Steps InvoiceData :=
  Steps.andThen (trimmedFieldAt 0 invoicePatterns text.data) fun invoice_number =>
  Steps.andThen (trimmedFieldAt 5 datePatterns text.data) fun date =>
  Steps.andThen (trimmedFieldAt 9 dueDatePatterns text.data) fun due_date =>
  Steps.andThen (totalFieldAt 12 text.data) fun total_amount =>
  Steps.andThen (trimmedFieldAt 17 supplierPatterns text.data) fun supplier_name =>
  Steps.andThen (trimmedFieldAt 22 customerPatterns text.data) fun customer_name =>
  Steps.andThen (trimmedFieldAt 26 addressPatterns text.data) fun supplier_address =>
  Steps.andThen (rateFieldAt 28 taxPatterns text.data) fun tax_rate =>
  Steps.andThen (rateFieldAt 31 discountPatterns text.data) fun discount_rate =>
  Steps.andThen (itemLinesAt 33 text.data) fun kept =>
  Steps.andThen (parsedItemsOf kept) fun parsed => fun σ =>
    (.ok { invoice_number, date, due_date, total_amount, supplier_name, supplier_address,
           customer_name, customer_address := "",
           items := if parsed.length = 0 ∧ total_amount ≠ "" then
               [{ name := "Service/Item", quantity := .num 1,
                  rate := parseFloat total_amount.data }]
             else parsed,
           tax_rate, discount_rate, currency := detectCurrency text.data }, σ)


/-! ## Notions of the specification: amounts, labelled dates, letter case -/

/-- A group `,ddd` of an amount: a comma and three digits. -/
def IsCommaGroup (g : List Char) : Prop :=
  ∃ x y z : Char, isDigit x = true ∧ isDigit y = true ∧ isDigit z = true ∧ g = [',', x, y, z]

/-- An amount as the specification words it: one or more digits, then any number of groups
`,ddd`, then optionally `.` and two digits. -/
def IsAmountText (a : List Char) : Prop :=
  ∃ (ds : List Char) (gs : List (List Char)) (fr : List Char),
    ds ≠ [] ∧ (∀ c ∈ ds, isDigit c = true) ∧ (∀ g ∈ gs, IsCommaGroup g) ∧
    (fr = [] ∨ ∃ p q : Char, isDigit p = true ∧ isDigit q = true ∧ fr = ['.', p, q]) ∧
    a = ds ++ (gs.flatten ++ fr)

/-- A text with its commas removed: `replace(/,/g, '')`. -/
def removeCommas (s : List Char) : List Char := s.filter fun c => c != ','

/-- The text has, after `pre`, the label `date` in any letter case, white space, an optional
`:`, white space, then `tok`, then `rest`. -/
def LabeledDateAt (text pre tok rest : List Char) : Prop :=
  ∃ lab g1 col g2 : List Char,
    text = pre ++ (lab ++ (g1 ++ (col ++ (g2 ++ (tok ++ rest))))) ∧
    lab.length = 4 ∧ startsWithAnyCase "date".data lab = true ∧
    (∀ c ∈ g1, isWhiteSpace c = true) ∧ (col = [] ∨ col = [':']) ∧
    (∀ c ∈ g2, isWhiteSpace c = true)

/-- A date token as the pattern `\d{1,2}[\/\-]\d{1,2}[\/\-]\d{2,4}` reads it greedily before
`rest`: one or two digits, a separator, one or two digits, a separator, then two to four
digits, as many as there are up to four. -/
def IsCapturedDate (tok rest : List Char) : Prop :=
  ∃ (d1 d2 d3 : List Char) (s1 s2 : Char), tok = d1 ++ s1 :: (d2 ++ s2 :: d3) ∧
    (∀ c ∈ d1 ++ d2 ++ d3, isDigit c = true) ∧
    (d1.length = 1 ∨ d1.length = 2) ∧ (d2.length = 1 ∨ d2.length = 2) ∧
    (2 ≤ d3.length ∧ d3.length ≤ 4) ∧ (s1 = '/' ∨ s1 = '-') ∧ (s2 = '/' ∨ s2 = '-') ∧
    (d3.length = 4 ∨ ∀ c, rest.head? = some c → isDigit c = false)

/-- Whether `c2` is `c` or the other letter case of the ASCII letter `c`. -/
def sameUpToCase (c c2 : Char) : Bool :=
  c2 == c || (isAsciiLetter c && isAsciiLetter c2 &&
    (c2.toNat == c.toNat + 32 || c.toNat == c2.toNat + 32))

/-- Whether `t2` is `t` with the letter case of some of its ASCII letters changed. -/
def caseVariant : List Char → List Char → Bool
  | [], [] => true
  | c :: t, c2 :: t2 => sameUpToCase c c2 && caseVariant t t2
  | _, _ => false

/-- Whether two captures are both `undefined` or the same up to letter case. -/
def capVariant : Option (List Char) → Option (List Char) → Bool
  | none, none => true
  | some a, some b => caseVariant a b
  | _, _ => false

/-- Two states of a match on two texts that differ in letter case only. -/
def StateVariant (x x2 : MState) : Prop :=
  caseVariant x.rest x2.rest = true ∧ capVariant x.cap x2.cap = true

/-- Every character set of the pattern treats the two letter cases of a letter alike. -/
def Regex.caseStable (ic : Bool) : Regex → Prop
  | .set inv items =>
    ∀ c c2, sameUpToCase c c2 = true → setMatches ic inv items c = setMatches ic inv items c2
  | .seq a b => a.caseStable ic ∧ b.caseStable ic
  | .rep r _ _ => r.caseStable ic
  | .group r => r.caseStable ic
  | .empty => True

/-! ## The function without four of its patterns -/

/-- The invoice number patterns without the third one, `invoice no.`. -/
def invoicePatternsKept : List RegExp := invoicePatterns.eraseIdx 2

/-- The date patterns without the second and the third one, `invoice date` and
`issue date`. -/
def datePatternsKept : List RegExp := (datePatterns.eraseIdx 2).eraseIdx 1

/-- The total patterns without the second one, `grand total`. -/
def totalPatternsKept : List RegExp := totalPatterns.eraseIdx 1

/-- The assignment of `total_amount` over a given list of patterns. -/
def totalFieldOf (patterns : List RegExp) (text : List Char) : Except JSError String :=
  match firstMatch patterns text with
  | none => pure ""
  | some none => throw .typeError
  | some (some s) => pure (String.mk (trim (s.filter fun c => c != ',')))

/-- The variant of `extractInvoiceData` the specification compares with: the same body, with
the patterns `invoice no.`, `invoice date`, `issue date` and `grand total` taken out of
their lists. -/
def extractWithoutShadowed (text : String) : Except JSError InvoiceData := do
  let invoice_number ← trimmedField invoicePatternsKept text.data
  let date ← trimmedField datePatternsKept text.data
  let due_date ← trimmedField dueDatePatterns text.data
  let total_amount ← totalFieldOf totalPatternsKept text.data
  let supplier_name ← trimmedField supplierPatterns text.data
  let customer_name ← trimmedField customerPatterns text.data
  let supplier_address ← trimmedField addressPatterns text.data
  let currency := detectCurrency text.data
  let tax_rate := rateField taxPatterns text.data
  let discount_rate := rateField discountPatterns text.data
  let parsed ← mapItems ((itemLines text.data).take 5)
  let items :=
    if parsed.length = 0 ∧ total_amount ≠ "" then
      [{ name := "Service/Item", quantity := .num 1, rate := parseFloat total_amount.data }]
    else parsed
  pure { invoice_number, date, due_date, total_amount, supplier_name, supplier_address,
         customer_name, customer_address := "", items, tax_rate, discount_rate, currency }

/-! ## The client: invoices waiting to be sent

The component `App` of `src/client/App.js` keeps the invoices that could not be sent in the
state `pendingInvoices` and in the item `pendingInvoices` of `localStorage`. State and
storage are passed explicitly; every call of `fetch` has one outcome. -/

/-- An invoice object of the client: the properties of the payload of `saveInvoice`, and the
property `id`, which an object may lack (`none` is `undefined`). -/
structure ClientInvoice where
  processed_data : String
  status : String
  created_at : String
  id : Option String
  deriving DecidableEq

/-- The operator `a || b` on a string that may be `undefined`: the empty string is falsy. -/
def orDefault (a : Option String) (b : String) : String :=
  match a with
  | some s => if s = "" then b else s
  | none => b

/-- The object `invoicePayload` of `saveInvoice`: three properties, no `id`. The last
argument is `new Date().toISOString()`. -/
def invoicePayload (processed_data : String) (status created_at : Option String)
    (now : String) : ClientInvoice :=
  { processed_data := processed_data,
    status := orDefault status "created",
    created_at := orDefault created_at now,
    id := none }

/-- The state `pendingInvoices` of the component and the item `pendingInvoices` of
`localStorage` (`none` before the first `setItem`). `JSON.stringify` keeps the three
properties and the `id` when there is one. -/
structure PendingStore where
  pendingInvoices : List ClientInvoice
  stored : Option (List ClientInvoice)
  deriving DecidableEq

/-- The function `savePendingInvoice`: the invoice is appended, in the state and in storage. -/
def savePendingInvoice (invoiceData : ClientInvoice) (st : PendingStore) : PendingStore :=
  let newPending := st.pendingInvoices ++ [invoiceData]
  { pendingInvoices := newPending, stored := some newPending }

/-- Outcome of one `fetch` of `syncPendingInvoices`: a response with `ok`, a response
without it, or a rejected promise (the `catch` branch). -/
inductive PostOutcome where
  | ok
  | notOk
  | threw
  deriving DecidableEq

/-- One turn of the loop of `syncPendingInvoices` for `invoice`. On `response.ok` the state
is updated with `prev => prev.filter(inv => inv.id !== invoice.id)` and storage is set to
`pendingInvoices.filter(inv => inv.id !== invoice.id)`, where `pendingInvoices` is the list
the function was called with. Nothing changes otherwise. -/
def syncStep (pendingInvoices : List ClientInvoice) (invoice : ClientInvoice)
    (outcome : PostOutcome) (st : PendingStore) : PendingStore :=
  match outcome with
  | .ok =>
    { pendingInvoices := st.pendingInvoices.filter fun inv => inv.id != invoice.id,
      stored := some (pendingInvoices.filter fun inv => inv.id != invoice.id) }
  | _ => st

/-- The loop `for (const invoice of pendingInvoices)`, one invoice after the other; `post k`
is the outcome of the request of the invoice at index `k`. -/
def syncLoop (pendingInvoices : List ClientInvoice) (post : Nat → PostOutcome) :
    List ClientInvoice → Nat → PendingStore → PendingStore
  | [], _, st => st
  | invoice :: rest, k, st =>
    syncLoop pendingInvoices post rest (k + 1) (syncStep pendingInvoices invoice (post k) st)

/-- The function `syncPendingInvoices`. -/
def syncPendingInvoices (post : Nat → PostOutcome) (st : PendingStore) : PendingStore :=
  if st.pendingInvoices.length = 0 then st
  else syncLoop st.pendingInvoices post st.pendingInvoices 0 st

/-- The pending list the specification describes after a pass: the invoices whose request
did not succeed, in their order. -/
def unsentInvoices (post : Nat → PostOutcome) : List ClientInvoice → Nat → List ClientInvoice
  | [], _ => []
  | invoice :: rest, k =>
    if post k = .ok then unsentInvoices post rest (k + 1)
    else invoice :: unsentInvoices post rest (k + 1)

/-! ## The client: totals of the invoice form

The component `InvoiceCreator` of `src/client/App.js`, over exact arithmetic. -/

/-- One entry of `invoiceData.items` of the form. -/
structure FormItem where
  name : String
  quantity : ℚ
  rate : ℚ

/-- The part of the state `invoiceData` the totals read. -/
structure FormData where
  items : List FormItem
  tax_rate : ℚ
  discount_rate : ℚ

/-- The function `calculateSubtotal`: `items.reduce((sum, item) => sum + (item.quantity * item.rate), 0)`. -/
def calculateSubtotal (invoiceData : FormData) : ℚ :=
  invoiceData.items.foldl (fun sum item => sum + item.quantity * item.rate) 0

/-- The function `calculateTax`. -/
def calculateTax (invoiceData : FormData) : ℚ :=
  (calculateSubtotal invoiceData * invoiceData.tax_rate) / 100

/-- The function `calculateDiscount`. -/
def calculateDiscount (invoiceData : FormData) : ℚ :=
  (calculateSubtotal invoiceData * invoiceData.discount_rate) / 100

/-- The function `calculateTotal`. -/
def calculateTotal (invoiceData : FormData) : ℚ :=
  calculateSubtotal invoiceData + calculateTax invoiceData - calculateDiscount invoiceData


/-! ## The matcher: general facts -/

theorem mem_repeatMatcher_rel {m : MState → List MState} (P : MState → MState → Prop)
    (hrefl : ∀ x, P x x) (htrans : ∀ x y z, P x y → P y z → P x z)
    (hm : ∀ x y, y ∈ m x → P x y) :
    ∀ (fuel min : Nat) (max : Option Nat) (x y : MState),
      y ∈ repeatMatcher m fuel min max x → P x y := by
  intro fuel
  induction fuel with
  | zero =>
    intro min max x y h
    simp [repeatMatcher] at h
    subst h; exact hrefl _
  | succ fuel ih =>
    intro min max x y h
    rw [repeatMatcher] at h
    by_cases hmax : max = some 0
    · simp [hmax] at h
      subst h; exact hrefl _
    · have key : ∀ y1 ∈ m x, y ∈ (if min = 0 ∧ y1.rest.length = x.rest.length then []
          else repeatMatcher m fuel (min - 1) (max.map (· - 1)) y1) → P x y := by
        intro y1 hy1 hy
        split at hy
        · simp at hy
        · exact htrans _ _ _ (hm _ _ hy1) (ih _ _ _ _ hy)
      simp only [hmax, if_false] at h
      split at h
      · rcases List.mem_flatMap.1 h with ⟨y1, hy1, hy⟩
        exact key y1 hy1 hy
      · rcases List.mem_append.1 h with h | h
        · rcases List.mem_flatMap.1 h with ⟨y1, hy1, hy⟩
          exact key y1 hy1 hy
        · simp at h
          subst h; exact hrefl _

/-- Every result of the matcher leaves a suffix of the input it was given. -/
theorem matchRe_suffix (ic : Bool) (r : Regex) :
    ∀ x y, y ∈ matchRe ic r x → y.rest <:+ x.rest := by
  induction r with
  | set inv items =>
    intro x y h
    simp only [matchRe] at h
    split at h
    · simp at h
    · rename_i ch cs heq
      split at h
      · simp at h
        subst h
        rw [heq]
        exact List.suffix_cons _ _
      · simp at h
  | seq a b iha ihb =>
    intro x y h
    simp only [matchRe] at h
    rcases List.mem_flatMap.1 h with ⟨y1, h1, h2⟩
    exact (ihb _ _ h2).trans (iha _ _ h1)
  | rep r min max ih =>
    intro x y h
    simp only [matchRe] at h
    exact mem_repeatMatcher_rel (fun x y => y.rest <:+ x.rest) (fun _ => List.suffix_refl _)
      (fun _ _ _ h1 h2 => h2.trans h1) ih _ _ _ _ _ h
  | group r ih =>
    intro x y h
    simp only [matchRe] at h
    rcases List.mem_map.1 h with ⟨y1, h1, h2⟩
    subst h2
    exact ih x y1 h1
  | empty =>
    intro x y h
    simp [matchRe] at h
    subst h
    exact List.suffix_refl _

/-- A pattern without the group leaves the capture as it was. -/
theorem matchRe_cap_of_noGroup (ic : Bool) (r : Regex) :
    r.hasGroup = false → ∀ x y, y ∈ matchRe ic r x → y.cap = x.cap := by
  induction r with
  | set inv items =>
    intro _ x y h
    simp only [matchRe] at h
    split at h
    · simp at h
    · split at h
      · simp at h
        subst h
        rfl
      · simp at h
  | seq a b iha ihb =>
    intro hg x y h
    simp only [Regex.hasGroup, Bool.or_eq_false_iff] at hg
    simp only [matchRe] at h
    rcases List.mem_flatMap.1 h with ⟨y1, h1, h2⟩
    rw [ihb hg.2 _ _ h2, iha hg.1 _ _ h1]
  | rep r min max ih =>
    intro hg x y h
    simp only [Regex.hasGroup] at hg
    simp only [matchRe] at h
    exact mem_repeatMatcher_rel (fun x y => y.cap = x.cap) (fun _ => rfl)
      (fun _ _ _ h1 h2 => h2.trans h1) (ih hg) _ _ _ _ _ h
  | group r _ =>
    intro hg
    simp [Regex.hasGroup] at hg
  | empty =>
    intro _ x y h
    simp [matchRe] at h
    subst h
    rfl

theorem mem_repeatMatcher_sound (ic : Bool) (r : Regex)
    (ih : ∀ x y, y ∈ matchRe ic r x → ∃ w, x.rest = w ++ y.rest ∧ Matches ic r w) :
    ∀ (fuel min : Nat) (max : Option Nat) (x y : MState), min ≤ fuel →
      y ∈ repeatMatcher (matchRe ic r) fuel min max x →
      ∃ w, x.rest = w ++ y.rest ∧ Matches ic (.rep r min max) w := by
  intro fuel
  induction fuel with
  | zero =>
    intro min max x y hmin h
    simp [repeatMatcher] at h
    subst h
    exact ⟨[], rfl, Matches.repDone (Or.inl (by omega))⟩
  | succ fuel ihf =>
    intro min max x y hmin h
    rw [repeatMatcher] at h
    by_cases hmax : max = some 0
    · simp [hmax] at h
      subst h
      exact ⟨[], rfl, Matches.repDone (Or.inr hmax)⟩
    · have key : ∀ y1 ∈ matchRe ic r x, y ∈ (if min = 0 ∧ y1.rest.length = x.rest.length then []
          else repeatMatcher (matchRe ic r) fuel (min - 1) (max.map (· - 1)) y1) →
          ∃ w, x.rest = w ++ y.rest ∧ Matches ic (.rep r min max) w := by
        intro y1 hy1 hy
        split at hy
        · simp at hy
        · rcases ih _ _ hy1 with ⟨u, hu, hmu⟩
          rcases ihf _ _ _ _ (by omega) hy with ⟨v, hv, hmv⟩
          exact ⟨u ++ v, by rw [hu, hv, List.append_assoc], Matches.repStep hmax hmu hmv⟩
      simp only [hmax, if_false] at h
      split at h
      · rcases List.mem_flatMap.1 h with ⟨y1, hy1, hy⟩
        exact key y1 hy1 hy
      · rename_i hmin0
        rcases List.mem_append.1 h with h | h
        · rcases List.mem_flatMap.1 h with ⟨y1, hy1, hy⟩
          exact key y1 hy1 hy
        · simp at h
          subst h
          exact ⟨[], rfl, Matches.repDone (Or.inl (by simpa using hmin0))⟩

/-- Soundness of the matcher: what it reads is a word of the pattern. -/
theorem matchRe_sound (ic : Bool) (r : Regex) :
    ∀ x y, y ∈ matchRe ic r x → ∃ w, x.rest = w ++ y.rest ∧ Matches ic r w := by
  induction r with
  | set inv items =>
    intro x y h
    simp only [matchRe] at h
    split at h
    · simp at h
    · rename_i ch cs heq
      split at h
      · rename_i hset
        simp at h
        subst h
        exact ⟨[ch], by simpa using heq, Matches.set hset⟩
      · simp at h
  | seq a b iha ihb =>
    intro x y h
    simp only [matchRe] at h
    rcases List.mem_flatMap.1 h with ⟨y1, h1, h2⟩
    rcases iha _ _ h1 with ⟨u, hu, hmu⟩
    rcases ihb _ _ h2 with ⟨v, hv, hmv⟩
    exact ⟨u ++ v, by rw [hu, hv, List.append_assoc], Matches.seq hmu hmv⟩
  | rep r min max ih =>
    intro x y h
    simp only [matchRe] at h
    exact mem_repeatMatcher_sound ic r ih _ _ _ _ _ (by omega) h
  | group r ih =>
    intro x y h
    simp only [matchRe] at h
    rcases List.mem_map.1 h with ⟨y1, h1, h2⟩
    subst h2
    rcases ih _ _ h1 with ⟨w, hw, hmw⟩
    exact ⟨w, hw, Matches.group hmw⟩
  | empty =>
    intro x y h
    simp [matchRe] at h
    subst h
    exact ⟨[], rfl, Matches.empty⟩


theorem flatMap_eq_of_forall {α β : Type} (l : List α) (f g : α → List β)
    (h : ∀ a ∈ l, f a = g a) : l.flatMap f = l.flatMap g := by
  induction l with
  | nil => rfl
  | cons a l ih =>
    simp only [List.flatMap_cons]
    rw [h a (List.mem_cons_self _ _), ih (fun b hb => h b (List.mem_cons_of_mem _ hb))]

theorem repeatMatcher_done (m : MState → List MState)
    (hm : ∀ x y, y ∈ m x → y.rest <:+ x.rest) (fuel : Nat) (max : Option Nat) (x : MState)
    (hx : x.rest.length = 0) : repeatMatcher m fuel 0 max x = [x] := by
  cases fuel with
  | zero => rfl
  | succ fuel =>
    rw [repeatMatcher]
    by_cases hmax : max = some 0
    · simp [hmax]
    · simp only [hmax, if_false, ne_eq, not_true_eq_false, true_and]
      have : ∀ y ∈ m x, (if y.rest.length = x.rest.length then []
          else repeatMatcher m fuel (0 - 1) (max.map (· - 1)) y) = ([] : List MState) := by
        intro y hy
        have := (hm x y hy).length_le
        rw [if_pos (by omega)]
      rw [flatMap_eq_of_forall _ _ (fun _ => []) this]
      simp

/-- The bound on iterations never cuts a repetition short: any bound of at least `min` plus
the length of the input gives the same results. -/
theorem repeatMatcher_fuel (m : MState → List MState)
    (hm : ∀ x y, y ∈ m x → y.rest <:+ x.rest) :
    ∀ (f1 f2 min : Nat) (max : Option Nat) (x : MState),
      min + x.rest.length ≤ f1 → min + x.rest.length ≤ f2 →
      repeatMatcher m f1 min max x = repeatMatcher m f2 min max x := by
  intro f1
  induction f1 with
  | zero =>
    intro f2 min max x h1 _
    have hmin : min = 0 := by omega
    subst hmin
    rw [repeatMatcher_done m hm 0 max x (by omega), repeatMatcher_done m hm f2 max x (by omega)]
  | succ f1 ih =>
    intro f2 min max x h1 h2
    cases f2 with
    | zero =>
      have hmin : min = 0 := by omega
      subst hmin
      rw [repeatMatcher_done m hm 0 max x (by omega),
        repeatMatcher_done m hm (f1 + 1) max x (by omega)]
    | succ f2 =>
      rw [repeatMatcher, repeatMatcher]
      by_cases hmax : max = some 0
      · simp [hmax]
      · have key : ∀ y ∈ m x,
            (if min = 0 ∧ y.rest.length = x.rest.length then []
              else repeatMatcher m f1 (min - 1) (max.map (· - 1)) y)
            = (if min = 0 ∧ y.rest.length = x.rest.length then []
              else repeatMatcher m f2 (min - 1) (max.map (· - 1)) y) := by
          intro y hy
          have hle := (hm x y hy).length_le
          by_cases hc : min = 0 ∧ y.rest.length = x.rest.length
          · rw [if_pos hc, if_pos hc]
          · rw [if_neg hc, if_neg hc]
            exact ih f2 (min - 1) _ y (by omega) (by omega)
        simp only [hmax, if_false]
        rw [flatMap_eq_of_forall _ _ _ key]

/-- The repetition of the matcher with any larger bound on iterations. -/
theorem matchRe_rep_fuel (ic : Bool) (r : Regex) (min : Nat) (max : Option Nat) (x : MState)
    (fuel : Nat) (h : min + x.rest.length ≤ fuel) :
    repeatMatcher (matchRe ic r) fuel min max x = matchRe ic (.rep r min max) x := by
  simp only [matchRe]
  exact repeatMatcher_fuel _ (matchRe_suffix ic r) _ _ _ _ _ h (le_refl _)


/-! ## Captures -/

/-- The capture of a pattern whose group is not optional is always set, and it is a word of
the body of the group. -/
theorem matchRe_cap_of_groupBody (ic : Bool) (r g : Regex) :
    r.groupBody = some g → ∀ x y, y ∈ matchRe ic r x → ∃ w, y.cap = some w ∧ Matches ic g w := by
  induction r with
  | set inv items => intro h; simp [Regex.groupBody] at h
  | rep r min max _ => intro h; simp [Regex.groupBody] at h
  | group r _ => intro h; simp [Regex.groupBody] at h
  | empty => intro h; simp [Regex.groupBody] at h
  | seq a b _ ihb =>
    intro h x y hy
    simp only [matchRe] at hy
    rcases List.mem_flatMap.1 hy with ⟨y1, h1, h2⟩
    have other : a.hasGroup = false → b.groupBody = some g →
        ∃ w, y.cap = some w ∧ Matches ic g w := fun _ hb => ihb hb _ _ h2
    cases a with
    | group g0 =>
      simp only [Regex.groupBody] at h
      split at h
      · simp at h
      · rename_i hng
        simp only [Bool.or_eq_true, not_or, Bool.not_eq_true] at hng
        simp only [Option.some.injEq] at h
        subst h
        simp only [matchRe] at h1
        rcases List.mem_map.1 h1 with ⟨y0, h0, e⟩
        rcases matchRe_sound ic g0 _ _ h0 with ⟨w, hw, hmw⟩
        refine ⟨w, ?_, hmw⟩
        rw [matchRe_cap_of_noGroup ic b hng.2 _ _ h2, ← e, hw]
        simp
    | set inv items =>
      simp only [Regex.groupBody, Regex.hasGroup] at h
      exact other rfl (by simpa using h)
    | seq a1 a2 =>
      simp only [Regex.groupBody] at h
      split at h
      · simp at h
      · rename_i hng
        exact other (by simpa using hng) h
    | rep a1 min max =>
      simp only [Regex.groupBody] at h
      split at h
      · simp at h
      · rename_i hng
        exact other (by simpa using hng) h
    | empty =>
      simp only [Regex.groupBody, Regex.hasGroup] at h
      exact other rfl (by simpa using h)

/-! ## The search loop -/

/-- A match that `exec` reports is the first result of the matcher at some start index. -/
theorem exec_eq_some (re : RegExp) :
    ∀ (s : List Char) (y : MState), exec re s = some y →
      ∃ t, t <:+ s ∧ (matchRe re.ignoreCase re.body ⟨t, none⟩).head? = some y := by
  intro s
  induction s with
  | nil =>
    intro y h
    exact ⟨[], List.suffix_refl _, by simpa [exec] using h⟩
  | cons c s ih =>
    intro y h
    rw [exec] at h
    split at h
    · rename_i y0 h0
      simp only [Option.some.injEq] at h
      subst h
      exact ⟨c :: s, List.suffix_refl _, h0⟩
    · rcases ih y h with ⟨t, ht, hy⟩
      exact ⟨t, ht.trans (List.suffix_cons _ _), hy⟩

/-- When `exec` reports no match, the matcher fails at every start index. -/
theorem exec_eq_none (re : RegExp) :
    ∀ (s : List Char), exec re s = none →
      ∀ t, t <:+ s → matchRe re.ignoreCase re.body ⟨t, none⟩ = [] := by
  intro s
  induction s with
  | nil =>
    intro h t ht
    have : t = [] := List.suffix_nil.1 ht
    subst this
    simpa [exec] using h
  | cons c s ih =>
    intro h t ht
    rw [exec] at h
    split at h
    · simp at h
    · rename_i h0
      rcases List.suffix_cons_iff.1 ht with e | ht
      · subst e
        simpa using h0
      · exact ih h t ht

/-- A start index at which the matcher succeeds makes `exec` report a match. -/
theorem exec_isSome_of_suffix (re : RegExp) (s t : List Char) (ht : t <:+ s)
    (h : matchRe re.ignoreCase re.body ⟨t, none⟩ ≠ []) : (exec re s).isSome = true := by
  cases he : exec re s with
  | some y => rfl
  | none => exact absurd (exec_eq_none re s he t ht) h

/-- Start indices at which the matcher fails are passed over. -/
theorem exec_skip (re : RegExp) (pre t : List Char)
    (hpre : ∀ c ∈ pre, ∀ s, matchRe re.ignoreCase re.body ⟨c :: s, none⟩ = []) :
    exec re (pre ++ t) = exec re t := by
  induction pre with
  | nil => rfl
  | cons c pre ih =>
    have hc := hpre c (List.mem_cons_self _ _) (pre ++ t)
    have := ih (fun c hc => hpre c (List.mem_cons_of_mem _ hc))
    rw [List.cons_append, exec, hc]
    simpa using this

/-- The capture reported by the loop over a list of patterns comes from a match of one of
them. -/
theorem firstMatch_eq_some (patterns : List RegExp) (text : List Char) (c : Option (List Char)) :
    firstMatch patterns text = some c →
      ∃ p ∈ patterns, ∃ y, exec p text = some y ∧ y.cap = c := by
  induction patterns with
  | nil => intro h; simp [firstMatch] at h
  | cons p ps ih =>
    intro h
    rw [firstMatch] at h
    split at h
    · rename_i m hm
      simp only [Option.some.injEq] at h
      exact ⟨p, List.mem_cons_self _ _, m, hm, h⟩
    · rcases ih h with ⟨q, hq, y, hy, hc⟩
      exact ⟨q, List.mem_cons_of_mem _ hq, y, hy, hc⟩

/-- The loop finds nothing exactly when no pattern of the list matches. -/
theorem firstMatch_eq_none (patterns : List RegExp) (text : List Char) :
    firstMatch patterns text = none ↔ ∀ p ∈ patterns, exec p text = none := by
  induction patterns with
  | nil => simp [firstMatch]
  | cons p ps ih =>
    rw [firstMatch]
    cases h : exec p text with
    | some m => simp [h]
    | none => simp [h, ih]

/-- With patterns whose group is not optional, the capture is defined and is a word of the
group of the pattern that matched. -/
theorem firstMatch_cap (patterns : List RegExp) (P : List Char → Prop)
    (hp : ∀ p ∈ patterns, ∃ g, p.body.groupBody = some g ∧ ∀ w, Matches p.ignoreCase g w → P w)
    (text : List Char) (c : Option (List Char)) (h : firstMatch patterns text = some c) :
    ∃ w, c = some w ∧ P w := by
  rcases firstMatch_eq_some patterns text c h with ⟨p, hmem, y, hy, hc⟩
  rcases hp p hmem with ⟨g, hg, hP⟩
  rcases exec_eq_some p text y hy with ⟨t, _, hhead⟩
  rcases matchRe_cap_of_groupBody p.ignoreCase p.body g hg _ y (List.mem_of_mem_head? hhead)
    with ⟨w, hw, hm⟩
  exact ⟨w, by rw [← hc, hw], hP w hm⟩


/-! ## The function returns -/

theorem splitWhiteSpace_ne_nil : ∀ (s : List Char) (inRun : Bool) (cur : List Char),
    splitWhiteSpace s inRun cur ≠ [] := by
  intro s
  induction s with
  | nil => intro inRun cur; simp [splitWhiteSpace]
  | cons c s ih =>
    intro inRun cur
    rw [splitWhiteSpace]
    split
    · split
      · exact ih _ _
      · simp
    · exact ih _ _

/-- The array `parts` is never empty, so its last element exists. -/
theorem parts_ne_nil (line : List Char) : parts line ≠ [] :=
  splitWhiteSpace_ne_nil _ _ _

/-- The callback of the item map never raises. -/
theorem parseItemLine_eq (line : List Char) : parseItemLine line = .ok (itemOf line) := by
  have h := parts_ne_nil line
  unfold parseItemLine itemOf
  cases hp : parts line with
  | nil => exact absurd hp h
  | cons a l =>
    have hl : (a :: l).getLast? = some ((a :: l).getLastD []) := by
      rw [List.getLast?_eq_getLast _ (List.cons_ne_nil _ _)]
      simp [List.getLastD_eq_getLast?, List.getLast?_eq_getLast _ (List.cons_ne_nil _ _)]
    simp only [hl]
    rfl

theorem mapItems_eq (ls : List (List Char)) : mapItems ls = .ok (ls.map itemOf) := by
  induction ls with
  | nil => rfl
  | cons l ls ih =>
    rw [mapItems, parseItemLine_eq, ih]
    rfl

theorem trimmedField_eq (patterns : List RegExp)
    (hp : patterns.all (fun p => p.body.groupBody.isSome) = true) (text : List Char) :
    trimmedField patterns text = .ok (fieldText patterns text) := by
  unfold trimmedField fieldText
  cases h : firstMatch patterns text with
  | none => rfl
  | some c =>
    have hp2 : ∀ p ∈ patterns, ∃ g, p.body.groupBody = some g ∧
        ∀ w, Matches p.ignoreCase g w → True := by
      intro p hmem
      have := List.all_eq_true.1 hp p hmem
      rcases Option.isSome_iff_exists.1 this with ⟨g, hg⟩
      exact ⟨g, hg, fun _ _ => trivial⟩
    rcases firstMatch_cap patterns (fun _ => True) hp2 text c h with ⟨w, hw, _⟩
    subst hw
    rfl

theorem totalField_eq (text : List Char) : totalField text = .ok (totalText text) := by
  unfold totalField totalText
  cases h : firstMatch totalPatterns text with
  | none => rfl
  | some c =>
    have hp2 : ∀ p ∈ totalPatterns, ∃ g, p.body.groupBody = some g ∧
        ∀ w, Matches p.ignoreCase g w → True := by
      intro p hmem
      have hall : totalPatterns.all (fun p => p.body.groupBody.isSome) = true := by decide
      have := List.all_eq_true.1 hall p hmem
      rcases Option.isSome_iff_exists.1 this with ⟨g, hg⟩
      exact ⟨g, hg, fun _ _ => trivial⟩
    rcases firstMatch_cap totalPatterns (fun _ => True) hp2 text c h with ⟨w, hw, _⟩
    subst hw
    rfl

/-- The function returns, for every text, the record described field by field. -/
theorem extractInvoiceData_eq (text : String) :
    extractInvoiceData text = .ok (extractedRecord text) := by
  unfold extractInvoiceData
  rw [trimmedField_eq invoicePatterns (by decide), trimmedField_eq datePatterns (by decide),
    trimmedField_eq dueDatePatterns (by decide), totalField_eq,
    trimmedField_eq supplierPatterns (by decide), trimmedField_eq customerPatterns (by decide),
    trimmedField_eq addressPatterns (by decide), mapItems_eq]
  simp only [extractedRecord, itemsOf, bind, Except.bind, pure, Except.pure, List.length_map]


/-! ## Characters and character sets -/

theorem char_eq_of_toNat {a b : Char} (h : a.toNat = b.toNat) : a = b := by
  rw [← Char.ofNat_toNat a, ← Char.ofNat_toNat b, h]

theorem setMatches_pos (ic : Bool) (items : List ClassItem) (c : Char) :
    setMatches ic false items c = items.any fun it => it.matchesChar ic c := by
  simp [setMatches]

/-- The escape `\d` matches the ten digits, with or without the `i` flag. -/
theorem setMatches_digit (ic : Bool) (c : Char) : setMatches ic false [.digit] c = isDigit c := by
  rw [setMatches_pos, Bool.eq_iff_iff]
  cases ic <;>
    simp only [List.any_cons, List.any_nil, ClassItem.matchesChar, ClassItem.hasCode,
      canonCode, lowerCode, isDigit, Bool.or_false, Bool.false_and, Bool.true_and,
      Bool.or_eq_true, Bool.and_eq_true, decide_eq_true_eq]
  constructor
  · rintro (h | h | h)
    · exact h
    · split at h <;> omega
    · split at h <;> omega
  · intro h
    exact Or.inl h

/-- The escape `\s` matches white space. -/
theorem setMatches_space (ic : Bool) (c : Char) : setMatches ic false [.space] c = isWhiteSpace c := by
  simp [setMatches, ClassItem.matchesChar]

/-- A character that is no ASCII letter is matched by itself only. -/
theorem setMatches_chr (ic : Bool) (k c : Char)
    (hk : ¬ (65 ≤ k.toNat ∧ k.toNat ≤ 90) ∧ ¬ (97 ≤ k.toNat ∧ k.toNat ≤ 122)) :
    setMatches ic false [.chr k] c = true ↔ c = k := by
  rw [setMatches_pos]
  constructor
  · intro h
    apply char_eq_of_toNat
    cases ic <;>
      simp only [List.any_cons, List.any_nil, ClassItem.matchesChar,
        ClassItem.hasCode, canonCode, lowerCode, Bool.or_false, Bool.false_and, Bool.true_and,
        Bool.or_eq_true, beq_iff_eq] at h
    · exact h
    · rcases h with h | h | h
      · exact h
      · split at h <;> omega
      · split at h <;> omega
  · intro h
    subst h
    simp [ClassItem.matchesChar, ClassItem.hasCode]

/-- With the `i` flag a lower-case ASCII letter is matched by its two case forms. -/
theorem setMatches_letter (k c : Char) (hk : 97 ≤ k.toNat ∧ k.toNat ≤ 122) :
    setMatches true false [.chr k] c = true ↔ (c.toNat = k.toNat ∨ c.toNat + 32 = k.toNat) := by
  rw [setMatches_pos]
  simp only [List.any_cons, List.any_nil, ClassItem.matchesChar,
    ClassItem.hasCode, canonCode, lowerCode, Bool.or_false, Bool.true_and,
    Bool.or_eq_true, beq_iff_eq]
  constructor
  · rintro (h | h | h)
    · exact Or.inl h
    · split at h <;> omega
    · split at h <;> omega
  · rintro (h | h)
    · exact Or.inl h
    · right; right
      rw [if_pos (by omega)]
      exact h

/-! ## The first result of the matcher -/

theorem head_seq (ic : Bool) (a b : Regex) (x y z : MState)
    (h1 : (matchRe ic a x).head? = some y) (h2 : (matchRe ic b y).head? = some z) :
    (matchRe ic (.seq a b) x).head? = some z := by
  rcases List.head?_eq_some_iff.1 h1 with ⟨tl, htl⟩
  simp [matchRe, htl, h2]

theorem head_set (ic inv : Bool) (items : List ClassItem) (c : Char) (s : List Char)
    (cap : Option (List Char)) (h : setMatches ic inv items c = true) :
    (matchRe ic (.set inv items) ⟨c :: s, cap⟩).head? = some ⟨s, cap⟩ := by
  simp [matchRe, h]

theorem head_empty (ic : Bool) (x : MState) : (matchRe ic .empty x).head? = some x := by
  simp [matchRe]

theorem head_group (ic : Bool) (r : Regex) (x y : MState)
    (h : (matchRe ic r x).head? = some y) :
    (matchRe ic (.group r) x).head? =
      some ⟨y.rest, some (x.rest.take (x.rest.length - y.rest.length))⟩ := by
  rcases List.head?_eq_some_iff.1 h with ⟨tl, htl⟩
  simp [matchRe, htl]

theorem matchRe_set_nil_of_head (ic inv : Bool) (items : List ClassItem) (x : MState)
    (h : ∀ c, x.rest.head? = some c → setMatches ic inv items c = false) :
    matchRe ic (.set inv items) x = [] := by
  simp only [matchRe]
  split
  · rfl
  · rename_i ch cs heq
    have := h ch (by simp [heq])
    simp [this]

theorem head_repeat_run (ic inv : Bool) (items : List ClassItem) (rest : List Char)
    (cap : Option (List Char))
    (hrest : ∀ c, rest.head? = some c → setMatches ic inv items c = false) :
    ∀ (w : List Char) (fuel min : Nat), (∀ c ∈ w, setMatches ic inv items c = true) →
      min ≤ w.length → w.length ≤ fuel →
      (repeatMatcher (matchRe ic (.set inv items)) fuel min none ⟨w ++ rest, cap⟩).head?
        = some ⟨rest, cap⟩ := by
  intro w
  induction w with
  | nil =>
    intro fuel min _ hmin _
    have hm : min = 0 := by simpa using hmin
    subst hm
    cases fuel with
    | zero => simp [repeatMatcher]
    | succ fuel =>
      have := matchRe_set_nil_of_head ic inv items ⟨rest, cap⟩ hrest
      simp [repeatMatcher, this]
  | cons c w ih =>
    intro fuel min hw hmin hfuel
    cases fuel with
    | zero => simp at hfuel
    | succ fuel =>
      have hc := hw c (List.mem_cons_self _ _)
      have ih2 := ih fuel (min - 1) (fun c hc => hw c (List.mem_cons_of_mem _ hc))
        (by simp at hmin; omega) (by simp at hfuel; omega)
      rcases List.head?_eq_some_iff.1 ih2 with ⟨tl, htl⟩
      have hmx : matchRe ic (.set inv items) ⟨c :: (w ++ rest), cap⟩ = [⟨w ++ rest, cap⟩] := by
        simp [matchRe, hc]
      by_cases hm : min = 0
      · subst hm
        simp only [Nat.zero_sub] at htl
        simp [repeatMatcher, hmx, htl]
      · simp [repeatMatcher, hmx, hm, htl]

/-- A greedy `*` or `+` over a character set reads the whole run of matching characters
first. -/
theorem head_rep_run (ic inv : Bool) (items : List ClassItem) (min : Nat) (w rest : List Char)
    (cap : Option (List Char)) (hw : ∀ c ∈ w, setMatches ic inv items c = true)
    (hrest : ∀ c, rest.head? = some c → setMatches ic inv items c = false)
    (hmin : min ≤ w.length) :
    (matchRe ic (.rep (.set inv items) min none) ⟨w ++ rest, cap⟩).head? = some ⟨rest, cap⟩ := by
  simp only [matchRe]
  exact head_repeat_run ic inv items rest cap hrest w _ min hw hmin (by simp; omega)

/-- A quantifier with minimum zero over a pattern that fails here reads nothing. -/
theorem head_rep_skip (ic : Bool) (r : Regex) (max : Option Nat) (x : MState)
    (h : matchRe ic r x = []) : (matchRe ic (.rep r 0 max) x).head? = some x := by
  simp only [matchRe]
  cases (0 + x.rest.length) with
  | zero => simp [repeatMatcher]
  | succ fuel =>
    by_cases hmax : max = some 0
    · simp [repeatMatcher, hmax]
    · simp [repeatMatcher, hmax, h]

/-- The quantifier `?` takes the first result of its pattern when that reads something. -/
theorem head_opt_take (ic : Bool) (r : Regex) (x y : MState)
    (h : (matchRe ic r x).head? = some y) (hlen : y.rest.length ≠ x.rest.length) :
    (matchRe ic (.rep r 0 (some 1)) x).head? = some y := by
  have hsuf := matchRe_suffix ic r x y (List.mem_of_mem_head? h)
  have hle := hsuf.length_le
  rcases List.head?_eq_some_iff.1 h with ⟨tl, htl⟩
  simp only [matchRe]
  cases hf : (0 + x.rest.length) with
  | zero => omega
  | succ fuel =>
    cases fuel with
    | zero => simp [repeatMatcher, htl, hlen]
    | succ fuel => simp [repeatMatcher, htl, hlen]

theorem head_chars (ic : Bool) (rest : List Char) (cap : Option (List Char)) :
    ∀ (ks w : List Char), w.length = ks.length →
      (List.zip ks w).all (fun p => setMatches ic false [.chr p.1] p.2) = true →
      (matchRe ic (ks.foldr (fun c r => .seq (.set false [.chr c]) r) .empty)
        ⟨w ++ rest, cap⟩).head? = some ⟨rest, cap⟩ := by
  intro ks
  induction ks with
  | nil =>
    intro w hlen _
    have : w = [] := List.length_eq_zero.1 (by simpa using hlen)
    subst this
    simp [matchRe]
  | cons k ks ih =>
    intro w hlen hall
    cases w with
    | nil => simp at hlen
    | cons c w =>
      simp only [List.zip_cons_cons, List.all_cons, Bool.and_eq_true] at hall
      simp only [List.length_cons, add_left_inj] at hlen
      exact head_seq ic _ _ _ _ _ (head_set ic false _ c _ cap hall.1) (ih w hlen hall.2)

/-- A literal reads the characters that match it one by one. -/
theorem head_lit (ic : Bool) (s : String) (w rest : List Char) (cap : Option (List Char))
    (hlen : w.length = s.data.length)
    (hall : (List.zip s.data w).all (fun p => setMatches ic false [.chr p.1] p.2) = true) :
    (matchRe ic (lit s) ⟨w ++ rest, cap⟩).head? = some ⟨rest, cap⟩ :=
  head_chars ic rest cap s.data w hlen hall


/-! ## Numerals -/

theorem takeWhile_run (p : Char → Bool) (rest : List Char)
    (hrest : ∀ c, rest.head? = some c → p c = false) :
    ∀ w : List Char, (∀ c ∈ w, p c = true) → (w ++ rest).takeWhile p = w := by
  intro w
  induction w with
  | nil =>
    intro _
    cases rest with
    | nil => rfl
    | cons c rest => simp [List.takeWhile, hrest c rfl]
  | cons c w ih =>
    intro hw
    simp [List.takeWhile, hw c (List.mem_cons_self _ _),
      ih (fun c hc => hw c (List.mem_cons_of_mem _ hc))]

theorem dropWhile_run (p : Char → Bool) (rest : List Char)
    (hrest : ∀ c, rest.head? = some c → p c = false) :
    ∀ w : List Char, (∀ c ∈ w, p c = true) → (w ++ rest).dropWhile p = rest := by
  intro w
  induction w with
  | nil =>
    intro _
    cases rest with
    | nil => rfl
    | cons c rest => simp [List.dropWhile, hrest c rfl]
  | cons c w ih =>
    intro hw
    simp [List.dropWhile, hw c (List.mem_cons_self _ _),
      ih (fun c hc => hw c (List.mem_cons_of_mem _ hc))]

theorem radixDigit_ten (c : Char) (h : isDigit c = true) : radixDigit 10 c = some (c.toNat - 48) := by
  simp only [isDigit, Bool.and_eq_true, decide_eq_true_eq] at h
  simp only [radixDigit, h, and_self, if_true]
  rw [if_pos (by omega)]

theorem foldl_digits (s : List Char) (h : ∀ c ∈ s, isDigit c = true) : ∀ acc : Nat,
    s.foldl (fun acc c => acc * 10 + (radixDigit 10 c).getD 0) acc
      = acc * 10 ^ s.length + decimalValue s := by
  induction s with
  | nil => intro acc; simp [decimalValue]
  | cons c s ih =>
    intro acc
    have hc := radixDigit_ten c (h c (List.mem_cons_self _ _))
    rw [List.foldl_cons, ih (fun c hc => h c (List.mem_cons_of_mem _ hc)), hc]
    simp only [decimalValue, List.reverse_cons, List.map_append, List.map_cons, List.map_nil,
      Nat.ofDigits_append, Nat.ofDigits_singleton, List.length_map, List.length_reverse,
      Option.getD_some, List.length_cons]
    ring

/-- On a run of digits the value `parseInt` and `parseFloat` compute is the positional value. -/
theorem digitsValue_ten (s : List Char) (h : ∀ c ∈ s, isDigit c = true) :
    digitsValue 10 s = decimalValue s := by
  simp [digitsValue, foldl_digits s h 0]

theorem decimalValue_append (a b : List Char) :
    decimalValue (a ++ b) = decimalValue a * 10 ^ b.length + decimalValue b := by
  simp only [decimalValue, List.reverse_append, List.map_append, Nat.ofDigits_append,
    List.length_map, List.length_reverse]
  ring

theorem isWhiteSpace_of_isDigit (c : Char) (h : isDigit c = true) : isWhiteSpace c = false := by
  simp only [isDigit, Bool.and_eq_true, decide_eq_true_eq] at h
  simp only [isWhiteSpace, Bool.or_eq_false_iff, beq_eq_false_iff_ne, ne_eq, Bool.and_eq_false_iff,
    decide_eq_false_iff_not]
  omega

/-- The function `parseFloat` reads a decimal numeral as its numeric value. -/
theorem parseFloat_numeral (ip : List Char) (fp : Option (List Char)) (hip : ip ≠ [])
    (hipd : ∀ c ∈ ip, isDigit c = true) (hfp : ∀ f, fp = some f → ∀ c ∈ f, isDigit c = true) :
    parseFloat (numeralText ip fp) = .num (numeralValue ip fp) := by
  obtain ⟨c0, ip0, rfl⟩ := List.exists_cons_of_ne_nil hip
  have hc0 := hipd c0 (List.mem_cons_self _ _)
  have hws : (numeralText (c0 :: ip0) fp).dropWhile isWhiteSpace = numeralText (c0 :: ip0) fp := by
    cases fp <;> simp [numeralText, List.dropWhile, isWhiteSpace_of_isDigit c0 hc0]
  unfold parseFloat
  simp only [hws]
  cases fp with
  | none =>
    have h1 : (numeralText (c0 :: ip0) none).takeWhile isDigit = c0 :: ip0 := by
      have := takeWhile_run isDigit [] (by simp) (c0 :: ip0) hipd
      simpa [numeralText] using this
    have h2 : (numeralText (c0 :: ip0) none).dropWhile isDigit = [] := by
      have := dropWhile_run isDigit [] (by simp) (c0 :: ip0) hipd
      simpa [numeralText] using this
    simp [h1, h2, numeralValue, digitsValue_ten _ hipd]
  | some f =>
    have hf := hfp f rfl
    have hdot : ∀ c, ('.' :: f).head? = some c → isDigit c = false := by
      intro c hc
      simp only [List.head?_cons, Option.some.injEq] at hc
      subst hc
      decide
    have h1 : (numeralText (c0 :: ip0) (some f)).takeWhile isDigit = c0 :: ip0 :=
      takeWhile_run isDigit ('.' :: f) hdot (c0 :: ip0) hipd
    have h2 : (numeralText (c0 :: ip0) (some f)).dropWhile isDigit = '.' :: f :=
      dropWhile_run isDigit ('.' :: f) hdot (c0 :: ip0) hipd
    have h3 : f.takeWhile isDigit = f := by
      have := takeWhile_run isDigit [] (by simp) f hf
      simpa using this
    have hall : ∀ c ∈ (c0 :: ip0) ++ f, isDigit c = true := by
      intro c hc
      rcases List.mem_append.1 hc with h | h
      · exact hipd c h
      · exact hf c h
    simp only [h1, h2, h3, numeralValue, digitsValue_ten _ hall, decimalValue_append]
    simp only [List.cons_ne_nil, false_and, if_false, Nat.cast_add, Nat.cast_mul, Nat.cast_pow,
      Nat.cast_ofNat]
    congr 1
    field_simp


/-- The pattern `\d+(?:\.\d+)?` reads a whole decimal numeral first, when what follows the
numeral is neither a digit nor a `.`. -/
theorem head_percentNumber (ic : Bool) (ip : List Char) (fp : Option (List Char))
    (rest : List Char) (cap : Option (List Char)) (hip : ip ≠ [])
    (hipd : ∀ c ∈ ip, isDigit c = true)
    (hfp : ∀ f, fp = some f → f ≠ [] ∧ ∀ c ∈ f, isDigit c = true)
    (hrest : ∀ c, rest.head? = some c → isDigit c = false ∧ c ≠ '.') :
    (matchRe ic percentNumber ⟨numeralText ip fp ++ rest, cap⟩).head? = some ⟨rest, cap⟩ := by
  have hdg : ∀ c, setMatches ic false [.digit] c = isDigit c := setMatches_digit ic
  have hrestd : ∀ c, rest.head? = some c → setMatches ic false [.digit] c = false :=
    fun c hc => by rw [hdg]; exact (hrest c hc).1
  have hlen : 1 ≤ ip.length := by
    cases ip with
    | nil => exact absurd rfl hip
    | cons _ _ => simp
  cases fp with
  | none =>
    refine head_seq ic _ _ _ ⟨rest, cap⟩ _ ?_ (head_seq ic _ _ _ ⟨rest, cap⟩ _ ?_ (head_empty _ _))
    · exact head_rep_run ic false [.digit] 1 ip rest cap (fun c hc => by rw [hdg]; exact hipd c hc)
        hrestd hlen
    · apply head_rep_skip
      cases rest with
      | nil => simp [cat, lit, matchRe]
      | cons c rest =>
        have hc : setMatches ic false [.chr '.'] c = false := by
          rw [Bool.eq_false_iff]
          intro h
          exact (hrest c rfl).2 ((setMatches_chr ic '.' c (by decide)).1 h)
        simp [cat, lit, matchRe, hc]
  | some f =>
    obtain ⟨hfne, hfd⟩ := hfp f rfl
    have hflen : 1 ≤ f.length := by
      cases f with
      | nil => exact absurd rfl hfne
      | cons _ _ => simp
    have hdot : ∀ c, ('.' :: (f ++ rest)).head? = some c → setMatches ic false [.digit] c = false := by
      intro c hc
      simp only [List.head?_cons, Option.some.injEq] at hc
      subst hc
      rw [hdg]
      decide
    have hdotm : setMatches ic false [.chr '.'] '.' = true :=
      (setMatches_chr ic '.' '.' (by decide)).2 rfl
    have e : numeralText ip (some f) ++ rest = ip ++ '.' :: (f ++ rest) := by
      simp [numeralText]
    rw [e]
    refine head_seq ic _ _ _ ⟨'.' :: (f ++ rest), cap⟩ _ ?_
      (head_seq ic _ _ _ ⟨rest, cap⟩ _ ?_ (head_empty _ _))
    · exact head_rep_run ic false [.digit] 1 ip _ cap (fun c hc => by rw [hdg]; exact hipd c hc)
        hdot hlen
    · apply head_opt_take
      · refine head_seq ic _ _ _ ⟨f ++ rest, cap⟩ _ ?_
          (head_seq ic _ _ _ ⟨rest, cap⟩ _ ?_ (head_empty _ _))
        · exact head_seq ic _ _ _ ⟨f ++ rest, cap⟩ _ (head_set ic false _ '.' _ cap hdotm)
            (head_empty _ _)
        · exact head_rep_run ic false [.digit] 1 f rest cap
            (fun c hc => by rw [hdg]; exact hfd c hc) hrestd hflen
      · simp
        omega

theorem take_length_sub (w rest : List Char) :
    (w ++ rest).take ((w ++ rest).length - rest.length) = w := by
  simp

/-- The first tax pattern on `Tax: n%` captures the numeral `n`. -/
theorem exec_tax_numeral (ip : List Char) (fp : Option (List Char)) (hip : ip ≠ [])
    (hipd : ∀ c ∈ ip, isDigit c = true)
    (hfp : ∀ f, fp = some f → f ≠ [] ∧ ∀ c ∈ f, isDigit c = true) :
    firstMatch taxPatterns ("Tax: ".data ++ numeralText ip fp ++ "%".data)
      = some (some (numeralText ip fp)) := by
  obtain ⟨c0, ip0, rfl⟩ := List.exists_cons_of_ne_nil hip
  have hc0 := hipd c0 (List.mem_cons_self _ _)
  have hn : ∃ n0, numeralText (c0 :: ip0) fp = c0 :: n0 := by
    cases fp <;> simp [numeralText]
  obtain ⟨n0, hn0⟩ := hn
  have key : (matchRe true
      (cat [lit "tax", star ws, opt (lit ":"), star ws, .group percentNumber, lit "%"])
      ⟨['T', 'a', 'x'] ++ (':' :: ' ' :: (numeralText (c0 :: ip0) fp ++ ['%'])), none⟩).head?
      = some ⟨[], some (numeralText (c0 :: ip0) fp)⟩ := by
    refine head_seq true _ _ _ ⟨':' :: ' ' :: (numeralText (c0 :: ip0) fp ++ ['%']), none⟩ _
      (head_lit true "tax" _ _ _ (by decide) (by decide)) ?_
    refine head_seq true _ _ _ ⟨':' :: ' ' :: (numeralText (c0 :: ip0) fp ++ ['%']), none⟩ _
      (head_rep_run true false [.space] 0 [] _ none (by simp) ?_ (by simp)) ?_
    · intro c hc
      simp only [List.head?_cons, Option.some.injEq] at hc
      subst hc
      decide
    refine head_seq true _ _ _ ⟨' ' :: (numeralText (c0 :: ip0) fp ++ ['%']), none⟩ _
      (head_opt_take true _ _ _ (head_lit true ":" [':'] _ _ (by decide) (by decide)) (by simp)) ?_
    refine head_seq true _ _ _ ⟨numeralText (c0 :: ip0) fp ++ ['%'], none⟩ _
      (head_rep_run true false [.space] 0 [' '] _ none ?_ ?_ (by simp)) ?_
    · intro c hc
      simp only [List.mem_singleton] at hc
      subst hc
      decide
    · intro c hc
      rw [hn0] at hc
      have hc : c0 = c := by simpa using hc
      subst hc
      rw [setMatches_space]
      exact isWhiteSpace_of_isDigit _ hc0
    refine head_seq true _ _ _ ⟨['%'], some (numeralText (c0 :: ip0) fp)⟩ _ ?_
      (head_lit true "%" ['%'] [] _ (by decide) (by decide))
    have hg := head_group true percentNumber ⟨numeralText (c0 :: ip0) fp ++ ['%'], none⟩ ⟨['%'], none⟩
      (head_percentNumber true (c0 :: ip0) fp ['%'] none hip hipd hfp (by
        intro c hc
        simp only [List.head?_cons, Option.some.injEq] at hc
        subst hc
        decide))
    rw [hg]
    simp only [take_length_sub]
  have htext : "Tax: ".data ++ numeralText (c0 :: ip0) fp ++ "%".data
      = 'T' :: ('a' :: 'x' :: ':' :: ' ' :: (numeralText (c0 :: ip0) fp ++ ['%'])) := by
    simp
  rw [htext]
  simp only [taxPatterns, firstMatch, exec]
  have key2 : (matchRe true
      (cat [lit "tax", star ws, opt (lit ":"), star ws, .group percentNumber, lit "%"])
      ⟨'T' :: ('a' :: 'x' :: ':' :: ' ' :: (numeralText (c0 :: ip0) fp ++ ['%'])), none⟩).head?
      = some ⟨[], some (numeralText (c0 :: ip0) fp)⟩ := key
  rw [key2]


/-- C9: for every decimal numeral `n` (digits, optionally `.` and digits) the text
`Tax: n%` gives a `tax_rate` that is the number with the numeric value of `n`. -/
theorem tax_rate_of_numeral (ip : List Char) (fp : Option (List Char)) (hip : ip ≠ [])
    (hipd : ∀ c ∈ ip, isDigit c = true)
    (hfp : ∀ f, fp = some f → f ≠ [] ∧ ∀ c ∈ f, isDigit c = true) :
    ∃ d, extractInvoiceData (String.mk ("Tax: ".data ++ numeralText ip fp ++ "%".data)) = .ok d ∧
      d.tax_rate = .num (numeralValue ip fp) := by
  refine ⟨_, extractInvoiceData_eq _, ?_⟩
  simp only [extractedRecord, rateField, exec_tax_numeral ip fp hip hipd hfp, toStringArg]
  exact parseFloat_numeral ip fp hip hipd (fun f hf => (hfp f hf).2)

/-- C9 at `Tax: 7.5%`: the tax rate is the number 7.5. -/
theorem tax_rate_of_numeral_witness :
    ∃ d, extractInvoiceData "Tax: 7.5%" = .ok d ∧ d.tax_rate = .num 7.5 := by
  have h := tax_rate_of_numeral ['7'] (some ['5']) (by decide) (by decide)
    (by intro f hf; cases hf; exact ⟨by decide, by decide⟩)
  have hv : numeralValue ['7'] (some ['5']) = 7.5 := by
    norm_num [numeralValue, decimalValue, Nat.ofDigits, show '7'.toNat = 55 from rfl,
      show '5'.toNat = 53 from rfl]
  rw [hv] at h
  exact h


/-! ## Amounts -/

/-- The pattern of an amount reads a whole run of digits first, when what follows is neither
a digit, a `,` nor a `.`. -/
theorem head_amount_digits (ic : Bool) (w rest : List Char) (cap : Option (List Char))
    (hw : w ≠ []) (hwd : ∀ c ∈ w, isDigit c = true)
    (hrest : ∀ c, rest.head? = some c → isDigit c = false ∧ c ≠ ',' ∧ c ≠ '.') :
    (matchRe ic amount ⟨w ++ rest, cap⟩).head? = some ⟨rest, cap⟩ := by
  have hlen : 1 ≤ w.length := by
    cases w with
    | nil => exact absurd rfl hw
    | cons _ _ => simp
  have hfail : ∀ (k : Char) (r : Regex), k = ',' ∨ k = '.' →
      matchRe ic (cat [lit (String.mk [k]), r]) ⟨rest, cap⟩ = [] := by
    intro k r hk
    cases rest with
    | nil => simp [cat, lit, matchRe]
    | cons c rest =>
      have hc : setMatches ic false [.chr k] c = false := by
        rw [Bool.eq_false_iff]
        intro h
        rcases hk with hk | hk
        · subst hk
          exact (hrest c rfl).2.1 ((setMatches_chr ic ',' c (by decide)).1 h)
        · subst hk
          exact (hrest c rfl).2.2 ((setMatches_chr ic '.' c (by decide)).1 h)
      simp [cat, lit, matchRe, hc]
  refine head_seq ic _ _ _ ⟨rest, cap⟩ _ ?_ (head_seq ic _ _ _ ⟨rest, cap⟩ _ ?_
    (head_seq ic _ _ _ ⟨rest, cap⟩ _ ?_ (head_empty _ _)))
  · exact head_rep_run ic false [.digit] 1 w rest cap
      (fun c hc => by rw [setMatches_digit]; exact hwd c hc)
      (fun c hc => by rw [setMatches_digit]; exact (hrest c hc).1) hlen
  · exact head_rep_skip ic _ _ _ (hfail ',' _ (Or.inl rfl))
  · exact head_rep_skip ic _ _ _ (hfail '.' _ (Or.inr rfl))

theorem setMatches_t_false (c : Char) (h : c ≠ 't' ∧ c ≠ 'T') :
    setMatches true false [.chr 't'] c = false := by
  rw [Bool.eq_false_iff]
  intro hm
  rcases (setMatches_letter 't' c (by decide)).1 hm with e | e
  · exact h.1 (char_eq_of_toNat e)
  · exact h.2 (char_eq_of_toNat (by
      have : 'T'.toNat + 32 = 't'.toNat := by decide
      omega))

/-- The first total pattern at the leftmost label `Total: $500`. -/
theorem firstMatch_total_500 (pre post : List Char) (hpre : ∀ c ∈ pre, c ≠ 't' ∧ c ≠ 'T')
    (hpost : ∀ c, post.head? = some c → isDigit c = false ∧ c ≠ ',' ∧ c ≠ '.') :
    firstMatch totalPatterns (pre ++ "Total: $500".data ++ post) = some (some "500".data) := by
  have key : (matchRe true
      (cat [lit "total", star ws, opt (lit ":"), star ws, opt currencySymbol, star ws,
        .group amount])
      ⟨['T', 'o', 't', 'a', 'l'] ++ (':' :: ' ' :: '$' :: (['5', '0', '0'] ++ post)), none⟩).head?
      = some ⟨post, some ['5', '0', '0']⟩ := by
    refine head_seq true _ _ _ ⟨':' :: ' ' :: '$' :: (['5', '0', '0'] ++ post), none⟩ _
      (head_lit true "total" _ _ _ (by decide) (by decide)) ?_
    refine head_seq true _ _ _ ⟨':' :: ' ' :: '$' :: (['5', '0', '0'] ++ post), none⟩ _
      (head_rep_run true false [.space] 0 [] _ none (by simp) ?_ (by simp)) ?_
    · intro c hc
      have hc : ':' = c := by simpa using hc
      subst hc
      decide
    refine head_seq true _ _ _ ⟨' ' :: '$' :: (['5', '0', '0'] ++ post), none⟩ _
      (head_opt_take true _ _ _ (head_lit true ":" [':'] _ _ (by decide) (by decide)) (by simp)) ?_
    refine head_seq true _ _ _ ⟨'$' :: (['5', '0', '0'] ++ post), none⟩ _
      (head_rep_run true false [.space] 0 [' '] _ none ?_ ?_ (by simp)) ?_
    · intro c hc
      simp only [List.mem_singleton] at hc
      subst hc
      decide
    · intro c hc
      have hc : '$' = c := by simpa using hc
      subst hc
      decide
    refine head_seq true _ _ _ ⟨['5', '0', '0'] ++ post, none⟩ _
      (head_opt_take true _ _ _ (head_set true false _ '$' _ none (by decide)) (by simp)) ?_
    refine head_seq true _ _ _ ⟨['5', '0', '0'] ++ post, none⟩ _
      (head_rep_run true false [.space] 0 [] _ none (by simp) ?_ (by simp)) ?_
    · intro c hc
      have hc : '5' = c := by simpa using hc
      subst hc
      decide
    refine head_seq true _ _ _ ⟨post, some ['5', '0', '0']⟩ _ ?_ (head_empty _ _)
    have hg := head_group true amount ⟨['5', '0', '0'] ++ post, none⟩ ⟨post, none⟩
      (head_amount_digits true ['5', '0', '0'] post none (by decide) (by decide) hpost)
    rw [hg]
    simp only [take_length_sub]
  have hskip := exec_skip ⟨true, cat [lit "total", star ws, opt (lit ":"), star ws,
      opt currencySymbol, star ws, .group amount]⟩ pre ("Total: $500".data ++ post) (by
    intro c hc s
    have := setMatches_t_false c (hpre c hc)
    simp [cat, lit, matchRe, this])
  simp only [totalPatterns, firstMatch, List.append_assoc, hskip]
  have htext : "Total: $500".data ++ post
      = 'T' :: ('o' :: 't' :: 'a' :: 'l' :: ':' :: ' ' :: '$' :: (['5', '0', '0'] ++ post)) := by
    simp
  rw [htext]
  simp only [exec]
  have key2 : (matchRe true
      (cat [lit "total", star ws, opt (lit ":"), star ws, opt currencySymbol, star ws,
        .group amount])
      ⟨'T' :: ('o' :: 't' :: 'a' :: 'l' :: ':' :: ' ' :: '$' :: (['5', '0', '0'] ++ post)), none⟩).head?
      = some ⟨post, some ['5', '0', '0']⟩ := key
  rw [key2]

/-- C2 as stated fails: in `Grand Total: $600` followed by `Total: $500` both labels occur,
and `total_amount` is `600`, read at the leftmost place where `total` is found. -/
theorem total_of_reversed_labels :
    "Total: $500".data <:+: "Grand Total: $600\nTotal: $500".data ∧
    "Grand Total: $600".data <:+: "Grand Total: $600\nTotal: $500".data ∧
    ∃ d, extractInvoiceData "Grand Total: $600\nTotal: $500" = .ok d ∧ d.total_amount = "600" ∧
      d.total_amount ≠ "500" :=
  ⟨⟨"Grand Total: $600\n".data, [], rfl⟩, ⟨[], "\nTotal: $500".data, rfl⟩,
    _, extractInvoiceData_eq _, by decide, by decide⟩

/-- C2, amended: when `Total: $500` is the leftmost place of the text with a letter `t` and
is not followed by a digit, `,` or `.`, then `total_amount` is `500`, whatever comes after,
a later `Grand Total: $600` included. -/
theorem total_of_leftmost_label (pre post : List Char) (hpre : ∀ c ∈ pre, c ≠ 't' ∧ c ≠ 'T')
    (hpost : ∀ c, post.head? = some c → isDigit c = false ∧ c ≠ ',' ∧ c ≠ '.') :
    ∃ d, extractInvoiceData (String.mk (pre ++ "Total: $500".data ++ post)) = .ok d ∧
      d.total_amount = "500" := by
  refine ⟨_, extractInvoiceData_eq _, ?_⟩
  simp only [extractedRecord, totalText, firstMatch_total_500 pre post hpre hpost]
  decide

/-- C2, amended, at `Total: $500` followed by a line `Grand Total: $600`. -/
theorem total_of_leftmost_label_witness :
    ∃ d, extractInvoiceData "Total: $500\nGrand Total: $600" = .ok d ∧ d.total_amount = "500" :=
  total_of_leftmost_label [] "\nGrand Total: $600".data (by decide) (by decide)


/-! ## Concrete texts -/

/-- C1: on `Total: $120.00` the line itself counts as an item line (the third shape finds the
digits `12` and `0`), so `items` holds the parse of that line, named `Item`, and the item
`Service/Item` made from the total is not produced; `total_amount` is `120.00`. -/
theorem items_of_total_line :
    isItemLine "Total: $120.00".data = true ∧
    ∃ d, extractInvoiceData "Total: $120.00" = .ok d ∧ d.total_amount = "120.00" ∧
      d.items = [{ name := "Item", quantity := .num 1, rate := .num 120 }] ∧
      d.items ≠ [{ name := "Service/Item", quantity := .num 1, rate := .num 120 }] :=
  ⟨by decide, _, extractInvoiceData_eq _, by decide, by decide!, by decide!⟩

/-- C8: the empty string gives the default record, with no item. -/
theorem extract_empty :
    extractInvoiceData "" = .ok
      { invoice_number := "", date := "", due_date := "", total_amount := "",
        supplier_name := "", supplier_address := "", customer_name := "",
        customer_address := "", items := [], tax_rate := .num 0, discount_rate := .num 0,
        currency := "USD" } :=
  (extractInvoiceData_eq "").trans (congrArg Except.ok (by decide))

/-- C3: for every input string the function returns a record, with its twelve fields, and
raises nothing; the item parser returns an item for every line, its array of tokens being
never empty. -/
theorem extract_returns (text : String) :
    (∃ d : InvoiceData, extractInvoiceData text = .ok d) ∧
    (∀ line : List Char, parts line ≠ [] ∧ ∃ it : Item, parseItemLine line = .ok it) :=
  ⟨⟨_, extractInvoiceData_eq text⟩, fun line => ⟨parts_ne_nil line, _, parseItemLine_eq line⟩⟩


/-! ## Quantities -/

theorem mem_splitOnChar (sep : Char) : ∀ (s cur l : List Char), l ∈ splitOnChar sep s cur →
    ∀ c ∈ l, c ∈ s ∨ c ∈ cur := by
  intro s
  induction s with
  | nil =>
    intro cur l hl c hc
    simp only [splitOnChar, List.mem_singleton] at hl
    subst hl
    exact Or.inr (List.mem_reverse.1 hc)
  | cons a s ih =>
    intro cur l hl c hc
    rw [splitOnChar] at hl
    split at hl
    · rcases List.mem_cons.1 hl with e | hl
      · subst e
        exact Or.inr (List.mem_reverse.1 hc)
      · rcases ih [] l hl c hc with h | h
        · exact Or.inl (List.mem_cons_of_mem _ h)
        · simp at h
    · rcases ih (a :: cur) l hl c hc with h | h
      · exact Or.inl (List.mem_cons_of_mem _ h)
      · rcases List.mem_cons.1 h with e | h
        · exact Or.inl (e ▸ List.mem_cons_self _ _)
        · exact Or.inr h

theorem mem_splitWhiteSpace : ∀ (s : List Char) (inRun : Bool) (cur l : List Char),
    l ∈ splitWhiteSpace s inRun cur → ∀ c ∈ l, c ∈ s ∨ c ∈ cur := by
  intro s
  induction s with
  | nil =>
    intro inRun cur l hl c hc
    simp only [splitWhiteSpace, List.mem_singleton] at hl
    subst hl
    exact Or.inr (List.mem_reverse.1 hc)
  | cons a s ih =>
    intro inRun cur l hl c hc
    have nil_case : l ∈ splitWhiteSpace s true [] → c ∈ a :: s ∨ c ∈ cur := by
      intro hl
      rcases ih true [] l hl c hc with h | h
      · exact Or.inl (List.mem_cons_of_mem _ h)
      · simp at h
    rw [splitWhiteSpace] at hl
    split at hl
    · split at hl
      · exact nil_case hl
      · rcases List.mem_cons.1 hl with e | hl
        · subst e
          exact Or.inr (List.mem_reverse.1 hc)
        · exact nil_case hl
    · rcases ih false (a :: cur) l hl c hc with h | h
      · exact Or.inl (List.mem_cons_of_mem _ h)
      · rcases List.mem_cons.1 h with e | h
        · exact Or.inl (e ▸ List.mem_cons_self _ _)
        · exact Or.inr h

theorem mem_of_mem_trim (s : List Char) (c : Char) (h : c ∈ trim s) : c ∈ s := by
  unfold trim at h
  have h1 := List.mem_reverse.1 h
  have h2 := (List.dropWhile_sublist isWhiteSpace).subset h1
  have h3 := List.mem_reverse.1 h2
  exact (List.dropWhile_sublist isWhiteSpace).subset h3

/-- Every character of a token of a kept line is a character of the text. -/
theorem mem_text_of_mem_parts (text line tok : List Char) (hline : line ∈ itemLines text)
    (htok : tok ∈ parts line) (c : Char) (hc : c ∈ tok) : c ∈ text := by
  have h1 : c ∈ line := by
    rcases mem_splitWhiteSpace _ _ _ _ htok c hc with h | h
    · exact mem_of_mem_trim _ _ h
    · simp at h
  have h2 : line ∈ lines text := List.mem_of_mem_filter hline
  rcases mem_splitOnChar '\n' _ _ _ h2 c h1 with h | h
  · exact h
  · simp at h

theorem signedDigits_integer (neg : Bool) (radix : Nat) (ds : List Char) :
    signedDigits neg radix ds = .nan ∨ ∃ z : ℤ, signedDigits neg radix ds = .num z := by
  unfold signedDigits
  by_cases h : ds = []
  · exact Or.inl (by simp [h])
  · cases neg
    · exact Or.inr ⟨(digitsValue radix ds : ℕ), by simp [h]⟩
    · exact Or.inr ⟨-(digitsValue radix ds : ℕ), by simp [h]⟩

theorem signedDigits_natural (radix : Nat) (ds : List Char) :
    signedDigits false radix ds = .nan ∨ ∃ n : ℕ, signedDigits false radix ds = .num n := by
  unfold signedDigits
  by_cases h : ds = []
  · exact Or.inl (by simp [h])
  · exact Or.inr ⟨digitsValue radix ds, by simp [h]⟩

/-- The function `parseInt` gives `NaN` or an integer. -/
theorem parseInt_integer (s : List Char) :
    parseInt s = .nan ∨ ∃ z : ℤ, parseInt s = .num z :=
  signedDigits_integer _ _ _

/-- Without a minus sign in the argument, `parseInt` gives `NaN` or a natural number. -/
theorem parseInt_natural (s : List Char) (h : '-' ∉ s) :
    parseInt s = .nan ∨ ∃ n : ℕ, parseInt s = .num n := by
  have hneg : ¬ ((s.dropWhile isWhiteSpace).head? = some '-') := by
    intro hh
    exact h ((List.dropWhile_sublist isWhiteSpace).subset (List.mem_of_mem_head? hh))
  unfold parseInt
  simp only [hneg, decide_False]
  exact signedDigits_natural _ _

/-- The quantity of a parsed line is a non-zero integer, positive when the line has no
minus sign in the token read. -/
theorem orElse_one_integer (a : JSNumber) (ha : a = .nan ∨ ∃ z : ℤ, a = .num z) :
    ∃ z : ℤ, a.orElse (.num 1) = .num z ∧ z ≠ 0 := by
  rcases ha with h | ⟨z, h⟩
  · subst h
    exact ⟨1, by simp [JSNumber.orElse], by decide⟩
  · subst h
    by_cases hz : z = 0
    · subst hz
      exact ⟨1, by simp [JSNumber.orElse], by decide⟩
    · exact ⟨z, by simp [JSNumber.orElse, hz], hz⟩

theorem orElse_one_natural (a : JSNumber) (ha : a = .nan ∨ ∃ n : ℕ, a = .num n) :
    ∃ z : ℤ, a.orElse (.num 1) = .num z ∧ 1 ≤ z := by
  rcases ha with h | ⟨n, h⟩
  · subst h
    exact ⟨1, by simp [JSNumber.orElse], le_refl _⟩
  · subst h
    by_cases hn : n = 0
    · subst hn
      exact ⟨1, by simp [JSNumber.orElse], le_refl _⟩
    · exact ⟨n, by simp [JSNumber.orElse, hn], by omega⟩

theorem num_injective {a b : ℤ} (h : JSNumber.num (a : ℚ) = JSNumber.num (b : ℚ)) : a = b := by
  injection h with h
  exact_mod_cast h

/-- The token that `parseInt` reads for the quantity has its characters in the line, or is
the word `undefined`. -/
theorem quantity_token_chars (text line : List Char) (hline : line ∈ itemLines text)
    (hminus : '-' ∉ text) :
    '-' ∉ toStringArg (if 2 ≤ (parts line).length then (parts line).get? ((parts line).length - 2)
      else none) := by
  split
  · cases hget : (parts line).get? ((parts line).length - 2) with
    | none => simp only [toStringArg]; decide
    | some tok =>
      simp only [toStringArg]
      intro hc
      exact hminus (mem_text_of_mem_parts text line tok hline (List.get?_mem hget) _ hc)
  · simp only [toStringArg]; decide

/-- C4 as stated fails: the line `Widget -5 10` is kept as an item line and its quantity is
the integer -5. -/
theorem quantity_negative :
    ∃ d, extractInvoiceData "Widget -5 10" = .ok d ∧
      d.items = [{ name := "Widget", quantity := .num (-5), rate := .num 10 }] ∧
      ¬ ∀ it ∈ d.items, ∃ z : ℤ, it.quantity = .num z ∧ 1 ≤ z := by
  refine ⟨_, extractInvoiceData_eq _, by decide!, ?_⟩
  have hitems : (extractedRecord "Widget -5 10").items
      = [{ name := "Widget", quantity := .num (-5), rate := .num 10 }] := by decide!
  rw [hitems]
  intro h
  rcases h _ (List.mem_singleton_self _) with ⟨z, hz, hle⟩
  have h5 : JSNumber.num ((-5 : ℤ) : ℚ) = JSNumber.num (z : ℚ) := by
    rw [← hz]
    norm_num
  have := num_injective h5
  omega

/-- C4, amended: for every text, every entry of `items` has a quantity that is a non-zero
integer, and one that is at least 1 when the text has no minus sign. -/
theorem quantity_nonzero_integer (text : String) :
    ∃ d, extractInvoiceData text = .ok d ∧
      ∀ it ∈ d.items, ∃ z : ℤ, it.quantity = .num z ∧ z ≠ 0 ∧ ('-' ∉ text.data → 1 ≤ z) := by
  refine ⟨_, extractInvoiceData_eq text, ?_⟩
  intro it hit
  simp only [extractedRecord, itemsOf] at hit
  split at hit
  · simp only [List.mem_singleton] at hit
    subst hit
    exact ⟨1, by simp, by decide, fun _ => le_refl _⟩
  · rcases List.mem_map.1 hit with ⟨line, hline, rfl⟩
    have hline2 : line ∈ itemLines text.data := List.mem_of_mem_take hline
    rcases orElse_one_integer _ (parseInt_integer (toStringArg
      (if 2 ≤ (parts line).length then (parts line).get? ((parts line).length - 2) else none)))
      with ⟨z, hz, hz0⟩
    refine ⟨z, hz, hz0, ?_⟩
    intro hminus
    rcases orElse_one_natural _ (parseInt_natural _ (quantity_token_chars _ line hline2 hminus))
      with ⟨z2, hz2, hz1⟩
    have : z = z2 := num_injective (hz.symm.trans hz2)
    omega

/-- C4, amended, at the text `Widget 2 10.50`, which has no minus sign: the quantity of
every item is an integer that is at least 1. -/
theorem quantity_nonzero_integer_witness :
    '-' ∉ "Widget 2 10.50".data ∧
    ∃ d, extractInvoiceData "Widget 2 10.50" = .ok d ∧
      ∀ it ∈ d.items, ∃ z : ℤ, it.quantity = .num z ∧ 1 ≤ z := by
  refine ⟨by decide, ?_⟩
  rcases quantity_nonzero_integer "Widget 2 10.50" with ⟨d, hd, h⟩
  refine ⟨d, hd, fun it hit => ?_⟩
  rcases h it hit with ⟨z, hz, _, hpos⟩
  exact ⟨z, hz, hpos (by decide)⟩


/-! ## Words of the patterns -/

theorem matches_set_inv {ic inv : Bool} {items : List ClassItem} {w : List Char}
    (h : Matches ic (.set inv items) w) : ∃ c, w = [c] ∧ setMatches ic inv items c = true := by
  cases h with
  | set hc => exact ⟨_, rfl, hc⟩

theorem matches_seq_inv {ic : Bool} {a b : Regex} {w : List Char}
    (h : Matches ic (.seq a b) w) : ∃ u v, w = u ++ v ∧ Matches ic a u ∧ Matches ic b v := by
  cases h with
  | seq ha hb => exact ⟨_, _, rfl, ha, hb⟩

theorem matches_empty_inv {ic : Bool} {w : List Char} (h : Matches ic .empty w) : w = [] := by
  cases h
  rfl

theorem matches_rep_inv {ic : Bool} {r : Regex} {min : Nat} {max : Option Nat} {w : List Char}
    (h : Matches ic (.rep r min max) w) :
    (w = [] ∧ (min = 0 ∨ max = some 0)) ∨
    (max ≠ some 0 ∧ ∃ u v, w = u ++ v ∧ Matches ic r u ∧
      Matches ic (.rep r (min - 1) (max.map (· - 1))) v) := by
  cases h with
  | repDone h0 => exact Or.inl ⟨rfl, h0⟩
  | repStep hmax hu hv => exact Or.inr ⟨hmax, _, _, rfl, hu, hv⟩

/-- A literal character followed by a pattern: the word starts with a character the literal
matches. -/
theorem matches_chr_seq_inv {ic : Bool} {k : Char} {r : Regex} {w : List Char}
    (h : Matches ic (.seq (.set false [.chr k]) r) w) :
    ∃ c v, w = c :: v ∧ setMatches ic false [.chr k] c = true ∧ Matches ic r v := by
  rcases matches_seq_inv h with ⟨u, v, rfl, hu, hv⟩
  rcases matches_set_inv hu with ⟨c, rfl, hc⟩
  exact ⟨c, v, rfl, hc, hv⟩

/-- Words of a quantified character set: characters of the set, as many as the bounds allow. -/
theorem matches_rep_set (ic inv : Bool) (items : List ClassItem) :
    ∀ (w : List Char) (min : Nat) (max : Option Nat),
      Matches ic (.rep (.set inv items) min max) w → (∀ k, max = some k → min ≤ k) →
      (∀ c ∈ w, setMatches ic inv items c = true) ∧ min ≤ w.length ∧
        (∀ k, max = some k → w.length ≤ k) := by
  intro w
  induction w with
  | nil =>
    intro min max h hmm
    rcases matches_rep_inv h with ⟨_, h0⟩ | ⟨_, u, v, huv, hu, _⟩
    · refine ⟨by simp, ?_, by simp⟩
      rcases h0 with h0 | h0
      · simp [h0]
      · have := hmm 0 h0
        simpa using this
    · rcases matches_set_inv hu with ⟨c, rfl, _⟩
      simp at huv
  | cons a w ih =>
    intro min max h hmm
    rcases matches_rep_inv h with ⟨h0, _⟩ | ⟨hmax, u, v, huv, hu, hv⟩
    · simp at h0
    · rcases matches_set_inv hu with ⟨c, rfl, hc⟩
      simp only [List.singleton_append, List.cons.injEq] at huv
      obtain ⟨rfl, rfl⟩ := huv
      have hmm2 : ∀ k, max.map (· - 1) = some k → min - 1 ≤ k := by
        intro k hk
        cases max with
        | none => simp at hk
        | some m =>
          simp only [Option.map_some', Option.some.injEq] at hk
          have := hmm m rfl
          omega
      rcases ih (min - 1) (max.map (· - 1)) hv hmm2 with ⟨h1, h2, h3⟩
      refine ⟨?_, ?_, ?_⟩
      · intro c hc2
        rcases List.mem_cons.1 hc2 with e | hc2
        · exact e ▸ hc
        · exact h1 c hc2
      · simp only [List.length_cons]
        omega
      · intro k hk
        subst hk
        have hk0 : k ≠ 0 := fun e => hmax (by rw [e])
        have := h3 (k - 1) (by simp)
        simp only [List.length_cons]
        omega

theorem matches_digits {ic : Bool} {w : List Char} {min : Nat} {max : Option Nat}
    (h : Matches ic (.rep dg min max) w) (hmm : ∀ k, max = some k → min ≤ k) :
    (∀ c ∈ w, isDigit c = true) ∧ min ≤ w.length ∧ (∀ k, max = some k → w.length ≤ k) := by
  rcases matches_rep_set ic false [.digit] w min max h hmm with ⟨h1, h2, h3⟩
  exact ⟨fun c hc => by rw [← setMatches_digit ic]; exact h1 c hc, h2, h3⟩

/-- Words of `(?:,\d{3})*`: with the commas removed, digits only. -/
theorem matches_groups_filter (ic : Bool) : ∀ (n : Nat) (w : List Char) (min : Nat) (max : Option Nat),
    w.length ≤ n → Matches ic (.rep (cat [lit ",", times 3 dg]) min max) w →
    ∀ c ∈ w.filter (fun c => c != ','), isDigit c = true := by
  intro n
  induction n with
  | zero =>
    intro w min max hlen _
    have : w = [] := List.length_eq_zero.1 (by omega)
    subst this
    simp
  | succ n ih =>
    intro w min max hlen h
    rcases matches_rep_inv h with ⟨h0, _⟩ | ⟨_, u, v, huv, hu, hv⟩
    · subst h0
      simp
    · rcases matches_seq_inv hu with ⟨u1, u2, rfl, hu1, hu2⟩
      rcases matches_chr_seq_inv hu1 with ⟨k, e, rfl, hk, he⟩
      have := matches_empty_inv he
      subst this
      have hk2 : k = ',' := (setMatches_chr ic ',' k (by decide)).1 hk
      subst hk2
      rcases matches_seq_inv hu2 with ⟨ds, e2, rfl, hds, he2⟩
      have := matches_empty_inv he2
      subst this
      have hd := (matches_digits hds (by intro k hk; cases hk; exact le_refl _)).1
      subst huv
      have e : [','] ++ (ds ++ []) ++ v = ',' :: (ds ++ v) := by simp
      rw [e] at hlen ⊢
      simp only [List.length_cons, List.length_append] at hlen
      have hv2 := ih v _ _ (by omega) hv
      intro c hc
      have hc2 : c ∈ (ds ++ v).filter (fun c => c != ',') := by
        simpa [List.filter_cons] using hc
      rw [List.filter_append] at hc2
      rcases List.mem_append.1 hc2 with hc3 | hc3
      · exact hd c (List.mem_filter.1 hc3).1
      · exact hv2 c hc3

theorem isDigit_ne_comma (c : Char) (h : isDigit c = true) : (c != ',') = true := by
  simp only [isDigit, Bool.and_eq_true, decide_eq_true_eq] at h
  simp only [bne_iff_ne, ne_eq]
  intro e
  subst e
  revert h
  decide

theorem filter_digits (w : List Char) (h : ∀ c ∈ w, isDigit c = true) :
    w.filter (fun c => c != ',') = w :=
  List.filter_eq_self.2 (fun c hc => isDigit_ne_comma c (h c hc))

/-- Words of the amount pattern: with the commas removed, digits and at most a fraction of
two digits. -/
theorem matches_amount (ic : Bool) (w : List Char) (h : Matches ic amount w) :
    IsPlainAmount (w.filter fun c => c != ',') := by
  rcases matches_seq_inv h with ⟨u1, r1, rfl, h1, hr1⟩
  rcases matches_seq_inv hr1 with ⟨u2, r2, rfl, h2, hr2⟩
  rcases matches_seq_inv hr2 with ⟨u3, r3, rfl, h3, hr3⟩
  have := matches_empty_inv hr3
  subst this
  rcases matches_digits h1 (by simp) with ⟨hd1, hl1, _⟩
  have hd2 := matches_groups_filter ic u2.length u2 _ _ (le_refl _) h2
  have hne : u1 ++ u2.filter (fun c => c != ',') ≠ [] := by
    cases u1 with
    | nil => simp at hl1
    | cons _ _ => simp
  have hds : ∀ c ∈ u1 ++ u2.filter (fun c => c != ','), isDigit c = true := by
    intro c hc
    rcases List.mem_append.1 hc with hc | hc
    · exact hd1 c hc
    · exact hd2 c hc
  refine ⟨u1 ++ u2.filter (fun c => c != ','), hne, hds, ?_⟩
  simp only [List.append_nil, List.filter_append, filter_digits u1 hd1]
  rcases matches_rep_inv h3 with ⟨h0, _⟩ | ⟨_, u, v, huv, hu, hv⟩
  · subst h0
    left
    simp
  · right
    rcases matches_rep_inv hv with ⟨hv0, _⟩ | ⟨hmax, _⟩
    · subst hv0
      rcases matches_seq_inv hu with ⟨f1, f2, rfl, hf1, hf2⟩
      rcases matches_chr_seq_inv hf1 with ⟨k, e, rfl, hk, he⟩
      have := matches_empty_inv he
      subst this
      have hk2 : k = '.' := (setMatches_chr ic '.' k (by decide)).1 hk
      subst hk2
      rcases matches_seq_inv hf2 with ⟨ds, e2, rfl, hds2, he2⟩
      have := matches_empty_inv he2
      subst this
      rcases matches_digits hds2 (by intro k hk; cases hk; exact le_refl _) with ⟨hdd, hl2, hl3⟩
      have hlen : ds.length = 2 := by
        have := hl3 2 rfl
        omega
      match ds, hlen, hdd with
      | [a, b], _, hdd =>
        refine ⟨a, b, hdd a (by simp), hdd b (by simp), ?_⟩
        subst huv
        have ha := isDigit_ne_comma a (hdd a (by simp))
        have hb := isDigit_ne_comma b (hdd b (by simp))
        simp [List.filter, ha, hb]
    · simp at hmax

theorem dropWhile_eq_self_of_head (p : Char → Bool) (s : List Char)
    (h : ∀ c, s.head? = some c → p c = false) : s.dropWhile p = s := by
  cases s with
  | nil => rfl
  | cons c s => simp [List.dropWhile, h c rfl]

/-- The method `trim` leaves a string without white space as it is. -/
theorem trim_eq_self (s : List Char) (h : ∀ c ∈ s, isWhiteSpace c = false) : trim s = s := by
  unfold trim
  rw [dropWhile_eq_self_of_head isWhiteSpace s (fun c hc => h c (List.mem_of_mem_head? hc)),
    dropWhile_eq_self_of_head isWhiteSpace s.reverse
      (fun c hc => h c (List.mem_reverse.1 (List.mem_of_mem_head? hc))), List.reverse_reverse]

theorem plainAmount_chars (s : List Char) (h : IsPlainAmount s) :
    ∀ c ∈ s, isDigit c = true ∨ c = '.' := by
  rcases h with ⟨ds, _, hds, rfl | ⟨a, b, ha, hb, rfl⟩⟩
  · exact fun c hc => Or.inl (hds c hc)
  · intro c hc
    simp only [List.mem_append, List.mem_cons, List.mem_singleton, List.not_mem_nil,
      or_false] at hc
    rcases hc with hc | rfl | rfl | rfl
    · exact Or.inl (hds c hc)
    · exact Or.inr rfl
    · exact Or.inl ha
    · exact Or.inl hb

/-- The field `total_amount` is empty or a plain amount. -/
theorem totalText_plain (text : List Char) :
    totalText text = "" ∨ IsPlainAmount (totalText text).data := by
  unfold totalText
  cases h : firstMatch totalPatterns text with
  | none => exact Or.inl rfl
  | some c =>
    have hp : ∀ p ∈ totalPatterns, ∃ g, p.body.groupBody = some g ∧
        ∀ w, Matches p.ignoreCase g w → IsPlainAmount (w.filter fun c => c != ',') := by
      intro p hmem
      simp only [totalPatterns, List.mem_cons, List.mem_singleton, List.not_mem_nil,
        or_false] at hmem
      rcases hmem with rfl | rfl | rfl | rfl | rfl <;>
        exact ⟨amount, rfl, fun w hw => matches_amount _ w hw⟩
    rcases firstMatch_cap totalPatterns _ hp text c h with ⟨w, rfl, hw⟩
    right
    have hchars := plainAmount_chars _ hw
    have htrim : trim (w.filter fun c => c != ',') = w.filter fun c => c != ',' := by
      apply trim_eq_self
      intro c hc
      rcases hchars c hc with hd | rfl
      · exact isWhiteSpace_of_isDigit c hd
      · decide
    simp only [htrim]
    exact hw

/-- C10: for every text, `total_amount` is the empty string or one or more digits optionally
followed by `.` and exactly two digits; it has no comma, no currency symbol and no white
space. -/
theorem total_amount_format (text : String) :
    ∃ d, extractInvoiceData text = .ok d ∧
      (d.total_amount = "" ∨ IsPlainAmount d.total_amount.data) ∧
      ∀ c ∈ d.total_amount.data, c ≠ ',' ∧ isWhiteSpace c = false ∧
        c ≠ '$' ∧ c ≠ '৳' ∧ c ≠ '€' ∧ c ≠ '£' := by
  refine ⟨_, extractInvoiceData_eq text, totalText_plain text.data, ?_⟩
  intro c hc
  simp only [extractedRecord] at hc
  rcases totalText_plain text.data with h | h
  · rw [h] at hc
    simp at hc
  · rcases plainAmount_chars _ h c hc with hd | rfl
    · have hws := isWhiteSpace_of_isDigit c hd
      simp only [isDigit, Bool.and_eq_true, decide_eq_true_eq] at hd
      refine ⟨?_, hws, ?_, ?_, ?_, ?_⟩ <;>
        · intro e
          subst e
          revert hd
          decide
    · decide


/-! ## Labels and dates -/

theorem sameLetter_of_setMatches (k c : Char) (hk : 97 ≤ k.toNat ∧ k.toNat ≤ 122)
    (h : setMatches true false [.chr k] c = true) : sameLetter k c = true := by
  rcases (setMatches_letter k c hk).1 h with e | e
  · simp [sameLetter, char_eq_of_toNat e]
  · simp [sameLetter, e]

theorem startsWithAnyCase_append : ∀ (kw w rest : List Char),
    startsWithAnyCase kw w = true → startsWithAnyCase kw (w ++ rest) = true := by
  intro kw
  induction kw with
  | nil => intro w rest _; simp [startsWithAnyCase]
  | cons k kw ih =>
    intro w rest h
    cases w with
    | nil => simp [startsWithAnyCase] at h
    | cons c w =>
      simp only [startsWithAnyCase, Bool.and_eq_true] at h
      simp only [List.cons_append, startsWithAnyCase, Bool.and_eq_true]
      exact ⟨h.1, ih w rest h.2⟩

/-- A word of a pattern that begins with a literal begins with the literal, in some letter
case. -/
theorem matches_lit_startsWith (r : Regex) : ∀ (ks w : List Char),
    (∀ k ∈ ks, 97 ≤ k.toNat ∧ k.toNat ≤ 122) →
    Matches true (.seq (ks.foldr (fun c r => .seq (.set false [.chr c]) r) .empty) r) w →
    startsWithAnyCase ks w = true := by
  intro ks
  induction ks with
  | nil => intro w _ _; simp [startsWithAnyCase]
  | cons k ks ih =>
    intro w hks h
    rcases matches_seq_inv h with ⟨u, v, rfl, hu, hv⟩
    rcases matches_chr_seq_inv hu with ⟨c, u2, rfl, hc, hu2⟩
    have := ih (u2 ++ v) (fun k hk => hks k (List.mem_cons_of_mem _ hk)) (Matches.seq hu2 hv)
    simp only [List.cons_append, startsWithAnyCase, Bool.and_eq_true]
    exact ⟨sameLetter_of_setMatches k c (hks k (List.mem_cons_self _ _)) hc, this⟩

theorem occursAnyCase_false (kw : List Char) : ∀ (s : List Char), occursAnyCase kw s = false →
    ∀ t, t <:+ s → startsWithAnyCase kw t = false := by
  intro s
  induction s with
  | nil =>
    intro h t ht
    have : t = [] := List.suffix_nil.1 ht
    subst this
    simpa [occursAnyCase] using h
  | cons c s ih =>
    intro h t ht
    simp only [occursAnyCase, Bool.or_eq_false_iff] at h
    rcases List.suffix_cons_iff.1 ht with e | ht
    · subst e
      exact h.1
    · exact ih h.2 t ht

/-- A match that `exec` reports reads a word of the pattern somewhere in the text. -/
theorem exec_some_matches (re : RegExp) (s : List Char) (y : MState) (h : exec re s = some y) :
    ∃ w, (w ++ y.rest) <:+ s ∧ Matches re.ignoreCase re.body w := by
  rcases exec_eq_some re s y h with ⟨t, ht, hhead⟩
  rcases matchRe_sound _ _ _ _ (List.mem_of_mem_head? hhead) with ⟨w, hw, hm⟩
  exact ⟨w, by simpa [← hw] using ht, hm⟩

/-- A text without the letters `due` gives no due date. -/
theorem firstMatch_due_none (text : List Char) (h : occursAnyCase "due".data text = false) :
    firstMatch dueDatePatterns text = none := by
  rw [firstMatch_eq_none]
  have hno := occursAnyCase_false _ text h
  have hdue : ∀ k ∈ "due".data, 97 ≤ k.toNat ∧ k.toNat ≤ 122 := by decide
  have direct : ∀ (r : Regex), exec ⟨true, .seq (lit "due") r⟩ text = none := by
    intro r
    cases he : exec ⟨true, .seq (lit "due") r⟩ text with
    | none => rfl
    | some y =>
      rcases exec_some_matches _ _ _ he with ⟨w, hsuf, hm⟩
      have h1 := matches_lit_startsWith r "due".data w hdue hm
      have h2 := startsWithAnyCase_append _ _ y.rest h1
      rw [hno _ hsuf] at h2
      exact absurd h2 (by simp)
  intro p hp
  simp only [dueDatePatterns, List.mem_cons, List.mem_singleton, List.not_mem_nil,
    or_false] at hp
  rcases hp with rfl | rfl | rfl
  · exact direct _
  · cases he : exec ⟨true, cat [lit "payment", plus ws, lit "due", star ws, opt (lit ":"),
        star ws, .group dateToken]⟩ text with
    | none => rfl
    | some y =>
      rcases exec_some_matches _ _ _ he with ⟨w, hsuf, hm⟩
      rcases matches_seq_inv hm with ⟨u1, r1, rfl, _, hr1⟩
      rcases matches_seq_inv hr1 with ⟨u2, r2, rfl, _, hr2⟩
      have h1 := matches_lit_startsWith _ "due".data r2 hdue hr2
      have h2 := startsWithAnyCase_append _ _ y.rest h1
      have hsuf2 : (r2 ++ y.rest) <:+ text := by
        refine List.IsSuffix.trans ⟨u1 ++ u2, ?_⟩ hsuf
        simp
      rw [hno _ hsuf2] at h2
      exact absurd h2 (by simp)
  · exact direct _

/-! ### Completeness on a date token -/

theorem mem_seq (ic : Bool) (a b : Regex) (x y z : MState) (h1 : y ∈ matchRe ic a x)
    (h2 : z ∈ matchRe ic b y) : z ∈ matchRe ic (.seq a b) x := by
  simp only [matchRe]
  exact List.mem_flatMap.2 ⟨y, h1, h2⟩

theorem mem_set (ic inv : Bool) (items : List ClassItem) (c : Char) (s : List Char)
    (cap : Option (List Char)) (h : setMatches ic inv items c = true) :
    (⟨s, cap⟩ : MState) ∈ matchRe ic (.set inv items) ⟨c :: s, cap⟩ := by
  simp [matchRe, h]

theorem mem_repeat_set (ic inv : Bool) (items : List ClassItem) (rest : List Char)
    (cap : Option (List Char)) :
    ∀ (w : List Char) (fuel min : Nat) (max : Option Nat),
      (∀ c ∈ w, setMatches ic inv items c = true) → min ≤ w.length →
      (∀ k, max = some k → w.length ≤ k) → w.length ≤ fuel →
      (⟨rest, cap⟩ : MState) ∈
        repeatMatcher (matchRe ic (.set inv items)) fuel min max ⟨w ++ rest, cap⟩ := by
  intro w
  induction w with
  | nil =>
    intro fuel min max _ hmin _ _
    have hm : min = 0 := by simpa using hmin
    subst hm
    cases fuel with
    | zero => simp [repeatMatcher]
    | succ fuel =>
      by_cases hmax : max = some 0
      · simp [repeatMatcher, hmax]
      · simp [repeatMatcher, hmax]
  | cons c w ih =>
    intro fuel min max hw hmin hmax hfuel
    cases fuel with
    | zero => simp at hfuel
    | succ fuel =>
      have hc := hw c (List.mem_cons_self _ _)
      have hmax0 : max ≠ some 0 := by
        intro e
        have := hmax 0 e
        simp at this
      have ih2 := ih fuel (min - 1) (max.map (· - 1))
        (fun c hc => hw c (List.mem_cons_of_mem _ hc))
        (by simp at hmin; omega)
        (by
          intro k hk
          cases max with
          | none => simp at hk
          | some m =>
            simp only [Option.map_some', Option.some.injEq] at hk
            have := hmax m rfl
            simp only [List.length_cons] at this
            omega)
        (by simp at hfuel; omega)
      have hmx : matchRe ic (.set inv items) ⟨c :: (w ++ rest), cap⟩ = [⟨w ++ rest, cap⟩] := by
        simp [matchRe, hc]
      by_cases hm : min = 0
      · subst hm
        simp only [Nat.zero_sub] at ih2
        simp [repeatMatcher, hmx, hmax0, ih2]
      · simp [repeatMatcher, hmx, hmax0, hm, ih2]

/-- A quantified character set can read any run of its characters that the bounds allow. -/
theorem mem_rep_set (ic inv : Bool) (items : List ClassItem) (min : Nat) (max : Option Nat)
    (w rest : List Char) (cap : Option (List Char))
    (hw : ∀ c ∈ w, setMatches ic inv items c = true) (hmin : min ≤ w.length)
    (hmax : ∀ k, max = some k → w.length ≤ k) :
    (⟨rest, cap⟩ : MState) ∈ matchRe ic (.rep (.set inv items) min max) ⟨w ++ rest, cap⟩ := by
  simp only [matchRe]
  exact mem_repeat_set ic inv items rest cap w _ min max hw hmin hmax (by simp; omega)

/-- The date pattern reads a date token wherever one starts. -/
theorem matchRe_dateToken (ic : Bool) (tok post : List Char) (cap : Option (List Char))
    (h : IsDateToken tok) :
    (⟨post, cap⟩ : MState) ∈ matchRe ic dateToken ⟨tok ++ post, cap⟩ := by
  rcases h with ⟨d1, d2, d3, s1, s2, rfl, hd, hl1, hl2, hl3, hs1, hs2⟩
  have hdig : ∀ (d : List Char), (∀ c ∈ d, c ∈ d1 ++ d2 ++ d3) →
      ∀ c ∈ d, setMatches ic false [.digit] c = true := by
    intro d hsub c hc
    rw [setMatches_digit]
    exact hd c (hsub c hc)
  have hsep : ∀ s, (s = '/' ∨ s = '-') →
      setMatches ic false [.chr '/', .chr '-'] s = true := by
    intro s hs
    rcases hs with rfl | rfl <;> cases ic <;> decide
  have e : d1 ++ s1 :: (d2 ++ s2 :: d3) ++ post = d1 ++ (s1 :: (d2 ++ (s2 :: (d3 ++ post)))) := by
    simp
  rw [e]
  refine mem_seq ic _ _ _ ⟨s1 :: (d2 ++ (s2 :: (d3 ++ post))), cap⟩ _ ?_ ?_
  · exact mem_rep_set ic false [.digit] 1 (some 2) d1 _ cap
      (hdig d1 (fun c hc => by simp [hc])) (by omega)
      (by intro k hk; cases hk; omega)
  refine mem_seq ic _ _ _ ⟨d2 ++ (s2 :: (d3 ++ post)), cap⟩ _ (mem_set ic false _ s1 _ cap (hsep s1 hs1)) ?_
  refine mem_seq ic _ _ _ ⟨s2 :: (d3 ++ post), cap⟩ _ ?_ ?_
  · exact mem_rep_set ic false [.digit] 1 (some 2) d2 _ cap
      (hdig d2 (fun c hc => by simp [hc])) (by omega)
      (by intro k hk; cases hk; omega)
  refine mem_seq ic _ _ _ ⟨d3 ++ post, cap⟩ _ (mem_set ic false _ s2 _ cap (hsep s2 hs2)) ?_
  refine mem_seq ic _ _ _ ⟨post, cap⟩ _ ?_ (by simp [cat, matchRe])
  exact mem_rep_set ic false [.digit] 2 (some 4) d3 _ cap
    (hdig d3 (fun c hc => by simp [hc])) (by omega)
    (by intro k hk; cases hk; omega)

/-- A text with a date token makes the last date pattern match. -/
theorem firstMatch_date_some (text : List Char)
    (h : ∃ pre tok post, text = pre ++ tok ++ post ∧ IsDateToken tok) :
    firstMatch datePatterns text ≠ none := by
  rcases h with ⟨pre, tok, post, rfl, htok⟩
  intro hnone
  have hall := (firstMatch_eq_none _ _).1 hnone
  have h4 := hall ⟨false, cat [.group dateToken]⟩ (by simp [datePatterns])
  have hfail := exec_eq_none _ _ h4 (tok ++ post) ⟨pre, by simp⟩
  have hmem := matchRe_dateToken false tok post none htok
  have : (⟨post, some ((tok ++ post).take ((tok ++ post).length - post.length))⟩ : MState) ∈
      matchRe false (cat [.group dateToken]) ⟨tok ++ post, none⟩ := by
    refine mem_seq false _ _ _ ⟨post, some ((tok ++ post).take ((tok ++ post).length - post.length))⟩ _
      ?_ (by simp [cat, matchRe])
    simp only [matchRe]
    exact List.mem_map.2 ⟨_, hmem, rfl⟩
  rw [hfail] at this
  simp at this

theorem trim_ne_nil (s : List Char) (c : Char) (hc : c ∈ s) (hws : isWhiteSpace c = false) :
    trim s ≠ [] := by
  unfold trim
  intro h
  have h1 : (s.dropWhile isWhiteSpace).reverse.dropWhile isWhiteSpace = [] := by
    simpa using h
  have h2 := List.dropWhile_eq_nil_iff.1 h1
  have h3 : s.dropWhile isWhiteSpace = [] := by
    cases hd : s.dropWhile isWhiteSpace with
    | nil => rfl
    | cons a l =>
      have ha : isWhiteSpace a = true := h2 a (by simp [hd])
      have hna := List.head_dropWhile_not isWhiteSpace s (by simp [hd])
      simp only [hd, List.head_cons] at hna
      rw [ha] at hna
      simp at hna
  have h4 := List.dropWhile_eq_nil_iff.1 h3 c hc
  rw [hws] at h4
  simp at h4

/-- A word of the date pattern starts with a digit. -/
theorem matches_dateToken_head (ic : Bool) (w : List Char) (h : Matches ic dateToken w) :
    ∃ c rest, w = c :: rest ∧ isDigit c = true := by
  rcases matches_seq_inv h with ⟨u1, r1, rfl, h1, _⟩
  rcases matches_digits h1 (by intro k hk; cases hk; omega) with ⟨hd, hl, _⟩
  cases u1 with
  | nil => simp at hl
  | cons c u => exact ⟨c, u ++ r1, rfl, hd c (List.mem_cons_self _ _)⟩

/-- A text with a date token gives a date that is not empty. -/
theorem fieldText_date_ne (text : List Char)
    (h : ∃ pre tok post, text = pre ++ tok ++ post ∧ IsDateToken tok) :
    fieldText datePatterns text ≠ "" := by
  have hsome := firstMatch_date_some text h
  unfold fieldText
  cases hf : firstMatch datePatterns text with
  | none => exact absurd hf hsome
  | some c =>
    have hp : ∀ p ∈ datePatterns, ∃ g, p.body.groupBody = some g ∧
        ∀ w, Matches p.ignoreCase g w → trim w ≠ [] := by
      intro p hmem
      simp only [datePatterns, List.mem_cons, List.mem_singleton, List.not_mem_nil,
        or_false] at hmem
      have key : ∀ ic w, Matches ic dateToken w → trim w ≠ [] := by
        intro ic w hw
        rcases matches_dateToken_head ic w hw with ⟨c, rest, rfl, hc⟩
        exact trim_ne_nil _ c (List.mem_cons_self _ _) (isWhiteSpace_of_isDigit c hc)
      rcases hmem with rfl | rfl | rfl | rfl <;> exact ⟨dateToken, rfl, key _⟩
    rcases firstMatch_cap datePatterns _ hp text c hf with ⟨w, rfl, hw⟩
    simp only
    intro e
    exact hw (congrArg String.data e)

/-- C5: a text with a numeric date token and nowhere the letters `due`, in any letter case,
gives an empty `due_date` and a `date` that is not empty; for the text `04/05/2024` the date
is `04/05/2024`. -/
theorem due_date_needs_label (text : String)
    (htok : ∃ pre tok post, text.data = pre ++ tok ++ post ∧ IsDateToken tok)
    (hdue : occursAnyCase "due".data text.data = false) :
    (∃ d, extractInvoiceData text = .ok d ∧ d.due_date = "" ∧ d.date ≠ "") ∧
    (∃ d, extractInvoiceData "04/05/2024" = .ok d ∧ d.due_date = "" ∧ d.date = "04/05/2024") := by
  refine ⟨⟨_, extractInvoiceData_eq text, ?_, fieldText_date_ne _ htok⟩,
    ⟨_, extractInvoiceData_eq _, by decide, by decide⟩⟩
  simp only [extractedRecord, fieldText, firstMatch_due_none _ hdue]

/-- C5 at the text `04/05/2024`: it is a date token and has no letters `due`. -/
theorem due_date_needs_label_witness :
    IsDateToken "04/05/2024".data ∧ occursAnyCase "due".data "04/05/2024".data = false ∧
    ∃ d, extractInvoiceData "04/05/2024" = .ok d ∧ d.due_date = "" ∧ d.date ≠ "" := by
  have htok : IsDateToken "04/05/2024".data :=
    ⟨"04".data, "05".data, "2024".data, '/', '/', rfl, by decide, by decide, by decide,
      by decide, by decide, by decide⟩
  exact ⟨htok, by decide,
    (due_date_needs_label "04/05/2024" ⟨[], "04/05/2024".data, [], rfl, htok⟩ (by decide)).1⟩


/-! ## Currency -/

theorem includes_singleton (ch : Char) : ∀ text : List Char,
    includes text [ch] = true ↔ ch ∈ text := by
  intro text
  induction text with
  | nil => simp [includes, startsWith]
  | cons c s ih =>
    simp only [includes, startsWith, Bool.and_true, Bool.or_eq_true, beq_iff_eq, ih,
      List.mem_cons]

theorem toNat_ofNat_small (n : Nat) (h : n < 128) : (Char.ofNat n).toNat = n := by
  interval_cases n <;> rfl

/-- Lowering a character gives the lower-case letter `k` exactly for the two case forms of
`k`. -/
theorem eq_toLowerChar (k c : Char) (hk : 97 ≤ k.toNat ∧ k.toNat ≤ 122) :
    (k == toLowerChar c) = sameLetter k c := by
  rw [Bool.eq_iff_iff]
  simp only [sameLetter, toLowerChar, beq_iff_eq, Bool.or_eq_true]
  by_cases hc : 65 ≤ c.toNat ∧ c.toNat ≤ 90
  · rw [if_pos hc]
    constructor
    · intro e
      right
      rw [e, toNat_ofNat_small _ (by omega)]
    · rintro (e | e)
      · subst e
        omega
      · apply char_eq_of_toNat
        rw [toNat_ofNat_small _ (by omega)]
        exact e.symm
  · rw [if_neg hc]
    constructor
    · intro e
      exact Or.inl e.symm
    · rintro (e | e)
      · exact e.symm
      · omega

theorem startsWith_toLowerCase : ∀ (kw s : List Char),
    (∀ k ∈ kw, 97 ≤ k.toNat ∧ k.toNat ≤ 122) →
    startsWith kw (toLowerCase s) = startsWithAnyCase kw s := by
  intro kw
  induction kw with
  | nil => intro s _; simp [startsWith, startsWithAnyCase]
  | cons k kw ih =>
    intro s hkw
    cases s with
    | nil => simp [toLowerCase, startsWith, startsWithAnyCase]
    | cons c s =>
      have := ih s (fun k hk => hkw k (List.mem_cons_of_mem _ hk))
      simp only [toLowerCase, List.map_cons, startsWith, startsWithAnyCase] at this ⊢
      rw [this, eq_toLowerChar k c (hkw k (List.mem_cons_self _ _))]

/-- Searching a lower-case word in the lowered text is searching it in any letter case. -/
theorem includes_toLowerCase (kw : List Char) (hkw : ∀ k ∈ kw, 97 ≤ k.toNat ∧ k.toNat ≤ 122) :
    ∀ s : List Char, includes (toLowerCase s) kw = occursAnyCase kw s := by
  intro s
  induction s with
  | nil =>
    have := startsWith_toLowerCase kw [] hkw
    simpa [toLowerCase, includes, occursAnyCase] using this
  | cons c s ih =>
    have := startsWith_toLowerCase kw (c :: s) hkw
    simp only [toLowerCase, List.map_cons, includes, occursAnyCase] at this ih ⊢
    rw [this, ih]

/-- The currency detection of the source follows the priority list of the specification. -/
theorem detectCurrency_eq (text : List Char) : detectCurrency text = currencyBySpec text := by
  unfold detectCurrency currencyBySpec
  simp only [includes_toLowerCase "usd".data (by decide), includes_toLowerCase "bdt".data (by decide),
    includes_toLowerCase "eur".data (by decide), includes_toLowerCase "gbp".data (by decide),
    Bool.or_eq_true, includes_singleton]

/-- C7: the currency is decided by the fixed priority list USD, BDT, EUR, GBP over symbols
and codes in any letter case, USD when nothing is found; it is always one of the four, and a
text with both `$` and `€` gives USD. -/
theorem currency_priority (text : String) :
    ∃ d, extractInvoiceData text = .ok d ∧ d.currency = currencyBySpec text.data ∧
      (d.currency = "USD" ∨ d.currency = "BDT" ∨ d.currency = "EUR" ∨ d.currency = "GBP") ∧
      ('$' ∈ text.data → '€' ∈ text.data → d.currency = "USD") := by
  refine ⟨_, extractInvoiceData_eq text, detectCurrency_eq _, ?_, ?_⟩
  · simp only [extractedRecord, detectCurrency_eq]
    unfold currencyBySpec
    split
    · exact Or.inl rfl
    · split
      · exact Or.inr (Or.inl rfl)
      · split
        · exact Or.inr (Or.inr (Or.inl rfl))
        · split
          · exact Or.inr (Or.inr (Or.inr rfl))
          · exact Or.inl rfl
  · intro h _
    simp only [extractedRecord, detectCurrency_eq]
    unfold currencyBySpec
    rw [if_pos (Or.inl h)]

/-- C7 at the text `Price: 10 € or 11 $`, which has both symbols: the currency is USD. -/
theorem currency_priority_witness :
    '$' ∈ "Price: 10 € or 11 $".data ∧ '€' ∈ "Price: 10 € or 11 $".data ∧
    ∃ d, extractInvoiceData "Price: 10 € or 11 $" = .ok d ∧ d.currency = "USD" := by
  refine ⟨by decide, by decide, ?_⟩
  rcases currency_priority "Price: 10 € or 11 $" with ⟨d, hd, _, _, h⟩
  exact ⟨d, hd, h (by decide) (by decide)⟩


/-! ## Item lines -/

/-- C6: `items` has at most 5 entries; when the text has `n ≥ 1` lines kept as item lines,
`items` is the parses of the first `min n 5` of them, in their order. -/
theorem items_first_five (text : String) :
    ∃ d, extractInvoiceData text = .ok d ∧ d.items.length ≤ 5 ∧
      (itemLines text.data ≠ [] →
        d.items.map (Except.ok : Item → Except JSError Item)
          = ((itemLines text.data).take 5).map parseItemLine ∧
        d.items.length = min (itemLines text.data).length 5) := by
  refine ⟨_, extractInvoiceData_eq text, ?_, ?_⟩
  · simp only [extractedRecord, itemsOf]
    split
    · simp
    · simp only [List.length_map, List.length_take]
      omega
  · intro hne
    have hlen : ¬ (((itemLines text.data).take 5).length = 0 ∧ totalText text.data ≠ "") := by
      intro h
      have h0 := h.1
      simp only [List.length_take] at h0
      have : (itemLines text.data).length ≠ 0 := fun e => hne (List.length_eq_zero.1 e)
      omega
    simp only [extractedRecord, itemsOf]
    rw [if_neg hlen]
    simp only [List.map_map, List.length_map, List.length_take]
    refine ⟨?_, by omega⟩
    apply List.map_congr_left
    intro line _
    exact (parseItemLine_eq line).symm

/-- C6 at a text of eight item lines: `items` is the parses of the first five. -/
theorem items_first_five_witness :
    (itemLines "a 1 2\nb 2 3\nc 3 4\nd 4 5\ne 5 6\nf 6 7\ng 7 8\nh 8 9".data).length = 8 ∧
    ∃ d, extractInvoiceData "a 1 2\nb 2 3\nc 3 4\nd 4 5\ne 5 6\nf 6 7\ng 7 8\nh 8 9" = .ok d ∧
      d.items.length = 5 ∧
      d.items.map (Except.ok : Item → Except JSError Item)
        = ["a 1 2".data, "b 2 3".data, "c 3 4".data, "d 4 5".data, "e 5 6".data].map
            parseItemLine := by
  have hl : itemLines "a 1 2\nb 2 3\nc 3 4\nd 4 5\ne 5 6\nf 6 7\ng 7 8\nh 8 9".data
      = ["a 1 2".data, "b 2 3".data, "c 3 4".data, "d 4 5".data, "e 5 6".data, "f 6 7".data,
          "g 7 8".data, "h 8 9".data] := by decide
  rcases items_first_five "a 1 2\nb 2 3\nc 3 4\nd 4 5\ne 5 6\nf 6 7\ng 7 8\nh 8 9"
    with ⟨d, hd, _, h⟩
  have h2 := h (by
    show itemLines "a 1 2\nb 2 3\nc 3 4\nd 4 5\ne 5 6\nf 6 7\ng 7 8\nh 8 9".data ≠ []
    rw [hl]
    simp)
  refine ⟨by rw [hl]; rfl, d, hd, ?_, ?_⟩
  · have := h2.2
    rw [this]
    show min (itemLines "a 1 2\nb 2 3\nc 3 4\nd 4 5\ne 5 6\nf 6 7\ng 7 8\nh 8 9".data).length 5 = 5
    rw [hl]
    rfl
  · have := h2.1
    rw [this]
    show ((itemLines "a 1 2\nb 2 3\nc 3 4\nd 4 5\ne 5 6\nf 6 7\ng 7 8\nh 8 9".data).take 5).map
      parseItemLine = _
    rw [hl]
    rfl

/-! ## Where a capture comes from -/

/-- The capture of a pattern whose group is not optional is a word of the body of the group
and a part of the input the matcher was given. -/
theorem matchRe_cap_infix (ic : Bool) (r g : Regex) :
    r.groupBody = some g → ∀ x y, y ∈ matchRe ic r x →
      ∃ u w v, x.rest = u ++ (w ++ v) ∧ y.cap = some w ∧ Matches ic g w := by
  induction r with
  | set inv items => intro h; simp [Regex.groupBody] at h
  | rep r min max _ => intro h; simp [Regex.groupBody] at h
  | group r _ => intro h; simp [Regex.groupBody] at h
  | empty => intro h; simp [Regex.groupBody] at h
  | seq a b _ ihb =>
    intro h x y hy
    simp only [matchRe] at hy
    rcases List.mem_flatMap.1 hy with ⟨y1, h1, h2⟩
    have other : a.hasGroup = false → b.groupBody = some g →
        ∃ u w v, x.rest = u ++ (w ++ v) ∧ y.cap = some w ∧ Matches ic g w := by
      intro _ hb
      rcases ihb hb _ _ h2 with ⟨u, w, v, e, hc, hm⟩
      rcases matchRe_sound ic a _ _ h1 with ⟨u0, e0, _⟩
      exact ⟨u0 ++ u, w, v, by rw [e0, e, List.append_assoc], hc, hm⟩
    cases a with
    | group g0 =>
      simp only [Regex.groupBody] at h
      split at h
      · simp at h
      · rename_i hng
        simp only [Bool.or_eq_true, not_or, Bool.not_eq_true] at hng
        simp only [Option.some.injEq] at h
        subst h
        simp only [matchRe] at h1
        rcases List.mem_map.1 h1 with ⟨y0, h0, e⟩
        rcases matchRe_sound ic g0 _ _ h0 with ⟨w, hw, hmw⟩
        refine ⟨[], w, y0.rest, by simpa using hw, ?_, hmw⟩
        rw [matchRe_cap_of_noGroup ic b hng.2 _ _ h2, ← e, hw]
        simp
    | set inv items =>
      simp only [Regex.groupBody, Regex.hasGroup] at h
      exact other rfl (by simpa using h)
    | seq a1 a2 =>
      simp only [Regex.groupBody] at h
      split at h
      · simp at h
      · rename_i hng
        exact other (by simpa using hng) h
    | rep a1 min max =>
      simp only [Regex.groupBody] at h
      split at h
      · simp at h
      · rename_i hng
        exact other (by simpa using hng) h
    | empty =>
      simp only [Regex.groupBody, Regex.hasGroup] at h
      exact other rfl (by simpa using h)

/-- The capture that `exec` reports is a word of the group, found inside the text. -/
theorem exec_cap_infix (re : RegExp) (g : Regex) (hg : re.body.groupBody = some g)
    (text : List Char) (y : MState) (h : exec re text = some y) :
    ∃ u w v, text = u ++ (w ++ v) ∧ y.cap = some w ∧ Matches re.ignoreCase g w := by
  rcases exec_eq_some re text y h with ⟨t, ⟨pre, hpre⟩, hhead⟩
  rcases matchRe_cap_infix re.ignoreCase re.body g hg _ y (List.mem_of_mem_head? hhead)
    with ⟨u, w, v, e, hc, hm⟩
  simp only at e
  exact ⟨pre ++ u, w, v, by rw [← hpre, e, List.append_assoc], hc, hm⟩

/-- The capture that the loop over a list of patterns reports is found inside the text. -/
theorem firstMatch_cap_infix (patterns : List RegExp) (P : List Char → Prop)
    (hp : ∀ p ∈ patterns, ∃ g, p.body.groupBody = some g ∧ ∀ w, Matches p.ignoreCase g w → P w)
    (text : List Char) (c : Option (List Char)) (h : firstMatch patterns text = some c) :
    ∃ u w v, text = u ++ (w ++ v) ∧ c = some w ∧ P w := by
  rcases firstMatch_eq_some patterns text c h with ⟨p, hmem, y, hy, hc⟩
  rcases hp p hmem with ⟨g, hg, hP⟩
  rcases exec_cap_infix p g hg text y hy with ⟨u, w, v, e, hw, hm⟩
  exact ⟨u, w, v, e, by rw [← hc, hw], hP w hm⟩

/-! ## Invoice numbers -/

/-- With the `i` flag the class `[a-z0-9\-]` matches ASCII letters, digits and the hyphen. -/
theorem setMatches_tokenChar (c : Char)
    (h : setMatches true false [.range 'a' 'z', .range '0' '9', .chr '-'] c = true) :
    isNumberChar c = true := by
  rw [setMatches_pos] at h
  have ha : 'a'.toNat = 97 := rfl
  have hz : 'z'.toNat = 122 := rfl
  have h0 : '0'.toNat = 48 := rfl
  have h9 : '9'.toNat = 57 := rfl
  have hm : '-'.toNat = 45 := rfl
  simp only [List.any_cons, List.any_nil, ClassItem.matchesChar, ClassItem.hasCode, canonCode,
    lowerCode, Bool.or_false, Bool.true_and, Bool.or_eq_true, Bool.and_eq_true,
    decide_eq_true_eq, beq_iff_eq, ha, hz, h0, h9, hm] at h
  simp only [isNumberChar, isAsciiLetter, isDigit, Bool.or_eq_true, Bool.and_eq_true,
    decide_eq_true_eq, beq_iff_eq]
  have hc : c.toNat = 45 → c = '-' := fun e => char_eq_of_toNat (e.trans hm.symm)
  by_cases h1 : 97 ≤ c.toNat ∧ c.toNat ≤ 122
  · exact Or.inl (Or.inl (Or.inr h1))
  · by_cases h2 : 65 ≤ c.toNat ∧ c.toNat ≤ 90
    · exact Or.inl (Or.inl (Or.inl h2))
    · rw [if_neg h1, if_neg h2] at h
      rcases h with (h | h | h) | (h | h | h) | (h | h | h)
      · exact absurd h h1
      · exact absurd h h1
      · exact absurd h h1
      · exact Or.inl (Or.inr h)
      · exact Or.inl (Or.inr h)
      · exact Or.inl (Or.inr h)
      · exact Or.inr (hc h)
      · exact Or.inr (hc h)
      · exact Or.inr (hc h)

theorem isWhiteSpace_of_isNumberChar (c : Char) (h : isNumberChar c = true) :
    isWhiteSpace c = false := by
  simp only [isNumberChar, isAsciiLetter, isDigit, Bool.or_eq_true, Bool.and_eq_true,
    decide_eq_true_eq, beq_iff_eq] at h
  rcases h with (h | h) | h
  · simp only [isWhiteSpace, Bool.or_eq_false_iff, beq_eq_false_iff_ne, ne_eq,
      Bool.and_eq_false_iff, decide_eq_false_iff_not]
    omega
  · exact isWhiteSpace_of_isDigit c (by simpa [isDigit] using h)
  · subst h
    decide

/-- A word of `[a-z0-9\-]+` is not empty and made of letters, digits and hyphens. -/
theorem matches_token (w : List Char) (h : Matches true (plus tokenChar) w) :
    w ≠ [] ∧ ∀ c ∈ w, isNumberChar c = true := by
  rcases matches_rep_set true false _ w 1 none h (by simp) with ⟨h1, h2, _⟩
  refine ⟨?_, fun c hc => setMatches_tokenChar c (h1 c hc)⟩
  intro e
  subst e
  simp at h2

/-- C20: for every text, `invoice_number` is empty, or it is a non-empty string of ASCII
letters, digits and hyphens (so without white space, `#`, `:` or other punctuation) that
occurs in the text. -/
theorem invoice_number_format (text : String) :
    ∃ d, extractInvoiceData text = .ok d ∧
      (d.invoice_number = "" ∨
        (d.invoice_number.data ≠ [] ∧ (∀ c ∈ d.invoice_number.data, isNumberChar c = true) ∧
          (∀ c ∈ d.invoice_number.data, isWhiteSpace c = false ∧ c ≠ '#' ∧ c ≠ ':') ∧
          d.invoice_number.data <:+: text.data)) := by
  refine ⟨_, extractInvoiceData_eq text, ?_⟩
  simp only [extractedRecord, fieldText]
  cases h : firstMatch invoicePatterns text.data with
  | none => exact Or.inl rfl
  | some c =>
    have hp : ∀ p ∈ invoicePatterns, ∃ g, p.body.groupBody = some g ∧
        ∀ w, Matches p.ignoreCase g w → (w ≠ [] ∧ ∀ c ∈ w, isNumberChar c = true) := by
      intro p hmem
      simp only [invoicePatterns, List.mem_cons, List.mem_singleton, List.not_mem_nil,
        or_false] at hmem
      rcases hmem with rfl | rfl | rfl | rfl | rfl <;>
        exact ⟨plus tokenChar, rfl, fun w hw => matches_token w hw⟩
    rcases firstMatch_cap_infix invoicePatterns _ hp text.data c h with ⟨u, w, v, e, rfl, hne, hw⟩
    right
    have htrim : trim w = w :=
      trim_eq_self w (fun c hc => isWhiteSpace_of_isNumberChar c (hw c hc))
    simp only [htrim]
    refine ⟨hne, hw, ?_, ⟨u, v, by rw [e]; simp⟩⟩
    intro c hc
    have hn := hw c hc
    refine ⟨isWhiteSpace_of_isNumberChar c hn, ?_, ?_⟩ <;>
      · intro e2
        subst e2
        revert hn
        decide


/-! ## Date and due date -/

theorem setMatches_separator (ic : Bool) (c : Char) :
    setMatches ic false [.chr '/', .chr '-'] c = true ↔ (c = '/' ∨ c = '-') := by
  have h1 := setMatches_chr ic '/' c (by decide)
  have h2 := setMatches_chr ic '-' c (by decide)
  rw [setMatches_pos] at h1 h2 ⊢
  simp only [List.any_cons, List.any_nil, Bool.or_false] at h1 h2 ⊢
  rw [Bool.or_eq_true, h1, h2]

/-- The date pattern reads any of its words wherever the word starts, with or without the
`i` flag. -/
theorem matchRe_dateToken_of_matches (ic ic2 : Bool) (w : List Char)
    (h : Matches ic dateToken w) (post : List Char) (cap : Option (List Char)) :
    (⟨post, cap⟩ : MState) ∈ matchRe ic2 dateToken ⟨w ++ post, cap⟩ := by
  rcases matches_seq_inv h with ⟨d1, r1, rfl, hd1, hr1⟩
  rcases matches_seq_inv hr1 with ⟨t1, r2, rfl, ht1, hr2⟩
  rcases matches_seq_inv hr2 with ⟨d2, r3, rfl, hd2, hr3⟩
  rcases matches_seq_inv hr3 with ⟨t2, r4, rfl, ht2, hr4⟩
  rcases matches_seq_inv hr4 with ⟨d3, r5, rfl, hd3, hr5⟩
  have := matches_empty_inv hr5
  subst this
  rcases matches_set_inv ht1 with ⟨s1, rfl, hs1⟩
  rcases matches_set_inv ht2 with ⟨s2, rfl, hs2⟩
  rcases matches_digits hd1 (by intro k hk; cases hk; omega) with ⟨hg1, hl1, hu1⟩
  rcases matches_digits hd2 (by intro k hk; cases hk; omega) with ⟨hg2, hl2, hu2⟩
  rcases matches_digits hd3 (by intro k hk; cases hk; omega) with ⟨hg3, hl3, hu3⟩
  have hsep : ∀ s, setMatches ic false [.chr '/', .chr '-'] s = true →
      setMatches ic2 false [.chr '/', .chr '-'] s = true :=
    fun s hs => (setMatches_separator ic2 s).2 ((setMatches_separator ic s).1 hs)
  have hdig : ∀ (d : List Char), (∀ c ∈ d, isDigit c = true) →
      ∀ c ∈ d, setMatches ic2 false [.digit] c = true := by
    intro d hd c hc
    rw [setMatches_digit]
    exact hd c hc
  have e : d1 ++ ([s1] ++ (d2 ++ ([s2] ++ (d3 ++ [])))) ++ post
      = d1 ++ (s1 :: (d2 ++ (s2 :: (d3 ++ post)))) := by
    simp
  rw [e]
  refine mem_seq ic2 _ _ _ ⟨s1 :: (d2 ++ (s2 :: (d3 ++ post))), cap⟩ _ ?_ ?_
  · exact mem_rep_set ic2 false [.digit] 1 (some 2) d1 _ cap (hdig d1 hg1) hl1 hu1
  refine mem_seq ic2 _ _ _ ⟨d2 ++ (s2 :: (d3 ++ post)), cap⟩ _
    (mem_set ic2 false _ s1 _ cap (hsep s1 hs1)) ?_
  refine mem_seq ic2 _ _ _ ⟨s2 :: (d3 ++ post), cap⟩ _ ?_ ?_
  · exact mem_rep_set ic2 false [.digit] 1 (some 2) d2 _ cap (hdig d2 hg2) hl2 hu2
  refine mem_seq ic2 _ _ _ ⟨d3 ++ post, cap⟩ _ (mem_set ic2 false _ s2 _ cap (hsep s2 hs2)) ?_
  refine mem_seq ic2 _ _ _ ⟨post, cap⟩ _ ?_ (by simp [cat, matchRe])
  exact mem_rep_set ic2 false [.digit] 2 (some 4) d3 _ cap (hdig d3 hg3) hl3 hu3

/-- A date is found as soon as the text holds a word of the date pattern. -/
theorem fieldText_date_ne_of_word (ic : Bool) (u w v : List Char)
    (h : Matches ic dateToken w) : fieldText datePatterns (u ++ (w ++ v)) ≠ "" := by
  have hsome : firstMatch datePatterns (u ++ (w ++ v)) ≠ none := by
    intro hnone
    have hall := (firstMatch_eq_none _ _).1 hnone
    have h4 := hall ⟨false, cat [.group dateToken]⟩ (by simp [datePatterns])
    have hfail := exec_eq_none _ _ h4 (w ++ v) ⟨u, rfl⟩
    have hmem := matchRe_dateToken_of_matches ic false w h v none
    have : (⟨v, some ((w ++ v).take ((w ++ v).length - v.length))⟩ : MState) ∈
        matchRe false (cat [.group dateToken]) ⟨w ++ v, none⟩ := by
      refine mem_seq false _ _ _ ⟨v, some ((w ++ v).take ((w ++ v).length - v.length))⟩ _
        ?_ (by simp [cat, matchRe])
      simp only [matchRe]
      exact List.mem_map.2 ⟨_, hmem, rfl⟩
    rw [hfail] at this
    simp at this
  unfold fieldText
  cases hf : firstMatch datePatterns (u ++ (w ++ v)) with
  | none => exact absurd hf hsome
  | some c =>
    have hp : ∀ p ∈ datePatterns, ∃ g, p.body.groupBody = some g ∧
        ∀ w, Matches p.ignoreCase g w → trim w ≠ [] := by
      intro p hmem
      simp only [datePatterns, List.mem_cons, List.mem_singleton, List.not_mem_nil,
        or_false] at hmem
      have key : ∀ ic w, Matches ic dateToken w → trim w ≠ [] := by
        intro ic w hw
        rcases matches_dateToken_head ic w hw with ⟨c, rest, rfl, hc⟩
        exact trim_ne_nil _ c (List.mem_cons_self _ _) (isWhiteSpace_of_isDigit c hc)
      rcases hmem with rfl | rfl | rfl | rfl <;> exact ⟨dateToken, rfl, key _⟩
    rcases firstMatch_cap datePatterns _ hp _ c hf with ⟨w2, rfl, hw2⟩
    simp only
    intro e
    exact hw2 (congrArg String.data e)

/-- A text that gives a due date gives a date: the token of the due date is a date token. -/
theorem date_ne_of_due_date_ne (text : List Char) (h : fieldText dueDatePatterns text ≠ "") :
    fieldText datePatterns text ≠ "" := by
  unfold fieldText at h
  cases hf : firstMatch dueDatePatterns text with
  | none => simp [hf] at h
  | some c =>
    have hp : ∀ p ∈ dueDatePatterns, ∃ g, p.body.groupBody = some g ∧
        ∀ w, Matches p.ignoreCase g w → Matches true dateToken w := by
      intro p hmem
      simp only [dueDatePatterns, List.mem_cons, List.mem_singleton, List.not_mem_nil,
        or_false] at hmem
      rcases hmem with rfl | rfl | rfl <;> exact ⟨dateToken, rfl, fun w hw => hw⟩
    rcases firstMatch_cap_infix dueDatePatterns _ hp text c hf with ⟨u, w, v, e, _, hw⟩
    rw [e]
    exact fieldText_date_ne_of_word true u w v hw

/-- C17 as stated fails: no input gives a due date and no date, so the two directions do not
both occur. -/
theorem date_independence_fails :
    ¬ ((∃ text d, extractInvoiceData text = .ok d ∧ d.date ≠ "" ∧ d.due_date = "") ∧
       (∃ text d, extractInvoiceData text = .ok d ∧ d.due_date ≠ "" ∧ d.date = "")) := by
  rintro ⟨_, text, d, hd, hdue, hdate⟩
  rw [extractInvoiceData_eq] at hd
  injection hd with hd
  subst hd
  exact date_ne_of_due_date_ne text.data hdue hdate

/-- C17, amended: some input gives a date and no due date; and for every text, a due date
that is not empty comes with a date that is not empty. -/
theorem date_without_due_date :
    (∃ text d, extractInvoiceData text = .ok d ∧ d.date ≠ "" ∧ d.due_date = "") ∧
    (∀ text, ∃ d, extractInvoiceData text = .ok d ∧ (d.due_date ≠ "" → d.date ≠ "")) :=
  ⟨⟨"04/05/2024", _, extractInvoiceData_eq _, by decide, by decide⟩,
    fun text => ⟨_, extractInvoiceData_eq text, date_ne_of_due_date_ne text.data⟩⟩

/-- C17, amended, at the text `Due Date: 01/02/2023`: the due date is found, and with it the
date. -/
theorem date_without_due_date_witness :
    ∃ d, extractInvoiceData "Due Date: 01/02/2023" = .ok d ∧ d.due_date = "01/02/2023" ∧
      d.date ≠ "" := by
  rcases date_without_due_date.2 "Due Date: 01/02/2023" with ⟨d, hd, h⟩
  have hd2 := hd
  rw [extractInvoiceData_eq] at hd2
  injection hd2 with hd2
  have hdue : d.due_date = "01/02/2023" := by
    rw [← hd2]
    decide
  exact ⟨d, hd, hdue, h (by rw [hdue]; decide)⟩


/-! ## Rates -/

/-- The function `parseFloat` gives `NaN` or a number that is not negative. -/
theorem parseFloat_nonneg (s : List Char) :
    parseFloat s = .nan ∨ ∃ q : ℚ, parseFloat s = .num q ∧ 0 ≤ q := by
  unfold parseFloat
  simp only
  split
  · exact Or.inl rfl
  · exact Or.inr ⟨_, rfl, by positivity⟩

theorem orElse_zero_nonneg (a : JSNumber) (ha : a = .nan ∨ ∃ q : ℚ, a = .num q ∧ 0 ≤ q) :
    ∃ q : ℚ, a.orElse (.num 0) = .num q ∧ 0 ≤ q := by
  rcases ha with h | ⟨q, h, hq⟩
  · subst h
    exact ⟨0, rfl, le_refl _⟩
  · subst h
    by_cases h0 : q = 0
    · exact ⟨0, by simp [JSNumber.orElse, h0], le_refl _⟩
    · exact ⟨q, by simp [JSNumber.orElse, h0], hq⟩

theorem numeralValue_nonneg (ip : List Char) (fp : Option (List Char)) :
    0 ≤ numeralValue ip fp := by
  cases fp <;> simp only [numeralValue] <;> positivity

/-- A plain amount is a decimal numeral, and `parseFloat` gives its numeric value. -/
theorem parseFloat_plainAmount (s : List Char) (h : IsPlainAmount s) :
    ∃ ip fp, s = numeralText ip fp ∧ parseFloat s = .num (numeralValue ip fp) := by
  rcases h with ⟨ds, hne, hds, he | ⟨a, b, ha, hb, he⟩⟩
  · subst he
    exact ⟨s, none, rfl, parseFloat_numeral s none hne hds (by simp)⟩
  · subst he
    refine ⟨ds, some [a, b], by simp [numeralText], ?_⟩
    have := parseFloat_numeral ds (some [a, b]) hne hds (by
      intro f hf c hc
      cases hf
      simp only [List.mem_cons, List.mem_singleton, List.not_mem_nil, or_false] at hc
      rcases hc with rfl | rfl
      · exact ha
      · exact hb)
    simpa [numeralText] using this

/-- C11: for every text, every entry of `items`, parsed from a line or made from the total,
has a rate that is a number and is not negative, so never `NaN`. -/
theorem rate_nonneg (text : String) :
    ∃ d, extractInvoiceData text = .ok d ∧
      ∀ it ∈ d.items, ∃ q : ℚ, it.rate = .num q ∧ 0 ≤ q := by
  refine ⟨_, extractInvoiceData_eq text, ?_⟩
  intro it hit
  simp only [extractedRecord, itemsOf] at hit
  split at hit
  · rename_i hcond
    simp only [List.mem_singleton] at hit
    subst hit
    rcases totalText_plain text.data with h | h
    · exact absurd h hcond.2
    · rcases parseFloat_plainAmount _ h with ⟨ip, fp, _, hv⟩
      exact ⟨_, hv, numeralValue_nonneg ip fp⟩
  · rcases List.mem_map.1 hit with ⟨line, _, rfl⟩
    exact orElse_zero_nonneg _ (parseFloat_nonneg _)

/-! ## The item made from the total -/

/-- C16: for every text without a line kept as an item line, `items` is the single item
`Service/Item` with quantity 1 and the numeric value of `total_amount` as rate when
`total_amount` is not empty, and is empty when `total_amount` is empty. -/
theorem items_without_item_line (text : String) (hno : itemLines text.data = []) :
    ∃ d, extractInvoiceData text = .ok d ∧
      (d.total_amount ≠ "" → ∃ ip fp, d.total_amount.data = numeralText ip fp ∧
        d.items = [{ name := "Service/Item", quantity := .num 1,
                     rate := .num (numeralValue ip fp) }]) ∧
      (d.total_amount = "" → d.items = []) := by
  refine ⟨_, extractInvoiceData_eq text, ?_, ?_⟩
  · intro hne
    simp only [extractedRecord] at hne
    rcases totalText_plain text.data with h | h
    · exact absurd h hne
    · rcases parseFloat_plainAmount _ h with ⟨ip, fp, he, hv⟩
      refine ⟨ip, fp, he, ?_⟩
      simp only [extractedRecord, itemsOf, hno, List.take_nil, List.length_nil, true_and]
      rw [if_pos hne, hv]
  · intro he
    simp only [extractedRecord] at he
    simp only [extractedRecord, itemsOf, hno, List.take_nil, List.length_nil, true_and]
    rw [if_neg (by simp [he])]
    rfl

/-- C16 at the text `Total: $5`, which has no item line: the single item has the rate 5. -/
theorem items_without_item_line_witness :
    itemLines "Total: $5".data = [] ∧
    ∃ d, extractInvoiceData "Total: $5" = .ok d ∧ d.total_amount = "5" ∧
      d.items = [{ name := "Service/Item", quantity := .num 1, rate := .num 5 }] := by
  refine ⟨by decide, ?_⟩
  rcases items_without_item_line "Total: $5" (by decide) with ⟨d, hd, h, _⟩
  have hd2 := hd
  rw [extractInvoiceData_eq] at hd2
  injection hd2 with hd2
  have ht : d.total_amount = "5" := by
    rw [← hd2]
    decide
  refine ⟨d, hd, ht, ?_⟩
  rw [← hd2]
  decide!


/-! ## Labels followed by a value -/

/-- The first invoice pattern on a text that starts with `Invoice No. `: the capture is the
word `No`, whatever follows. -/
theorem firstMatch_invoice_no (rest : List Char) :
    firstMatch invoicePatterns ("Invoice No. ".data ++ rest) = some (some "No".data) := by
  have hskip : ∀ (k : String) (s : List Char), k = "#" ∨ k = ":" →
      matchRe true (lit k) ⟨'N' :: s, none⟩ = [] := by
    intro k s hk
    rcases hk with rfl | rfl
    · have : setMatches true false [.chr '#'] 'N' = false := by decide
      simp [lit, matchRe, this]
    · have : setMatches true false [.chr ':'] 'N' = false := by decide
      simp [lit, matchRe, this]
  have hN : ∀ c, ('N' :: 'o' :: '.' :: ' ' :: rest).head? = some c →
      setMatches true false [.space] c = false := by
    intro c hc
    have hc : 'N' = c := by simpa using hc
    subst hc
    decide
  have key : (matchRe true
      (cat [lit "invoice", star ws, opt (lit "#"), star ws, opt (lit ":"), star ws,
        .group (plus tokenChar)])
      ⟨['I', 'n', 'v', 'o', 'i', 'c', 'e'] ++ ([' '] ++ (['N', 'o'] ++ ('.' :: ' ' :: rest))),
        none⟩).head? = some ⟨'.' :: ' ' :: rest, some ['N', 'o']⟩ := by
    refine head_seq true _ _ _ ⟨[' '] ++ (['N', 'o'] ++ ('.' :: ' ' :: rest)), none⟩ _
      (head_lit true "invoice" _ _ _ (by decide) (by decide)) ?_
    refine head_seq true _ _ _ ⟨['N', 'o'] ++ ('.' :: ' ' :: rest), none⟩ _
      (head_rep_run true false [.space] 0 [' '] _ none (by decide) hN (by simp)) ?_
    refine head_seq true _ _ _ ⟨['N', 'o'] ++ ('.' :: ' ' :: rest), none⟩ _
      (head_rep_skip true _ _ _ (hskip "#" _ (Or.inl rfl))) ?_
    refine head_seq true _ _ _ ⟨['N', 'o'] ++ ('.' :: ' ' :: rest), none⟩ _
      (head_rep_run true false [.space] 0 [] _ none (by simp) hN (by simp)) ?_
    refine head_seq true _ _ _ ⟨['N', 'o'] ++ ('.' :: ' ' :: rest), none⟩ _
      (head_rep_skip true _ _ _ (hskip ":" _ (Or.inr rfl))) ?_
    refine head_seq true _ _ _ ⟨['N', 'o'] ++ ('.' :: ' ' :: rest), none⟩ _
      (head_rep_run true false [.space] 0 [] _ none (by simp) hN (by simp)) ?_
    refine head_seq true _ _ _ ⟨'.' :: ' ' :: rest, some ['N', 'o']⟩ _ ?_ (head_empty _ _)
    have hg := head_group true (plus tokenChar) ⟨['N', 'o'] ++ ('.' :: ' ' :: rest), none⟩
      ⟨'.' :: ' ' :: rest, none⟩
      (head_rep_run true false _ 1 ['N', 'o'] _ none (by decide) (by
        intro c hc
        have hc : '.' = c := by simpa using hc
        subst hc
        decide) (by simp))
    rw [hg]
    simp only [take_length_sub]
  have htext : "Invoice No. ".data ++ rest
      = 'I' :: (['n', 'v', 'o', 'i', 'c', 'e'] ++ ([' '] ++ (['N', 'o'] ++ ('.' :: ' ' :: rest)))) := by
    simp
  rw [htext]
  simp only [invoicePatterns, firstMatch, exec]
  have key2 : (matchRe true
      (cat [lit "invoice", star ws, opt (lit "#"), star ws, opt (lit ":"), star ws,
        .group (plus tokenChar)])
      ⟨'I' :: (['n', 'v', 'o', 'i', 'c', 'e'] ++ ([' '] ++ (['N', 'o'] ++ ('.' :: ' ' :: rest)))),
        none⟩).head? = some ⟨'.' :: ' ' :: rest, some ['N', 'o']⟩ := key
  rw [key2]

/-- C19: on a text `Invoice No. ` followed by anything, `12345` or another token, the first
pattern of the list (`invoice`) matches at the start and captures the word `No`, so
`invoice_number` is `No` and the token is not read; the pattern `invoice no.` comes third in
the list and is never reached. -/
theorem invoice_number_of_invoice_no (rest : List Char) :
    (∃ d, extractInvoiceData (String.mk ("Invoice No. ".data ++ rest)) = .ok d ∧
      d.invoice_number = "No") ∧
    (∃ d, extractInvoiceData "Invoice No. 12345" = .ok d ∧ d.invoice_number = "No" ∧
      d.invoice_number ≠ "12345") := by
  refine ⟨⟨_, extractInvoiceData_eq _, ?_⟩, ⟨_, extractInvoiceData_eq _, by decide, by decide⟩⟩
  simp only [extractedRecord, fieldText, firstMatch_invoice_no rest]
  decide


theorem setMatches_eq_sameLetter (k c : Char) (hk : 97 ≤ k.toNat ∧ k.toNat ≤ 122) :
    setMatches true false [.chr k] c = sameLetter k c := by
  rw [Bool.eq_iff_iff, setMatches_letter k c hk]
  simp only [sameLetter, Bool.or_eq_true, beq_iff_eq]
  constructor
  · rintro (e | e)
    · exact Or.inl (char_eq_of_toNat e)
    · exact Or.inr e
  · rintro (e | e)
    · exact Or.inl (by rw [e])
    · exact Or.inr e

/-- The class `[^\n\r]` matches every character but the two line breaks. -/
theorem setMatches_notLineBreak (ic : Bool) (c : Char) :
    setMatches ic true [.chr '\n', .chr '\r'] c = true ↔ (c ≠ '\n' ∧ c ≠ '\r') := by
  have h1 := setMatches_chr ic '\n' c (by decide)
  have h2 := setMatches_chr ic '\r' c (by decide)
  rw [setMatches_pos] at h1 h2
  simp only [List.any_cons, List.any_nil, Bool.or_false] at h1 h2
  simp only [setMatches, List.any_cons, List.any_nil, Bool.or_false, bne_iff_ne, ne_eq,
    Bool.or_eq_true, h1, h2, not_or]

/-- A pattern `label\s*:?\s*([^\n\r]+)` at a place `label:` of the text: the white space
after the colon is passed, line breaks included, and the capture is the run of characters
from the next character that is no white space up to the next line break. -/
theorem head_label_value (label : String) (lab gap value rest : List Char)
    (hlen : lab.length = label.data.length)
    (hlab : (List.zip label.data lab).all (fun p => setMatches true false [.chr p.1] p.2) = true)
    (hgap : ∀ c ∈ gap, isWhiteSpace c = true)
    (hvalue : ∃ c vs, value = c :: vs ∧ isWhiteSpace c = false)
    (hline : ∀ c ∈ value, c ≠ '\n' ∧ c ≠ '\r')
    (hrest : ∀ c, rest.head? = some c → c = '\n' ∨ c = '\r') :
    (matchRe true (cat [lit label, star ws, opt (lit ":"), star ws, .group (plus notLineBreak)])
      ⟨lab ++ (':' :: (gap ++ (value ++ rest))), none⟩).head? = some ⟨rest, some value⟩ := by
  obtain ⟨v0, vs, rfl, hv0⟩ := hvalue
  refine head_seq true _ _ _ ⟨':' :: (gap ++ (v0 :: vs ++ rest)), none⟩ _
    (head_lit true label _ _ _ hlen hlab) ?_
  refine head_seq true _ _ _ ⟨':' :: (gap ++ (v0 :: vs ++ rest)), none⟩ _
    (head_rep_run true false [.space] 0 [] _ none (by simp) ?_ (by simp)) ?_
  · intro c hc
    have hc : ':' = c := by simpa using hc
    subst hc
    decide
  refine head_seq true _ _ _ ⟨gap ++ (v0 :: vs ++ rest), none⟩ _
    (head_opt_take true _ _ _ (head_lit true ":" [':'] _ _ (by decide) (by decide)) (by simp)) ?_
  refine head_seq true _ _ _ ⟨v0 :: vs ++ rest, none⟩ _
    (head_rep_run true false [.space] 0 gap _ none ?_ ?_ (by simp)) ?_
  · intro c hc
    rw [setMatches_space]
    exact hgap c hc
  · intro c hc
    have hc : v0 = c := by simpa using hc
    subst hc
    rw [setMatches_space]
    exact hv0
  refine head_seq true _ _ _ ⟨rest, some (v0 :: vs)⟩ _ ?_ (head_empty _ _)
  have hg := head_group true (plus notLineBreak) ⟨v0 :: vs ++ rest, none⟩ ⟨rest, none⟩
    (head_rep_run true true _ 1 (v0 :: vs) rest none
      (fun c hc => (setMatches_notLineBreak true c).2 (hline c hc))
      (by
        intro c hc
        rw [Bool.eq_false_iff]
        intro hm
        have := (setMatches_notLineBreak true c).1 hm
        rcases hrest c hc with e | e
        · exact this.1 e
        · exact this.2 e)
      (by simp))
  rw [hg]
  simp only [take_length_sub]

/-- The search loop with such a pattern, when no earlier character of the text is the first
letter of the label. -/
theorem exec_label_value (label : String) (k : Char) (ks : List Char)
    (hlabel : label.data = k :: ks) (hk : 97 ≤ k.toNat ∧ k.toNat ≤ 122)
    (pre lab gap value rest : List Char)
    (hpre : ∀ c ∈ pre, sameLetter k c = false)
    (hlen : lab.length = label.data.length)
    (hlab : (List.zip label.data lab).all (fun p => setMatches true false [.chr p.1] p.2) = true)
    (hgap : ∀ c ∈ gap, isWhiteSpace c = true)
    (hvalue : ∃ c vs, value = c :: vs ∧ isWhiteSpace c = false)
    (hline : ∀ c ∈ value, c ≠ '\n' ∧ c ≠ '\r')
    (hrest : ∀ c, rest.head? = some c → c = '\n' ∨ c = '\r') :
    exec ⟨true, cat [lit label, star ws, opt (lit ":"), star ws, .group (plus notLineBreak)]⟩
      (pre ++ (lab ++ (':' :: (gap ++ (value ++ rest))))) = some ⟨rest, some value⟩ := by
  rw [exec_skip _ pre _ (by
    intro c hc s
    have : setMatches true false [.chr k] c = false := by
      rw [setMatches_eq_sameLetter k c hk]
      exact hpre c hc
    simp [cat, lit, hlabel, matchRe, this])]
  have hhead := head_label_value label lab gap value rest hlen hlab hgap hvalue hline hrest
  cases lab with
  | nil => simp [hlabel] at hlen
  | cons c0 lab =>
    simp only [List.cons_append] at hhead
    rw [List.cons_append, exec, hhead]

/-- A pattern that starts with a letter which the text does not have matches nowhere. -/
theorem exec_none_of_no_letter (re : RegExp) (label : String) (k : Char) (ks : List Char)
    (r : Regex) (hbody : re = ⟨true, .seq (lit label) r⟩) (hlabel : label.data = k :: ks)
    (hk : 97 ≤ k.toNat ∧ k.toNat ≤ 122) (text : List Char)
    (h : ∀ c ∈ text, sameLetter k c = false) : exec re text = none := by
  subst hbody
  have := exec_skip ⟨true, .seq (lit label) r⟩ text [] (by
    intro c hc s
    have : setMatches true false [.chr k] c = false := by
      rw [setMatches_eq_sameLetter k c hk]
      exact h c hc
    simp [lit, hlabel, matchRe, this])
  rw [List.append_nil] at this
  rw [this]
  simp [exec, lit, hlabel, matchRe]

/-- C18 as stated fails: in the text `Supplier:` followed by a line `ACME` the label's own
line has nothing after the colon, and `supplier_name` is `ACME`, taken from the following
line. -/
theorem supplier_name_from_next_line :
    lines "Supplier:\nACME".data = ["Supplier:".data, "ACME".data] ∧
    ∃ d, extractInvoiceData "Supplier:\nACME" = .ok d ∧ d.supplier_name = "ACME" ∧
      d.supplier_name ≠ "" :=
  ⟨by decide, _, extractInvoiceData_eq _, by decide, by decide⟩

/-- C18, amended: in a text `pre` `Supplier:` `gap` `value` `rest` where `pre` has no letter
`s`, `gap` is white space (line breaks allowed), `value` is a run of characters other than
line breaks that starts with a character that is no white space, and `rest` is empty or
starts with a line break, `supplier_name` is the trimmed `value`. With `Customer:`, when
moreover the text has no letter `b` and `pre` no letter `c`, `customer_name` is the trimmed
`value`. -/
theorem name_after_label (pre gap value rest : List Char)
    (hgap : ∀ c ∈ gap, isWhiteSpace c = true)
    (hvalue : ∃ c vs, value = c :: vs ∧ isWhiteSpace c = false)
    (hline : ∀ c ∈ value, c ≠ '\n' ∧ c ≠ '\r')
    (hrest : ∀ c, rest.head? = some c → c = '\n' ∨ c = '\r') :
    ((∀ c ∈ pre, sameLetter 's' c = false) →
      ∃ d, extractInvoiceData (String.mk (pre ++ ("Supplier:".data ++ (gap ++ (value ++ rest)))))
        = .ok d ∧ d.supplier_name = String.mk (trim value)) ∧
    ((∀ c ∈ pre, sameLetter 'c' c = false) →
      (∀ c ∈ pre ++ (gap ++ (value ++ rest)), sameLetter 'b' c = false) →
      ∃ d, extractInvoiceData (String.mk (pre ++ ("Customer:".data ++ (gap ++ (value ++ rest)))))
        = .ok d ∧ d.customer_name = String.mk (trim value)) := by
  constructor
  · intro hpre
    refine ⟨_, extractInvoiceData_eq _, ?_⟩
    have h := exec_label_value "supplier" 's' "upplier".data rfl (by decide) pre "Supplier".data
      gap value rest hpre (by decide) (by decide) hgap hvalue hline hrest
    have e : pre ++ ("Supplier:".data ++ (gap ++ (value ++ rest)))
        = pre ++ ("Supplier".data ++ (':' :: (gap ++ (value ++ rest)))) := by simp
    simp only [extractedRecord, fieldText, supplierPatterns, firstMatch, e, h]
  · intro hpre hb
    refine ⟨_, extractInvoiceData_eq _, ?_⟩
    have h := exec_label_value "customer" 'c' "ustomer".data rfl (by decide) pre "Customer".data
      gap value rest hpre (by decide) (by decide) hgap hvalue hline hrest
    have e : pre ++ ("Customer:".data ++ (gap ++ (value ++ rest)))
        = pre ++ ("Customer".data ++ (':' :: (gap ++ (value ++ rest)))) := by simp
    have hbill := exec_none_of_no_letter
      ⟨true, cat [lit "bill", plus ws, lit "to", star ws, opt (lit ":"), star ws,
        .group (plus notLineBreak)]⟩ "bill" 'b' "ill".data _ rfl rfl (by decide)
      (pre ++ ("Customer".data ++ (':' :: (gap ++ (value ++ rest))))) (by
        intro c hc
        have hC : ∀ c ∈ "Customer:".data, sameLetter 'b' c = false := by decide
        rcases List.mem_append.1 hc with hc | hc
        · exact hb c (List.mem_append_left _ hc)
        · rcases List.mem_append.1 hc with hc | hc
          · exact hC c (List.mem_append_left [':'] hc)
          · rcases List.mem_cons.1 hc with hc | hc
            · exact hC c (by rw [hc]; decide)
            · exact hb c (List.mem_append_right _ hc))
    simp only [extractedRecord, fieldText, customerPatterns, firstMatch, e, hbill, h]

/-- C18, amended, at two texts: `Supplier: ACME Corp` with a second line, where the value is
on the label's line, and `Customer:` followed by the line `John`, where it is on the next. -/
theorem name_after_label_witness :
    (∃ d, extractInvoiceData "Supplier: ACME Corp \nnext" = .ok d ∧
      d.supplier_name = "ACME Corp") ∧
    (∃ d, extractInvoiceData "Customer:\nJohn" = .ok d ∧ d.customer_name = "John") := by
  have h1 := (name_after_label [] " ".data "ACME Corp ".data "\nnext".data (by decide)
    ⟨'A', "CME Corp ".data, rfl, by decide⟩ (by decide) (by decide)).1 (by decide)
  have h2 := (name_after_label [] "\n".data "John".data [] (by decide)
    ⟨'J', "ohn".data, rfl, by decide⟩ (by decide) (by decide)).2 (by decide) (by decide)
  exact ⟨h1, h2⟩


/-! ## The first pattern that matches -/

/-- The loop over a list of patterns stops at the first pattern that matches. -/
theorem firstMatch_of_first (ps1 ps2 : List RegExp) (p : RegExp) (text : List Char) (y : MState)
    (hearlier : ∀ q ∈ ps1, exec q text = none) (hy : exec p text = some y) :
    firstMatch (ps1 ++ p :: ps2) text = some y.cap := by
  induction ps1 with
  | nil => simp [firstMatch, hy]
  | cons q ps1 ih =>
    have hq := hearlier q (List.mem_cons_self _ _)
    simp only [List.cons_append, firstMatch, hq]
    exact ih (fun r hr => hearlier r (List.mem_cons_of_mem _ hr))

/-- A word of `[^\n\r]+` is not empty. -/
theorem matches_line_ne_nil (ic : Bool) (w : List Char) (h : Matches ic (plus notLineBreak) w) :
    w ≠ [] := by
  rcases matches_rep_set ic true _ w 1 none h (by simp) with ⟨_, h2, _⟩
  intro e
  subst e
  simp at h2

/-- C12 as stated fails: in the text `From: ACME` followed by the line `Supplier: ` the
pattern `from` captures `ACME`, but the pattern `supplier`, first in the list, matches too
and captures the single space at the end, so `supplier_name` is empty. -/
theorem supplier_name_blank_capture :
    (∃ p ∈ supplierPatterns, ∃ y, exec p "From: ACME\nSupplier: ".data = some y ∧
      y.cap.map trim = some "ACME".data) ∧
    ∃ d, extractInvoiceData "From: ACME\nSupplier: " = .ok d ∧ d.supplier_name = "" :=
  ⟨⟨⟨true, cat [lit "from", star ws, opt (lit ":"), star ws, .group (plus notLineBreak)]⟩,
      by simp [supplierPatterns], _, rfl, by decide⟩,
    _, extractInvoiceData_eq _, by decide⟩

/-- C12, amended: for every text, the first pattern of the supplier list that matches decides:
`supplier_name` is its capture, trimmed. The capture is never empty, but it may be white
space only, and then `supplier_name` is empty. -/
theorem supplier_name_first_match (text : String) (ps1 ps2 : List RegExp) (p : RegExp)
    (y : MState) (hlist : supplierPatterns = ps1 ++ p :: ps2)
    (hearlier : ∀ q ∈ ps1, exec q text.data = none) (hy : exec p text.data = some y) :
    ∃ d, extractInvoiceData text = .ok d ∧
      ∃ w, y.cap = some w ∧ w ≠ [] ∧ d.supplier_name = String.mk (trim w) := by
  refine ⟨_, extractInvoiceData_eq text, ?_⟩
  have hfirst := firstMatch_of_first ps1 ps2 p text.data y hearlier hy
  rw [← hlist] at hfirst
  have hp : ∀ p ∈ supplierPatterns, ∃ g, p.body.groupBody = some g ∧
      ∀ w, Matches p.ignoreCase g w → w ≠ [] := by
    intro p hmem
    simp only [supplierPatterns, List.mem_cons, List.mem_singleton, List.not_mem_nil,
      or_false] at hmem
    rcases hmem with rfl | rfl | rfl | rfl | rfl <;>
      exact ⟨plus notLineBreak, rfl, fun w hw => matches_line_ne_nil _ w hw⟩
  rcases firstMatch_cap supplierPatterns _ hp text.data y.cap hfirst with ⟨w, hw, hne⟩
  refine ⟨w, hw, hne, ?_⟩
  simp only [extractedRecord, fieldText, hfirst, hw]

/-- C12, amended, at the text `From: ACME Corp`: the pattern `supplier` does not match, the
pattern `from` does, and `supplier_name` is `ACME Corp`. -/
theorem supplier_name_first_match_witness :
    ∃ d, extractInvoiceData "From: ACME Corp" = .ok d ∧ d.supplier_name = "ACME Corp" := by
  rcases supplier_name_first_match "From: ACME Corp"
    [⟨true, cat [lit "supplier", star ws, opt (lit ":"), star ws, .group (plus notLineBreak)]⟩]
    [⟨true, cat [lit "company", star ws, opt (lit ":"), star ws, .group (plus notLineBreak)]⟩,
     ⟨true, cat [lit "vendor", star ws, opt (lit ":"), star ws, .group (plus notLineBreak)]⟩,
     ⟨true, cat [lit "seller", star ws, opt (lit ":"), star ws, .group (plus notLineBreak)]⟩]
    ⟨true, cat [lit "from", star ws, opt (lit ":"), star ws, .group (plus notLineBreak)]⟩
    ⟨[], some "ACME Corp".data⟩ rfl (by decide) (by decide) with ⟨d, hd, w, hw, _, hname⟩
  simp only [Option.some.injEq] at hw
  subst hw
  exact ⟨d, hd, hname.trans (by decide)⟩


/-! ## Tokens of a line -/

theorem splitWhiteSpace_tokens_ne_nil : ∀ (s : List Char) (inRun : Bool) (cur : List Char),
    (s = [] → cur ≠ []) → (∀ c, s.getLast? = some c → isWhiteSpace c = false) →
    (cur = [] → inRun = false → ∀ c, s.head? = some c → isWhiteSpace c = false) →
    ∀ tok ∈ splitWhiteSpace s inRun cur, tok ≠ [] := by
  intro s
  induction s with
  | nil =>
    intro inRun cur h1 _ _ tok htok
    simp only [splitWhiteSpace, List.mem_singleton] at htok
    subst htok
    simpa using h1 rfl
  | cons c s ih =>
    intro inRun cur _ h2 h3 tok htok
    have hlast : ∀ c2, s.getLast? = some c2 → isWhiteSpace c2 = false := by
      intro c2 hc2
      apply h2
      cases s with
      | nil => simp at hc2
      | cons a s => simpa [List.getLast?_cons_cons] using hc2
    rw [splitWhiteSpace] at htok
    by_cases hws : isWhiteSpace c = true
    · have hs : s ≠ [] := by
        intro e
        subst e
        have := h2 c (by simp)
        rw [hws] at this
        exact absurd this (by simp)
      have hrec : ∀ tok ∈ splitWhiteSpace s true [], tok ≠ [] :=
        ih true [] (fun e => absurd e hs) hlast (fun _ h => absurd h (by simp))
      simp only [hws, if_true] at htok
      split at htok
      · exact hrec tok htok
      · rename_i hrun
        rcases List.mem_cons.1 htok with e | htok
        · subst e
          intro hcur
          have hcur2 : cur = [] := by simpa using hcur
          have := h3 hcur2 (by simpa using hrun) c rfl
          rw [hws] at this
          exact absurd this (by simp)
        · exact hrec tok htok
    · simp only [hws, if_false] at htok
      exact ih false (c :: cur) (fun _ => List.cons_ne_nil _ _) hlast
        (fun h => absurd h (List.cons_ne_nil _ _)) tok htok

theorem dropWhile_head_not (s : List Char) :
    ∀ c, (s.dropWhile isWhiteSpace).head? = some c → isWhiteSpace c = false := by
  induction s with
  | nil => intro c hc; simp at hc
  | cons a s ih =>
    intro c hc
    rw [List.dropWhile_cons] at hc
    split at hc
    · exact ih c hc
    · rename_i ha
      simp only [List.head?_cons, Option.some.injEq] at hc
      subst hc
      simpa using ha

/-- A trimmed string neither starts nor ends with white space. -/
theorem trim_ends (s : List Char) :
    (∀ c, (trim s).head? = some c → isWhiteSpace c = false) ∧
    (∀ c, (trim s).getLast? = some c → isWhiteSpace c = false) := by
  unfold trim
  constructor
  · intro c hc
    rcases List.dropWhile_suffix isWhiteSpace
      (l := (s.dropWhile isWhiteSpace).reverse) with ⟨t, ht⟩
    have e : s.dropWhile isWhiteSpace
        = ((s.dropWhile isWhiteSpace).reverse.dropWhile isWhiteSpace).reverse ++ t.reverse := by
      rw [← List.reverse_append, ht, List.reverse_reverse]
    apply dropWhile_head_not s c
    rw [e]
    cases hb : ((s.dropWhile isWhiteSpace).reverse.dropWhile isWhiteSpace).reverse with
    | nil => simp [hb] at hc
    | cons b l =>
      rw [hb] at hc
      simpa using hc
  · intro c hc
    rw [List.getLast?_reverse] at hc
    exact dropWhile_head_not _ c hc

/-- The tokens of a line: a single empty token for a blank line, else tokens that are not
empty. -/
theorem parts_tokens (line : List Char) :
    parts line = [[]] ∨ ∀ tok ∈ parts line, tok ≠ [] := by
  unfold parts
  cases h : trim line with
  | nil => exact Or.inl rfl
  | cons a t =>
    right
    have hends := trim_ends line
    rw [h] at hends
    exact splitWhiteSpace_tokens_ne_nil (a :: t) false [] (fun e => absurd e (List.cons_ne_nil _ _))
      hends.2 (fun _ _ => hends.1)

theorem joinSpace_ne_nil : ∀ (l : List (List Char)), l ≠ [] → (∀ tok ∈ l, tok ≠ []) →
    joinSpace l ≠ []
  | [], h, _ => absurd rfl h
  | [a], _, h => by simpa [joinSpace] using h a (List.mem_singleton_self _)
  | a :: b :: rest, _, h => by
    have := h a (List.mem_cons_self _ _)
    simp [joinSpace, this]

/-- With three tokens or more the name is the join of the tokens before the last two, which
is not empty. -/
theorem name_of_tokens (line : List Char) (h : 3 ≤ (parts line).length) :
    joinSpace ((parts line).take ((parts line).length - 2)) ≠ [] := by
  rcases parts_tokens line with h1 | h1
  · rw [h1] at h
    simp at h
  · apply joinSpace_ne_nil
    · intro e
      have := congrArg List.length e
      simp only [List.length_take, List.length_nil] at this
      omega
    · intro tok htok
      exact h1 tok (List.mem_of_mem_take htok)

/-- The function `parseInt` reads the word `undefined` as `NaN`. -/
theorem parseInt_undefined : parseInt (toStringArg none) = .nan := by
  decide

/-- C14 as stated fails: the line `Widget 0 10.50` is kept, its second-to-last token `0`
parses as the integer 0, and the quantity is 1. -/
theorem quantity_of_zero_token :
    isItemLine "Widget 0 10.50".data = true ∧
    parts "Widget 0 10.50".data = ["Widget".data, "0".data, "10.50".data] ∧
    parseInt "0".data = .num 0 ∧
    ∃ d, extractInvoiceData "Widget 0 10.50" = .ok d ∧
      d.items = [{ name := "Widget", quantity := .num 1, rate := .num 10.5 }] :=
  ⟨by decide, by decide, by decide!, _, extractInvoiceData_eq _, by decide!⟩

/-- C14, amended: the item of a line, from its tokens: the rate is the number `parseFloat`
reads in the last token with all but digits and `.` removed, or 0 when there is none; the
quantity is the integer `parseInt` reads in the second-to-last token when that is not zero,
and 1 when the token is absent, does not parse or parses as 0; the name is the tokens before
joined by single spaces, or `Item` when there are none. The line `Widget 2 10.50` gives the
name `Widget`, the quantity 2 and the rate 10.5. -/
theorem item_of_line (line : List Char) :
    (∃ it, parseItemLine line = .ok it ∧
      it.name = String.mk (if (parts line).length ≤ 2 then "Item".data
        else joinSpace ((parts line).take ((parts line).length - 2))) ∧
      it.rate = (match parseFloat (((parts line).getLastD []).filter
          fun c => isDigit c || c == '.') with
        | .nan => .num 0
        | .num q => .num q) ∧
      it.quantity = (if (parts line).length < 2 then .num 1
        else match parseInt (((parts line).get? ((parts line).length - 2)).getD []) with
          | .nan => .num 1
          | .num z => if z = 0 then .num 1 else .num z)) ∧
    parseItemLine "Widget 2 10.50".data
      = .ok { name := "Widget", quantity := .num 2, rate := .num 10.5 } := by
  refine ⟨⟨_, parseItemLine_eq line, ?_, ?_, ?_⟩, (parseItemLine_eq _).trans
    (congrArg Except.ok (by decide!))⟩
  · simp only [itemOf]
    by_cases h : (parts line).length ≤ 2
    · have : (parts line).take ((parts line).length - 2) = [] := by
        apply List.take_eq_nil_iff.2
        left
        omega
      simp [h, this, joinSpace]
    · have hne := name_of_tokens line (by omega)
      simp [h, hne]
  · simp only [itemOf]
    cases parseFloat (((parts line).getLastD []).filter fun c => isDigit c || c == '.') with
    | nan => rfl
    | num q =>
      by_cases hq : q = 0
      · simp [JSNumber.orElse, hq]
      · simp [JSNumber.orElse, hq]
  · simp only [itemOf]
    by_cases h : (parts line).length < 2
    · have h2 : ¬ 2 ≤ (parts line).length := by omega
      simp only [h, h2, if_true, if_false, parseInt_undefined]
      rfl
    · have h2 : 2 ≤ (parts line).length := by omega
      simp only [h, h2, if_true, if_false]
      have hget : ∃ tok, (parts line).get? ((parts line).length - 2) = some tok := by
        cases hg : (parts line).get? ((parts line).length - 2) with
        | some tok => exact ⟨tok, rfl⟩
        | none =>
          rw [List.get?_eq_none] at hg
          omega
      rcases hget with ⟨tok, htok⟩
      simp only [htok, toStringArg, Option.getD_some]
      cases parseInt tok with
      | nan => rfl
      | num z => rfl


/-! ## Which lines are kept -/

/-- A pattern that starts with `\d+` matches only in a text with a digit. -/
theorem exec_digits_none (r : Regex) (line : List Char)
    (h : ∀ c ∈ line, isDigit c = false) : exec ⟨false, .seq (plus dg) r⟩ line = none := by
  cases he : exec ⟨false, .seq (plus dg) r⟩ line with
  | none => rfl
  | some y =>
    rcases exec_some_matches _ _ _ he with ⟨w, hsuf, hm⟩
    rcases matches_seq_inv hm with ⟨u, v, rfl, hu, _⟩
    rcases matches_digits hu (by simp) with ⟨hd, hl, _⟩
    cases u with
    | nil => simp at hl
    | cons c u =>
      have hc : c ∈ line := hsuf.subset (by simp)
      have := hd c (List.mem_cons_self _ _)
      rw [h c hc] at this
      exact absurd this (by simp)

/-- A line without a digit is not kept. -/
theorem isItemLine_of_no_digit (line : List Char) (h : ∀ c ∈ line, isDigit c = false) :
    isItemLine line = false := by
  have h3 := fun r => exec_digits_none r line h
  simp only [isItemLine, itemShapes, List.any_cons, List.any_nil, RegExp.test, cat, h3]
  rfl

/-- A line with two digits side by side is kept: the third shape takes them for a quantity
and a price. -/
theorem isItemLine_of_adjacent_digits (pre post : List Char) (a b : Char)
    (ha : isDigit a = true) (hb : isDigit b = true) :
    isItemLine (pre ++ a :: b :: post) = true := by
  have hdig : ∀ c, isDigit c = true → ∀ x ∈ [c], setMatches false false [.digit] x = true := by
    intro c hc x hx
    simp only [List.mem_singleton] at hx
    subst hx
    rw [setMatches_digit]
    exact hc
  have hmem : (⟨post, none⟩ : MState) ∈ matchRe false
      (cat [plus dg, star ws, opt currencySymbol, star ws, plus dg]) ⟨a :: b :: post, none⟩ := by
    refine mem_seq false _ _ _ ⟨b :: post, none⟩ _
      (mem_rep_set false false [.digit] 1 none [a] _ none (hdig a ha) (by simp) (by simp)) ?_
    refine mem_seq false _ _ _ ⟨b :: post, none⟩ _
      (mem_rep_set false false [.space] 0 none [] _ none (by simp) (by simp) (by simp)) ?_
    refine mem_seq false _ _ _ ⟨b :: post, none⟩ _
      (mem_rep_set false false _ 0 (some 1) [] _ none (by simp) (by simp) (by simp)) ?_
    refine mem_seq false _ _ _ ⟨b :: post, none⟩ _
      (mem_rep_set false false [.space] 0 none [] _ none (by simp) (by simp) (by simp)) ?_
    refine mem_seq false _ _ _ ⟨post, none⟩ _
      (mem_rep_set false false [.digit] 1 none [b] _ none (hdig b hb) (by simp) (by simp)) ?_
    simp [cat, matchRe]
  have hsome := exec_isSome_of_suffix
    ⟨false, cat [plus dg, star ws, opt currencySymbol, star ws, plus dg]⟩
    (pre ++ a :: b :: post) (a :: b :: post) ⟨pre, rfl⟩ (List.ne_nil_of_mem hmem)
  simp only [isItemLine, itemShapes, List.any_cons, List.any_nil, RegExp.test, hsome,
    Bool.or_true, Bool.true_or]

/-- C15: the line `Ref 12345`, whose digits form one unbroken run, is kept as an item line
and gives the item `Item` with quantity 1 and rate 12345; so is every line with two digits
side by side, the third shape asking for no separator between its two digit runs. A line
without a digit is not kept. -/
theorem item_line_of_single_run :
    isItemLine "Ref 12345".data = true ∧
    (∃ d, extractInvoiceData "Ref 12345" = .ok d ∧
      d.items = [{ name := "Item", quantity := .num 1, rate := .num 12345 }]) ∧
    (∀ (pre post : List Char) (a b : Char), isDigit a = true → isDigit b = true →
      isItemLine (pre ++ a :: b :: post) = true) ∧
    (∀ line : List Char, (∀ c ∈ line, isDigit c = false) → isItemLine line = false) :=
  ⟨by decide, ⟨_, extractInvoiceData_eq _, by decide!⟩, isItemLine_of_adjacent_digits,
    isItemLine_of_no_digit⟩


/-! ## No state between calls -/

/-- An object without the flags `g` and `y` is matched from the start of the text, whatever
its `lastIndex`, and is left as it was. -/
theorem regExpBuiltinExec_plain (re : RegExp) (li : Nat) (S : List Char) :
    regExpBuiltinExec ⟨re, false, false, li⟩ S = (exec re S, ⟨re, false, false, li⟩) := by
  unfold regExpBuiltinExec
  simp only [Bool.or_self, Bool.false_eq_true, if_false, List.drop_zero, Nat.not_lt_zero,
    gt_iff_lt]
  cases exec re S <;> rfl

theorem literalExec_eq (k : Nat) (re : RegExp) (S : List Char) (σ : RegexStore) :
    literalExec k re S σ = (exec re S, σ) := by
  simp only [literalExec, regExpBuiltinExec_plain, Function.update_eq_self]

theorem firstMatchAt_eq : ∀ (patterns : List RegExp) (k : Nat) (text : List Char)
    (σ : RegexStore), firstMatchAt k patterns text σ = (firstMatch patterns text, σ) := by
  intro patterns
  induction patterns with
  | nil => intro k text σ; rfl
  | cons p ps ih =>
    intro k text σ
    simp only [firstMatchAt, firstMatch, literalExec_eq]
    cases exec p text with
    | none => exact ih _ _ _
    | some m => rfl

theorem testAnyAt_eq : ∀ (patterns : List RegExp) (k : Nat) (line : List Char)
    (σ : RegexStore),
    testAnyAt k patterns line σ = (patterns.any fun re => re.test line, σ) := by
  intro patterns
  induction patterns with
  | nil => intro k line σ; rfl
  | cons p ps ih =>
    intro k line σ
    simp only [testAnyAt, literalExec_eq, List.any_cons, RegExp.test]
    cases exec p line with
    | none => simpa [RegExp.test] using ih _ _ _
    | some m => rfl

theorem filterLinesAt_eq (k : Nat) : ∀ (ls : List (List Char)) (σ : RegexStore),
    filterLinesAt k ls σ = (ls.filter isItemLine, σ) := by
  intro ls
  induction ls with
  | nil => intro σ; rfl
  | cons l ls ih =>
    intro σ
    simp only [filterLinesAt, testAnyAt_eq, ih, List.filter_cons, isItemLine]

theorem trimmedFieldAt_eq (k : Nat) (patterns : List RegExp) (text : List Char)
    (σ : RegexStore) : trimmedFieldAt k patterns text σ = (trimmedField patterns text, σ) := by
  simp only [trimmedFieldAt, trimmedField, firstMatchAt_eq]
  cases firstMatch patterns text with
  | none => rfl
  | some c => cases c <;> rfl

theorem totalFieldAt_eq (k : Nat) (text : List Char) (σ : RegexStore) :
    totalFieldAt k text σ = (totalField text, σ) := by
  simp only [totalFieldAt, totalField, firstMatchAt_eq]
  cases firstMatch totalPatterns text with
  | none => rfl
  | some c => cases c <;> rfl

theorem rateFieldAt_eq (k : Nat) (patterns : List RegExp) (text : List Char)
    (σ : RegexStore) : rateFieldAt k patterns text σ = (.ok (rateField patterns text), σ) := by
  simp only [rateFieldAt, rateField, firstMatchAt_eq]
  cases firstMatch patterns text <;> rfl

/-- Run with the state of its regular expression objects, the function returns what the
function of the text alone returns, and leaves the state as it was. -/
theorem extractInvoiceDataWith_eq (text : String) (σ : RegexStore) :
    extractInvoiceDataWith text σ = (extractInvoiceData text, σ) := by
  have h1 := trimmedField_eq invoicePatterns (by decide) text.data
  have h2 := trimmedField_eq datePatterns (by decide) text.data
  have h3 := trimmedField_eq dueDatePatterns (by decide) text.data
  have h4 := totalField_eq text.data
  have h5 := trimmedField_eq supplierPatterns (by decide) text.data
  have h6 := trimmedField_eq customerPatterns (by decide) text.data
  have h7 := trimmedField_eq addressPatterns (by decide) text.data
  rw [extractInvoiceData_eq]
  simp only [extractInvoiceDataWith, Steps.andThen, trimmedFieldAt_eq, totalFieldAt_eq,
    rateFieldAt_eq, itemLinesAt, parsedItemsOf, filterLinesAt_eq, h1, h2, h3, h4, h5, h6, h7,
    mapItems_eq]
  simp only [extractedRecord, itemsOf, itemLines, List.length_map]

/-- C13: the function is a function of its text alone: run with any state of its regular
expression objects, such as an earlier call could have left, it returns the same record and
leaves that state unchanged, so two calls on the same text return equal records; the text is
a value that no step changes. -/
theorem extract_deterministic (text : String) (σ σ2 : RegexStore) :
    extractInvoiceDataWith text σ = (extractInvoiceData text, σ) ∧
    (extractInvoiceDataWith text σ2).1 = (extractInvoiceDataWith text σ).1 ∧
    (extractInvoiceDataWith text (extractInvoiceDataWith text σ).2).1
      = (extractInvoiceDataWith text σ).1 := by
  simp only [extractInvoiceDataWith_eq, and_self]


/-! ## Amounts with groups of thousands -/

theorem head_repeat_exact (ic inv : Bool) (items : List ClassItem) (rest : List Char)
    (cap : Option (List Char)) :
    ∀ (w : List Char) (fuel min : Nat), (∀ c ∈ w, setMatches ic inv items c = true) →
      min ≤ w.length → w.length ≤ fuel →
      (repeatMatcher (matchRe ic (.set inv items)) fuel min (some w.length)
        ⟨w ++ rest, cap⟩).head? = some ⟨rest, cap⟩ := by
  intro w
  induction w with
  | nil =>
    intro fuel min _ _ _
    cases fuel with
    | zero => simp [repeatMatcher]
    | succ fuel => simp [repeatMatcher]
  | cons c w ih =>
    intro fuel min hw hmin hfuel
    cases fuel with
    | zero => simp at hfuel
    | succ fuel =>
      have hc := hw c (List.mem_cons_self _ _)
      have ih2 := ih fuel (min - 1) (fun c hc => hw c (List.mem_cons_of_mem _ hc))
        (by simp at hmin; omega) (by simp at hfuel; omega)
      rcases List.head?_eq_some_iff.1 ih2 with ⟨tl, htl⟩
      have hmx : matchRe ic (.set inv items) ⟨c :: (w ++ rest), cap⟩ = [⟨w ++ rest, cap⟩] := by
        simp [matchRe, hc]
      by_cases hm : min = 0
      · subst hm
        simp only [Nat.zero_sub] at htl
        simp [repeatMatcher, hmx, htl]
      · simp [repeatMatcher, hmx, hm, htl]

/-- A quantifier `{n}` over a character set reads `n` matching characters, whatever
follows. -/
theorem head_times (ic inv : Bool) (items : List ClassItem) (w rest : List Char)
    (cap : Option (List Char)) (hw : ∀ c ∈ w, setMatches ic inv items c = true) :
    (matchRe ic (times w.length (.set inv items)) ⟨w ++ rest, cap⟩).head? = some ⟨rest, cap⟩ := by
  simp only [times, matchRe]
  exact head_repeat_exact ic inv items rest cap w _ w.length hw (le_refl _) (by simp)

/-- A greedy `*` goes on after an iteration that reads something: its first result is the
first result of the `*` from where the first iteration ends. -/
theorem head_star_step (ic : Bool) (r : Regex) (x y z : MState)
    (h1 : (matchRe ic r x).head? = some y) (hlen : y.rest.length < x.rest.length)
    (h2 : (matchRe ic (.rep r 0 none) y).head? = some z) :
    (matchRe ic (.rep r 0 none) x).head? = some z := by
  rcases List.head?_eq_some_iff.1 h1 with ⟨tl, htl⟩
  rcases List.head?_eq_some_iff.1 h2 with ⟨tl2, htl2⟩
  simp only [matchRe]
  cases hf : (0 + x.rest.length) with
  | zero => omega
  | succ fuel =>
    have hy : repeatMatcher (matchRe ic r) fuel 0 none y = z :: tl2 := by
      rw [matchRe_rep_fuel ic r 0 none y fuel (by omega)]
      exact htl2
    have hne : y.rest.length ≠ x.rest.length := by omega
    simp [repeatMatcher, htl, hne, hy]


theorem setMatches_comma (ic : Bool) (c : Char) :
    setMatches ic false [.chr ','] c = true ↔ c = ',' := setMatches_chr ic ',' c (by decide)

theorem setMatches_dot (ic : Bool) (c : Char) :
    setMatches ic false [.chr '.'] c = true ↔ c = '.' := setMatches_chr ic '.' c (by decide)

/-- A pattern that starts with a literal `,` or `.` fails where another character stands. -/
theorem matchRe_mark_nil (ic : Bool) (k : Char) (hk : k = ',' ∨ k = '.') (r : Regex)
    (s : List Char) (cap : Option (List Char)) (h : ∀ c, s.head? = some c → c ≠ k) :
    matchRe ic (cat [lit (String.mk [k]), r]) ⟨s, cap⟩ = [] := by
  cases s with
  | nil => simp [cat, lit, matchRe]
  | cons c s =>
    have hc : setMatches ic false [.chr k] c = false := by
      rw [Bool.eq_false_iff]
      intro hm
      rcases hk with hk | hk
      · subst hk
        exact h c rfl ((setMatches_comma ic c).1 hm)
      · subst hk
        exact h c rfl ((setMatches_dot ic c).1 hm)
    simp [cat, lit, matchRe, hc]

/-- The group pattern `,\d{3}` reads a group `,ddd`. -/
theorem head_commaGroup (ic : Bool) (g rest : List Char) (cap : Option (List Char))
    (hg : IsCommaGroup g) :
    (matchRe ic (cat [lit ",", times 3 dg]) ⟨g ++ rest, cap⟩).head? = some ⟨rest, cap⟩ := by
  rcases hg with ⟨x, y, z, hx, hy, hz, rfl⟩
  refine head_seq ic _ _ _ ⟨[x, y, z] ++ rest, cap⟩ _ ?_ (head_seq ic _ _ _ ⟨rest, cap⟩ _ ?_
    (head_empty _ _))
  · exact head_seq ic _ _ _ ⟨[x, y, z] ++ rest, cap⟩ _
      (head_set ic false _ ',' _ cap ((setMatches_comma ic ',').2 rfl)) (head_empty _ _)
  · exact head_times ic false [.digit] [x, y, z] rest cap (by
      intro c hc
      rw [setMatches_digit]
      simp only [List.mem_cons, List.mem_singleton, List.not_mem_nil, or_false] at hc
      rcases hc with h | h | h <;> subst h <;> assumption)

/-- The greedy `*` over the group pattern reads every group `,ddd` up to a character that is
no comma. -/
theorem head_commaGroups (ic : Bool) (rest : List Char) (cap : Option (List Char))
    (hrest : ∀ c, rest.head? = some c → c ≠ ',') :
    ∀ gs : List (List Char), (∀ g ∈ gs, IsCommaGroup g) →
      (matchRe ic (star (cat [lit ",", times 3 dg])) ⟨gs.flatten ++ rest, cap⟩).head?
        = some ⟨rest, cap⟩ := by
  intro gs
  induction gs with
  | nil =>
    intro _
    exact head_rep_skip ic _ _ _ (matchRe_mark_nil ic ',' (Or.inl rfl) _ rest cap hrest)
  | cons g gs ih =>
    intro hgs
    have hg := hgs g (List.mem_cons_self _ _)
    have h1 := head_commaGroup ic g (gs.flatten ++ rest) cap hg
    have h2 := ih (fun g hg => hgs g (List.mem_cons_of_mem _ hg))
    have e : (g :: gs).flatten ++ rest = g ++ (gs.flatten ++ rest) := by simp
    rw [e]
    refine head_star_step ic _ _ _ _ h1 ?_ h2
    rcases hg with ⟨x, y, z, _, _, _, rfl⟩
    simp only [List.length_append, List.length_cons, List.length_nil]
    omega

/-- The pattern of an amount reads a whole amount first: its digits, its groups `,ddd` and
its two decimals, when what follows is neither a digit, a `,` nor a `.`. -/
theorem head_amount (ic : Bool) (ds : List Char) (gs : List (List Char)) (fr rest : List Char)
    (cap : Option (List Char)) (hds : ds ≠ []) (hdsd : ∀ c ∈ ds, isDigit c = true)
    (hgs : ∀ g ∈ gs, IsCommaGroup g)
    (hfr : fr = [] ∨ ∃ p q : Char, isDigit p = true ∧ isDigit q = true ∧ fr = ['.', p, q])
    (hrest : ∀ c, rest.head? = some c → isDigit c = false ∧ c ≠ ',' ∧ c ≠ '.') :
    (matchRe ic amount ⟨ds ++ (gs.flatten ++ (fr ++ rest)), cap⟩).head? = some ⟨rest, cap⟩ := by
  have hlen : 1 ≤ ds.length := by
    cases ds with
    | nil => exact absurd rfl hds
    | cons _ _ => simp
  have hfrc : ∀ c, (fr ++ rest).head? = some c → isDigit c = false ∧ c ≠ ',' := by
    intro c hc
    rcases hfr with rfl | ⟨p, q, _, _, rfl⟩
    · exact ⟨(hrest c hc).1, (hrest c hc).2.1⟩
    · have : '.' = c := by simpa using hc
      subst this
      exact ⟨by decide, by decide⟩
  have hgsc : ∀ c, (gs.flatten ++ (fr ++ rest)).head? = some c → isDigit c = false := by
    intro c hc
    cases gs with
    | nil => exact (hfrc c (by simpa using hc)).1
    | cons g gs =>
      rcases hgs g (List.mem_cons_self _ _) with ⟨x, y, z, _, _, _, rfl⟩
      have : ',' = c := by simpa using hc
      subst this
      decide
  refine head_seq ic _ _ _ ⟨gs.flatten ++ (fr ++ rest), cap⟩ _ ?_
    (head_seq ic _ _ _ ⟨fr ++ rest, cap⟩ _ ?_ (head_seq ic _ _ _ ⟨rest, cap⟩ _ ?_ (head_empty _ _)))
  · exact head_rep_run ic false [.digit] 1 ds _ cap
      (fun c hc => by rw [setMatches_digit]; exact hdsd c hc)
      (fun c hc => by rw [setMatches_digit]; exact hgsc c hc) hlen
  · exact head_commaGroups ic (fr ++ rest) cap (fun c hc => (hfrc c hc).2) gs hgs
  · rcases hfr with rfl | ⟨p, q, hp, hq, rfl⟩
    · exact head_rep_skip ic _ _ _
        (matchRe_mark_nil ic '.' (Or.inr rfl) _ rest cap (fun c hc => (hrest c hc).2.2))
    · refine head_opt_take ic _ _ ⟨rest, cap⟩ ?_ (by
        simp only [List.length_append, List.length_cons, List.length_nil]
        omega)
      refine head_seq ic _ _ _ ⟨[p, q] ++ rest, cap⟩ _ ?_ (head_seq ic _ _ _ ⟨rest, cap⟩ _ ?_
        (head_empty _ _))
      · exact head_seq ic _ _ _ ⟨[p, q] ++ rest, cap⟩ _
          (head_set ic false _ '.' _ cap ((setMatches_dot ic '.').2 rfl)) (head_empty _ _)
      · exact head_times ic false [.digit] [p, q] rest cap (by
          intro c hc
          rw [setMatches_digit]
          simp only [List.mem_cons, List.mem_singleton, List.not_mem_nil, or_false] at hc
          rcases hc with h | h <;> subst h <;> assumption)


/-- The characters of an amount are digits, commas and dots. -/
theorem amountText_chars (a : List Char) (h : IsAmountText a) :
    ∀ c ∈ a, isDigit c = true ∨ c = ',' ∨ c = '.' := by
  rcases h with ⟨ds, gs, fr, _, hdsd, hgs, hfr, rfl⟩
  intro c hc
  simp only [List.mem_append, List.mem_flatten] at hc
  rcases hc with hc | ⟨g, hg, hc⟩ | hc
  · exact Or.inl (hdsd c hc)
  · rcases hgs g hg with ⟨x, y, z, hx, hy, hz, rfl⟩
    simp only [List.mem_cons, List.mem_singleton, List.not_mem_nil, or_false] at hc
    rcases hc with h | h | h | h
    · exact Or.inr (Or.inl h)
    · subst h; exact Or.inl hx
    · subst h; exact Or.inl hy
    · subst h; exact Or.inl hz
  · rcases hfr with rfl | ⟨p, q, hp, hq, rfl⟩
    · simp at hc
    · simp only [List.mem_cons, List.mem_singleton, List.not_mem_nil, or_false] at hc
      rcases hc with h | h | h
      · exact Or.inr (Or.inr h)
      · subst h; exact Or.inl hp
      · subst h; exact Or.inl hq

/-- The first total pattern at a label `total` in any letter case followed by `: $` and an
amount: the capture is the whole amount. -/
theorem head_total_amount (lab a post : List Char) (hlen : lab.length = 5)
    (hlab : (List.zip "total".data lab).all (fun p => setMatches true false [.chr p.1] p.2) = true)
    (ha : IsAmountText a)
    (hpost : ∀ c, post.head? = some c → isDigit c = false ∧ c ≠ ',' ∧ c ≠ '.') :
    (matchRe true
      (cat [lit "total", star ws, opt (lit ":"), star ws, opt currencySymbol, star ws,
        .group amount])
      ⟨lab ++ (':' :: ' ' :: '$' :: (a ++ post)), none⟩).head? = some ⟨post, some a⟩ := by
  rcases ha with ⟨ds, gs, fr, hds, hdsd, hgs, hfr, rfl⟩
  obtain ⟨d0, ds1, rfl⟩ : ∃ d0 ds1, ds = d0 :: ds1 := by
    cases ds with
    | nil => exact absurd rfl hds
    | cons d0 ds1 => exact ⟨d0, ds1, rfl⟩
  have hd0 : isDigit d0 = true := hdsd d0 (List.mem_cons_self _ _)
  have hd0w : isWhiteSpace d0 = false := isWhiteSpace_of_isDigit d0 hd0
  refine head_seq true _ _ _ ⟨':' :: ' ' :: '$' :: (d0 :: ds1 ++ (gs.flatten ++ fr) ++ post), none⟩ _
    (head_lit true "total" _ _ _ hlen hlab) ?_
  refine head_seq true _ _ _ ⟨':' :: ' ' :: '$' :: (d0 :: ds1 ++ (gs.flatten ++ fr) ++ post), none⟩ _
    (head_rep_run true false [.space] 0 [] _ none (by simp) ?_ (by simp)) ?_
  · intro c hc
    have hc : ':' = c := by simpa using hc
    subst hc
    decide
  refine head_seq true _ _ _ ⟨' ' :: '$' :: (d0 :: ds1 ++ (gs.flatten ++ fr) ++ post), none⟩ _
    (head_opt_take true _ _ _ (head_lit true ":" [':'] _ _ (by decide) (by decide)) (by simp)) ?_
  refine head_seq true _ _ _ ⟨'$' :: (d0 :: ds1 ++ (gs.flatten ++ fr) ++ post), none⟩ _
    (head_rep_run true false [.space] 0 [' '] _ none ?_ ?_ (by simp)) ?_
  · intro c hc
    simp only [List.mem_singleton] at hc
    subst hc
    decide
  · intro c hc
    have hc : '$' = c := by simpa using hc
    subst hc
    decide
  refine head_seq true _ _ _ ⟨d0 :: ds1 ++ (gs.flatten ++ fr) ++ post, none⟩ _
    (head_opt_take true _ _ _ (head_set true false _ '$' _ none (by decide)) (by simp)) ?_
  refine head_seq true _ _ _ ⟨d0 :: ds1 ++ (gs.flatten ++ fr) ++ post, none⟩ _
    (head_rep_run true false [.space] 0 [] _ none (by simp) ?_ (by simp)) ?_
  · intro c hc
    have hc : d0 = c := by simpa using hc
    subst hc
    rw [setMatches_space]
    exact hd0w
  refine head_seq true _ _ _ ⟨post, some (d0 :: ds1 ++ (gs.flatten ++ fr))⟩ _ ?_ (head_empty _ _)
  have e : d0 :: ds1 ++ (gs.flatten ++ fr) ++ post = (d0 :: ds1) ++ (gs.flatten ++ (fr ++ post)) := by
    simp
  have hg := head_group true amount ⟨d0 :: ds1 ++ (gs.flatten ++ fr) ++ post, none⟩ ⟨post, none⟩
    (by rw [e]; exact head_amount true (d0 :: ds1) gs fr post none hds hdsd hgs hfr hpost)
  rw [hg]
  simp only [take_length_sub]

/-- In `Subtotal: $a` followed by anything that starts a new line, the first total pattern
matches at the letters `total` of `Subtotal` and captures `a`. -/
theorem firstMatch_subtotal (a post : List Char) (ha : IsAmountText a)
    (hpost : ∀ c, post.head? = some c → isDigit c = false ∧ c ≠ ',' ∧ c ≠ '.') :
    firstMatch totalPatterns ("Subtotal: $".data ++ a ++ post) = some (some a) := by
  have key := head_total_amount "total".data a post (by decide) (by decide) ha hpost
  have hskip := exec_skip ⟨true, cat [lit "total", star ws, opt (lit ":"), star ws,
      opt currencySymbol, star ws, .group amount]⟩ "Sub".data
      ("total".data ++ (':' :: ' ' :: '$' :: (a ++ post))) (by
    intro c hc s
    have hc2 : c ≠ 't' ∧ c ≠ 'T' := by
      simp only [String.data, List.mem_cons, List.mem_singleton, List.not_mem_nil, or_false] at hc
      rcases hc with h | h | h <;> subst h <;> decide
    have := setMatches_t_false c hc2
    simp [cat, lit, matchRe, this])
  have htext : "Subtotal: $".data ++ a ++ post
      = "Sub".data ++ ("total".data ++ (':' :: ' ' :: '$' :: (a ++ post))) := by
    simp
  rw [htext]
  simp only [totalPatterns, firstMatch, hskip]
  have htext2 : "total".data ++ (':' :: ' ' :: '$' :: (a ++ post))
      = 't' :: ('o' :: 't' :: 'a' :: 'l' :: ':' :: ' ' :: '$' :: (a ++ post)) := by
    simp
  rw [htext2] at key ⊢
  simp only [exec]
  rw [key]

/-- C23: the label `total` is found inside `Subtotal`. For every amount `a` (digits, groups
`,ddd`, optional `.dd`) and every continuation `b`, an amount or not, the text
`Subtotal: $a` + line break + `Total: $b` gives `total_amount` = `a` without its commas, the
subtotal; it is the total `b` only if both read the same. -/
theorem total_of_subtotal (a b : List Char) (ha : IsAmountText a) :
    ∃ d, extractInvoiceData (String.mk ("Subtotal: $".data ++ a ++ "\nTotal: $".data ++ b))
        = .ok d ∧
      d.total_amount = String.mk (removeCommas a) ∧
      (removeCommas b ≠ removeCommas a → d.total_amount ≠ String.mk (removeCommas b)) := by
  have hfm := firstMatch_subtotal a ("\nTotal: $".data ++ b) ha (by
    intro c hc
    have hc : '\n' = c := by simpa using hc
    subst hc
    decide)
  have htrim : trim (removeCommas a) = removeCommas a := by
    apply trim_eq_self
    intro c hc
    rcases amountText_chars a ha c (List.mem_of_mem_filter hc) with h | h | h
    · exact isWhiteSpace_of_isDigit c h
    · subst h; decide
    · subst h; decide
  have htot : totalText ("Subtotal: $".data ++ a ++ "\nTotal: $".data ++ b)
      = String.mk (removeCommas a) := by
    have e : "Subtotal: $".data ++ a ++ "\nTotal: $".data ++ b
        = "Subtotal: $".data ++ a ++ ("\nTotal: $".data ++ b) := by simp
    rw [e]
    simp only [totalText, hfm]
    exact congrArg String.mk htrim
  refine ⟨_, extractInvoiceData_eq _, ?_, ?_⟩
  · simp only [extractedRecord]
    rw [htot]
  · intro hne
    simp only [extractedRecord]
    rw [htot]
    intro h
    exact hne (congrArg String.data h).symm

/-- C23 at `a` = `1,234.56` and `b` = `2,000.00`. -/
theorem total_of_subtotal_witness :
    IsAmountText "1,234.56".data ∧
    ∃ d, extractInvoiceData "Subtotal: $1,234.56\nTotal: $2,000.00" = .ok d ∧
      d.total_amount = "1234.56" ∧ d.total_amount ≠ "2000.00" := by
  have ha : IsAmountText "1,234.56".data :=
    ⟨"1".data, [",234".data], ".56".data, by decide, by decide,
      by
        intro g hg
        simp only [List.mem_singleton] at hg
        subst hg
        exact ⟨'2', '3', '4', by decide, by decide, by decide, rfl⟩,
      Or.inr ⟨'5', '6', by decide, by decide, rfl⟩, rfl⟩
  rcases total_of_subtotal "1,234.56".data "2,000.00".data ha with ⟨d, hd, h1, h2⟩
  exact ⟨ha, d, hd, h1, h2 (by decide)⟩

/-! ## The line of the total -/

/-- The first piece of a split starts with what was read before and goes on to the first
separator. -/
theorem splitOnChar_first (sep : Char) : ∀ (v cur : List Char),
    ∃ t rest, splitOnChar sep v cur = (cur.reverse ++ t) :: rest := by
  intro v
  induction v with
  | nil => intro cur; exact ⟨[], [], by simp [splitOnChar]⟩
  | cons c v ih =>
    intro cur
    by_cases h : c = sep
    · exact ⟨[], splitOnChar sep v [], by simp [splitOnChar, h]⟩
    · rcases ih (c :: cur) with ⟨t, rest, e⟩
      exact ⟨c :: t, rest, by simp [splitOnChar, h, e]⟩

theorem splitOnChar_run (sep : Char) : ∀ (w v cur : List Char), sep ∉ w →
    ∃ t rest, splitOnChar sep (w ++ v) cur = (cur.reverse ++ (w ++ t)) :: rest := by
  intro w
  induction w with
  | nil => intro v cur _; simpa using splitOnChar_first sep v cur
  | cons c w ih =>
    intro v cur hw
    have hc : c ≠ sep := fun e => hw (by simp [e])
    rcases ih v (c :: cur) (fun hm => hw (List.mem_cons_of_mem _ hm)) with ⟨t, rest, e⟩
    exact ⟨t, rest, by simp [splitOnChar, hc, e]⟩

/-- A part of the text without a separator lies inside one piece of the split. -/
theorem splitOnChar_infix (sep : Char) (w v : List Char) (hw : sep ∉ w) :
    ∀ (u cur : List Char), ∃ l ∈ splitOnChar sep (u ++ (w ++ v)) cur,
      ∃ p q, l = p ++ (w ++ q) := by
  intro u
  induction u with
  | nil =>
    intro cur
    rcases splitOnChar_run sep w v cur hw with ⟨t, rest, e⟩
    exact ⟨_, by simp [e], cur.reverse, t, rfl⟩
  | cons c u ih =>
    intro cur
    by_cases h : c = sep
    · rcases ih [] with ⟨l, hl, hpq⟩
      exact ⟨l, by simp [splitOnChar, h, hl], hpq⟩
    · rcases ih (c :: cur) with ⟨l, hl, hpq⟩
      exact ⟨l, by simpa [splitOnChar, h] using hl, hpq⟩

/-- Words of the amount pattern: digits, commas and dots; a single digit, or with two digits
side by side. -/
theorem matches_amount_shape (ic : Bool) (w : List Char) (h : Matches ic amount w) :
    (∀ c ∈ w, isDigit c = true ∨ c = ',' ∨ c = '.') ∧
    ((∃ x, isDigit x = true ∧ w = [x]) ∨
      ∃ (w1 : List Char) (a b : Char) (w2 : List Char),
        w = w1 ++ a :: b :: w2 ∧ isDigit a = true ∧ isDigit b = true) := by
  rcases matches_seq_inv h with ⟨u1, r1, rfl, h1, hr1⟩
  rcases matches_seq_inv hr1 with ⟨u2, r2, rfl, h2, hr2⟩
  rcases matches_seq_inv hr2 with ⟨u3, r3, rfl, h3, hr3⟩
  have := matches_empty_inv hr3
  subst this
  rcases matches_digits h1 (by simp) with ⟨hd1, hl1, _⟩
  have hd2 := matches_groups_filter ic u2.length u2 _ _ (le_refl _) h2
  have hu3 : u3 = [] ∨ ∃ a b, isDigit a = true ∧ isDigit b = true ∧ u3 = ['.', a, b] := by
    rcases matches_rep_inv h3 with ⟨h0, _⟩ | ⟨_, u, v, huv, hu, hv⟩
    · exact Or.inl h0
    · right
      rcases matches_rep_inv hv with ⟨hv0, _⟩ | ⟨hmax, _⟩
      · subst hv0
        rcases matches_seq_inv hu with ⟨f1, f2, rfl, hf1, hf2⟩
        rcases matches_chr_seq_inv hf1 with ⟨k, e, rfl, hk, he⟩
        have := matches_empty_inv he
        subst this
        have hk2 : k = '.' := (setMatches_chr ic '.' k (by decide)).1 hk
        subst hk2
        rcases matches_seq_inv hf2 with ⟨ds, e2, rfl, hds2, he2⟩
        have := matches_empty_inv he2
        subst this
        rcases matches_digits hds2 (by intro k hk; cases hk; exact le_refl _) with ⟨hdd, hl2, hl3⟩
        have hlen : ds.length = 2 := by
          have := hl3 2 rfl
          omega
        match ds, hlen, hdd with
        | [a, b], _, hdd =>
          exact ⟨a, b, hdd a (by simp), hdd b (by simp), by subst huv; simp⟩
      · simp at hmax
  constructor
  · intro c hc
    simp only [List.mem_append, List.append_nil] at hc
    rcases hc with hc | hc | hc
    · exact Or.inl (hd1 c hc)
    · by_cases hcomma : c = ','
      · exact Or.inr (Or.inl hcomma)
      · exact Or.inl (hd2 c (List.mem_filter.2 ⟨hc, by simpa using hcomma⟩))
    · rcases hu3 with rfl | ⟨a, b, ha, hb, rfl⟩
      · simp at hc
      · simp only [List.mem_cons, List.mem_singleton, List.not_mem_nil, or_false] at hc
        rcases hc with rfl | rfl | rfl
        · exact Or.inr (Or.inr rfl)
        · exact Or.inl ha
        · exact Or.inl hb
  · match u1, hl1, hd1 with
    | a :: b :: rest, _, hd1 =>
      exact Or.inr ⟨[], a, b, rest ++ (u2 ++ (u3 ++ [])), by simp, hd1 a (by simp),
        hd1 b (by simp)⟩
    | [x], _, hd1 =>
      rcases matches_rep_inv h2 with ⟨h0, _⟩ | ⟨_, u, v, huv, hu, hv⟩
      · subst h0
        rcases hu3 with rfl | ⟨a, b, ha, hb, rfl⟩
        · exact Or.inl ⟨x, hd1 x (by simp), by simp⟩
        · exact Or.inr ⟨[x, '.'], a, b, [], by simp, ha, hb⟩
      · rcases matches_seq_inv hu with ⟨g1, g2, rfl, hg1, hg2⟩
        rcases matches_chr_seq_inv hg1 with ⟨k, e, rfl, hk, he⟩
        have := matches_empty_inv he
        subst this
        rcases matches_seq_inv hg2 with ⟨ds, e2, rfl, hds, he2⟩
        have := matches_empty_inv he2
        subst this
        rcases matches_digits hds (by intro k hk; cases hk; exact le_refl _) with ⟨hdd, hl2, hl3⟩
        have hlen : ds.length = 3 := by
          have := hl3 3 rfl
          omega
        match ds, hlen, hdd with
        | [a, b, c], _, hdd =>
          exact Or.inr ⟨[x, k], a, b, c :: (v ++ (u3 ++ [])), by subst huv; simp,
            hdd a (by simp), hdd b (by simp)⟩

/-- The capture of the total lies inside one line of the text. -/
theorem total_capture_line (text : List Char) (c : Option (List Char))
    (h : firstMatch totalPatterns text = some c) :
    ∃ w, c = some w ∧ Matches true amount w ∧
      ∃ line ∈ lines text, ∃ p q, line = p ++ (w ++ q) := by
  have hp : ∀ p ∈ totalPatterns, ∃ g, p.body.groupBody = some g ∧
      ∀ w, Matches p.ignoreCase g w → Matches true amount w := by
    intro p hmem
    simp only [totalPatterns, List.mem_cons, List.mem_singleton, List.not_mem_nil,
      or_false] at hmem
    rcases hmem with rfl | rfl | rfl | rfl | rfl <;>
      exact ⟨amount, rfl, fun w hw => hw⟩
  rcases firstMatch_cap_infix totalPatterns _ hp text c h with ⟨u, w, v, rfl, rfl, hw⟩
  refine ⟨w, rfl, hw, ?_⟩
  have hnl : '\n' ∉ w := by
    intro hm
    rcases (matches_amount_shape true w hw).1 _ hm with h | h | h
    · revert h; decide
    · revert h; decide
    · revert h; decide
  exact splitOnChar_infix '\n' w v hnl u []

/-- The total is empty, one digit, or read in a line that is kept as an item line. -/
theorem totalText_cases (text : List Char) :
    totalText text = "" ∨ (∃ x, isDigit x = true ∧ totalText text = String.mk [x]) ∨
    ∃ w, ∃ line ∈ itemLines text, w <:+: line ∧ (totalText text).data = removeCommas w := by
  cases h : firstMatch totalPatterns text with
  | none => left; simp only [totalText, h]
  | some c =>
    right
    rcases total_capture_line text c h with ⟨w, rfl, hw, line, hline, p, q, rfl⟩
    rcases matches_amount_shape true w hw with ⟨hchars, hshape⟩
    have htrim : trim (w.filter fun c => c != ',') = w.filter fun c => c != ',' := by
      apply trim_eq_self
      intro c hc
      rcases hchars c (List.mem_of_mem_filter hc) with hd | rfl | rfl
      · exact isWhiteSpace_of_isDigit c hd
      · decide
      · decide
    have htot : totalText text = String.mk (removeCommas w) := by
      simp only [totalText, h, htrim, removeCommas]
    rcases hshape with ⟨x, hx, rfl⟩ | ⟨w1, a, b, w2, rfl, ha, hb⟩
    · left
      refine ⟨x, hx, ?_⟩
      rw [htot]
      simp [removeCommas, List.filter, isDigit_ne_comma x hx]
    · right
      refine ⟨w1 ++ a :: b :: w2, p ++ (w1 ++ a :: b :: w2 ++ q), ?_, ⟨p, q, by simp⟩, ?_⟩
      · refine List.mem_filter.2 ⟨hline, ?_⟩
        have e : p ++ (w1 ++ a :: b :: w2 ++ q) = (p ++ w1) ++ a :: b :: (w2 ++ q) := by simp
        rw [e]
        exact isItemLine_of_adjacent_digits _ _ a b ha hb
      · rw [htot]

theorem parseFloat_digit (x : Char) (hx : isDigit x = true) :
    parseFloat [x] = .num ((x.toNat - 48 : ℕ) : ℚ) := by
  have h := parseFloat_numeral [x] none (by simp) (by simpa using hx) (by simp)
  simpa [numeralText, numeralValue, decimalValue] using h

/-- C24: when the item made from the total is produced (no line is kept as an item line and
`total_amount` is not empty), `total_amount` is one decimal digit and the rate of the item is
its value, an integer from 0 to 9; a total of two characters or more is read in a line that
is kept as an item line. -/
theorem fallback_total_one_digit (text : String) :
    ∃ d, extractInvoiceData text = .ok d ∧
      (itemLines text.data = [] → d.total_amount ≠ "" →
        ∃ x : Char, isDigit x = true ∧ d.total_amount = String.mk [x] ∧ x.toNat - 48 ≤ 9 ∧
          d.items = [{ name := "Service/Item", quantity := .num 1,
                       rate := .num ((x.toNat - 48 : ℕ) : ℚ) }]) ∧
      (2 ≤ d.total_amount.data.length →
        ∃ w, ∃ line ∈ itemLines text.data, w <:+: line ∧
          d.total_amount.data = removeCommas w) := by
  refine ⟨_, extractInvoiceData_eq _, ?_, ?_⟩
  · intro hno hne
    simp only [extractedRecord] at hne ⊢
    rcases totalText_cases text.data with h | ⟨x, hx, h⟩ | ⟨w, line, hline, _, _⟩
    · exact absurd h hne
    · refine ⟨x, hx, h, ?_, ?_⟩
      · simp only [isDigit, Bool.and_eq_true, decide_eq_true_eq] at hx
        omega
      · simp only [itemsOf, hno, List.take_nil, List.length_nil, true_and, if_pos hne]
        rw [h, parseFloat_digit x hx]
    · rw [hno] at hline
      simp at hline
  · intro hlen
    simp only [extractedRecord] at hlen ⊢
    rcases totalText_cases text.data with h | ⟨x, _, h⟩ | h
    · rw [h] at hlen
      simp at hlen
    · rw [h] at hlen
      simp at hlen
    · exact h

/-- C24 at `Total: $5`: no item line, and the item made from the total has rate 5. -/
theorem fallback_total_one_digit_witness :
    itemLines "Total: $5".data = [] ∧
    ∃ d, extractInvoiceData "Total: $5" = .ok d ∧ d.total_amount ≠ "" ∧
      ∃ x : Char, isDigit x = true ∧ d.total_amount = String.mk [x] ∧ x.toNat - 48 ≤ 9 ∧
        d.items = [{ name := "Service/Item", quantity := .num 1,
                     rate := .num ((x.toNat - 48 : ℕ) : ℚ) }] := by
  rcases fallback_total_one_digit "Total: $5" with ⟨d, hd, h1, _⟩
  have hd2 : d = extractedRecord "Total: $5" :=
    Except.ok.inj (hd.symm.trans (extractInvoiceData_eq _))
  have hne : d.total_amount ≠ "" := by
    rw [hd2]
    decide
  exact ⟨by decide, d, hd, hne, h1 (by decide) hne⟩

/-! ## Patterns behind a pattern that matches whenever they do -/

theorem mem_seq_inv {ic : Bool} {a b : Regex} {x z : MState} (h : z ∈ matchRe ic (.seq a b) x) :
    ∃ y ∈ matchRe ic a x, z ∈ matchRe ic b y := by
  simp only [matchRe] at h
  exact List.mem_flatMap.1 h

/-- A quantifier with minimum zero may read nothing. -/
theorem mem_rep_zero (ic : Bool) (r : Regex) (max : Option Nat) (x : MState) :
    x ∈ matchRe ic (.rep r 0 max) x := by
  simp only [matchRe]
  cases (0 + x.rest.length) with
  | zero => simp [repeatMatcher]
  | succ fuel =>
    by_cases hmax : max = some 0
    · simp [repeatMatcher, hmax]
    · simp [repeatMatcher, hmax]

/-- A pattern of a list decides nothing when an earlier pattern of the list matches every
text it matches: the loop gives the same result without it. -/
theorem firstMatch_erase (p : RegExp) (ps2 : List RegExp) (text : List Char) :
    ∀ ps1 : List RegExp, ((exec p text).isSome = true → ∃ q ∈ ps1, (exec q text).isSome = true) →
      firstMatch (ps1 ++ p :: ps2) text = firstMatch (ps1 ++ ps2) text := by
  intro ps1
  induction ps1 with
  | nil =>
    intro h
    cases hp : exec p text with
    | none => simp [firstMatch, hp]
    | some y =>
      rcases h (by simp [hp]) with ⟨q, hq, _⟩
      simp at hq
  | cons q ps1 ih =>
    intro h
    cases hq : exec q text with
    | some y => simp [firstMatch, hq]
    | none =>
      simp only [List.cons_append, firstMatch, hq]
      apply ih
      intro hp
      rcases h hp with ⟨q2, hq2, hs⟩
      rcases List.mem_cons.1 hq2 with rfl | hmem
      · simp [hq] at hs
      · exact ⟨q2, hmem, hs⟩

/-- A pattern `a b r` without a group in `a` and `b` matches only where the pattern `r`
matches further on: `r` is found in every text in which `a b r` is. -/
theorem exec_isSome_of_longer (ic : Bool) (a b r : Regex) (ha : a.hasGroup = false)
    (hb : b.hasGroup = false) (text : List Char)
    (h : (exec ⟨ic, .seq a (.seq b r)⟩ text).isSome = true) :
    (exec ⟨ic, r⟩ text).isSome = true := by
  cases he : exec ⟨ic, .seq a (.seq b r)⟩ text with
  | none => simp [he] at h
  | some y =>
    rcases exec_eq_some _ text y he with ⟨t, ht, hhead⟩
    have hy := List.mem_of_mem_head? hhead
    rcases mem_seq_inv hy with ⟨y1, hy1, hyp⟩
    rcases mem_seq_inv hyp with ⟨y2, hy2, hy3⟩
    have hc1 : y1.cap = none := matchRe_cap_of_noGroup ic a ha _ _ hy1
    have hc2 : y2.cap = none := (matchRe_cap_of_noGroup ic b hb _ _ hy2).trans hc1
    have hs1 : y1.rest <:+ t := matchRe_suffix ic a _ _ hy1
    have hs2 : y2.rest <:+ y1.rest := matchRe_suffix ic b _ _ hy2
    have e : y2 = ⟨y2.rest, none⟩ := by
      cases y2
      simp only [MState.mk.injEq, true_and]
      exact hc2
    rw [e] at hy3
    exact exec_isSome_of_suffix ⟨ic, r⟩ text y2.rest ((hs2.trans hs1).trans ht)
      (List.ne_nil_of_mem hy3)

/-- Where `invoice no` is found after white space, the first invoice pattern matches at the
same place: it reads `invoice`, the white space, and the letters that follow as the
number. -/
theorem exec_invoice_of_invoice_no (text : List Char)
    (h : (exec ⟨true, cat [lit "invoice", plus ws, lit "no", opt (lit "."), star ws,
      opt (lit ":"), star ws, .group (plus tokenChar)]⟩ text).isSome = true) :
    (exec ⟨true, cat [lit "invoice", star ws, opt (lit "#"), star ws, opt (lit ":"), star ws,
      .group (plus tokenChar)]⟩ text).isSome = true := by
  cases he : exec ⟨true, cat [lit "invoice", plus ws, lit "no", opt (lit "."), star ws,
      opt (lit ":"), star ws, .group (plus tokenChar)]⟩ text with
  | none => simp [he] at h
  | some y =>
    rcases exec_eq_some _ text y he with ⟨t, ht, hhead⟩
    have hy := List.mem_of_mem_head? hhead
    rcases mem_seq_inv hy with ⟨y1, hy1, hyp⟩
    rcases mem_seq_inv hyp with ⟨y2, hy2, hyq⟩
    rcases mem_seq_inv hyq with ⟨y3, hy3, _⟩
    -- the white space after `invoice`
    have hc2 : y2.cap = y1.cap := matchRe_cap_of_noGroup true (plus ws) rfl _ _ hy2
    rcases matchRe_sound true (plus ws) _ _ hy2 with ⟨g, hg, hgm⟩
    have hgw := (matches_rep_set true false [.space] g 1 none hgm (by simp)).1
    have hstar : y2 ∈ matchRe true (star ws) y1 := by
      have := mem_rep_set true false [.space] 0 none g y2.rest y1.cap hgw (by simp) (by simp)
      rw [← hg] at this
      have e : y2 = ⟨y2.rest, y1.cap⟩ := by
        cases y2
        simp only [MState.mk.injEq, true_and]
        exact hc2
      rw [e]
      exact this
    -- the letter `n`
    have hn : ∃ c s, y2.rest = c :: s ∧ setMatches true false [.chr 'n'] c = true := by
      have h3 : y3 ∈ matchRe true (.seq (.set false [.chr 'n']) (lit "o")) y2 := hy3
      rcases mem_seq_inv h3 with ⟨z, hz, _⟩
      simp only [matchRe] at hz
      split at hz
      · simp at hz
      · rename_i c s hcs
        by_cases hm : setMatches true false [.chr 'n'] c = true
        · exact ⟨c, s, hcs, hm⟩
        · simp [hm] at hz
    rcases hn with ⟨c, s, hcs, hc⟩
    have htok : setMatches true false [.range 'a' 'z', .range '0' '9', .chr '-'] c = true := by
      rcases (setMatches_letter 'n' c (by decide)).1 hc with e | e
      · have : c = 'n' := char_eq_of_toNat e
        subst this
        decide
      · have : c = 'N' := char_eq_of_toNat (by
          have : 'N'.toNat + 32 = 'n'.toNat := by decide
          omega)
        subst this
        decide
    have hgroup : matchRe true (.group (plus tokenChar)) y2 ≠ [] := by
      have hm := mem_rep_set true false [.range 'a' 'z', .range '0' '9', .chr '-'] 1 none [c] s
        y2.cap (by simpa using htok) (by simp) (by simp)
      have e : y2 = ⟨[c] ++ s, y2.cap⟩ := by
        cases y2
        simp only [MState.mk.injEq, and_true]
        exact hcs
      rw [← e] at hm
      simp only [matchRe, ne_eq, List.map_eq_nil_iff]
      exact List.ne_nil_of_mem hm
    obtain ⟨z, hz⟩ := List.exists_mem_of_ne_nil _ hgroup
    have hall : z ∈ matchRe true (cat [lit "invoice", star ws, opt (lit "#"), star ws,
        opt (lit ":"), star ws, .group (plus tokenChar)]) ⟨t, none⟩ :=
      mem_seq true _ _ _ y1 z hy1 (mem_seq true _ _ _ y2 z hstar
        (mem_seq true _ _ _ y2 z (mem_rep_zero true _ _ y2)
          (mem_seq true _ _ _ y2 z (mem_rep_zero true _ _ y2)
            (mem_seq true _ _ _ y2 z (mem_rep_zero true _ _ y2)
              (mem_seq true _ _ _ y2 z (mem_rep_zero true _ _ y2)
                (mem_seq true _ _ _ z z hz (by simp [cat, matchRe])))))))
    exact exec_isSome_of_suffix _ text t ht (List.ne_nil_of_mem hall)

theorem firstMatch_invoice_kept (text : List Char) :
    firstMatch invoicePatternsKept text = firstMatch invoicePatterns text := by
  have h := firstMatch_erase
    ⟨true, cat [lit "invoice", plus ws, lit "no", opt (lit "."), star ws, opt (lit ":"),
      star ws, .group (plus tokenChar)]⟩
    [ ⟨true, cat [lit "bill", star ws, opt (lit "#"), star ws, opt (lit ":"), star ws, .group (plus tokenChar)]⟩,
      ⟨true, cat [lit "receipt", star ws, opt (lit "#"), star ws, opt (lit ":"), star ws, .group (plus tokenChar)]⟩ ]
    text
    [ ⟨true, cat [lit "invoice", star ws, opt (lit "#"), star ws, opt (lit ":"), star ws, .group (plus tokenChar)]⟩,
      ⟨true, cat [lit "inv", star ws, opt (lit "#"), star ws, opt (lit ":"), star ws, .group (plus tokenChar)]⟩ ]
    (fun hp => ⟨_, List.mem_cons_self _ _, exec_invoice_of_invoice_no text hp⟩)
  exact h.symm

theorem firstMatch_date_kept (text : List Char) :
    firstMatch datePatternsKept text = firstMatch datePatterns text := by
  have h1 := firstMatch_erase
    ⟨true, cat [lit "invoice", plus ws, lit "date", star ws, opt (lit ":"), star ws, .group dateToken]⟩
    [ ⟨true, cat [lit "issue", plus ws, lit "date", star ws, opt (lit ":"), star ws, .group dateToken]⟩,
      ⟨false, cat [.group dateToken]⟩ ]
    text
    [ ⟨true, cat [lit "date", star ws, opt (lit ":"), star ws, .group dateToken]⟩ ]
    (fun hp => ⟨_, List.mem_cons_self _ _,
      exec_isSome_of_longer true (lit "invoice") (plus ws) _ rfl rfl text hp⟩)
  have h2 := firstMatch_erase
    ⟨true, cat [lit "issue", plus ws, lit "date", star ws, opt (lit ":"), star ws, .group dateToken]⟩
    [ ⟨false, cat [.group dateToken]⟩ ]
    text
    [ ⟨true, cat [lit "date", star ws, opt (lit ":"), star ws, .group dateToken]⟩ ]
    (fun hp => ⟨_, List.mem_cons_self _ _,
      exec_isSome_of_longer true (lit "issue") (plus ws) _ rfl rfl text hp⟩)
  exact (h1.trans h2).symm

theorem firstMatch_total_kept (text : List Char) :
    firstMatch totalPatternsKept text = firstMatch totalPatterns text := by
  have h := firstMatch_erase
    ⟨true, cat [lit "grand", plus ws, lit "total", star ws, opt (lit ":"), star ws, opt currencySymbol, star ws, .group amount]⟩
    [ ⟨true, cat [lit "amount", plus ws, lit "due", star ws, opt (lit ":"), star ws, opt currencySymbol, star ws, .group amount]⟩,
      ⟨true, cat [lit "balance", plus ws, lit "due", star ws, opt (lit ":"), star ws, opt currencySymbol, star ws, .group amount]⟩,
      ⟨true, cat [lit "net", plus ws, lit "amount", star ws, opt (lit ":"), star ws, opt currencySymbol, star ws, .group amount]⟩ ]
    text
    [ ⟨true, cat [lit "total", star ws, opt (lit ":"), star ws, opt currencySymbol, star ws, .group amount]⟩ ]
    (fun hp => ⟨_, List.mem_cons_self _ _,
      exec_isSome_of_longer true (lit "grand") (plus ws) _ rfl rfl text hp⟩)
  exact h.symm

/-- C25: the patterns `invoice no.`, `invoice date`, `issue date` and `grand total` never
decide a field. In every text where one of them is found, the first pattern of its list is
found too, and `extractInvoiceData` returns what the variant without the four patterns
returns. -/
theorem shadowed_patterns_removed (text : String) :
    ((exec invoicePatterns[2] text.data).isSome = true →
      (exec invoicePatterns[0] text.data).isSome = true) ∧
    ((exec datePatterns[1] text.data).isSome = true →
      (exec datePatterns[0] text.data).isSome = true) ∧
    ((exec datePatterns[2] text.data).isSome = true →
      (exec datePatterns[0] text.data).isSome = true) ∧
    ((exec totalPatterns[1] text.data).isSome = true →
      (exec totalPatterns[0] text.data).isSome = true) ∧
    extractWithoutShadowed text = extractInvoiceData text := by
  refine ⟨exec_invoice_of_invoice_no text.data,
    exec_isSome_of_longer true (lit "invoice") (plus ws) _ rfl rfl text.data,
    exec_isSome_of_longer true (lit "issue") (plus ws) _ rfl rfl text.data,
    exec_isSome_of_longer true (lit "grand") (plus ws) _ rfl rfl text.data, ?_⟩
  have e1 : trimmedField invoicePatternsKept text.data
      = trimmedField invoicePatterns text.data := by
    simp only [trimmedField, firstMatch_invoice_kept]
  have e2 : trimmedField datePatternsKept text.data = trimmedField datePatterns text.data := by
    simp only [trimmedField, firstMatch_date_kept]
  have e3 : totalFieldOf totalPatternsKept text.data = totalField text.data := by
    simp only [totalFieldOf, totalField, firstMatch_total_kept]
  simp only [extractWithoutShadowed, extractInvoiceData, e1, e2, e3]

/-- C25 at `Grand Total: $600`: the pattern `grand total` is found, the pattern `total` too,
and both functions return the same record. -/
theorem shadowed_patterns_removed_witness :
    (exec totalPatterns[1] "Grand Total: $600".data).isSome = true ∧
    (exec totalPatterns[0] "Grand Total: $600".data).isSome = true ∧
    extractWithoutShadowed "Grand Total: $600" = extractInvoiceData "Grand Total: $600" :=
  ⟨by decide, (shadowed_patterns_removed "Grand Total: $600").2.2.2.1 (by decide),
    (shadowed_patterns_removed "Grand Total: $600").2.2.2.2⟩

/-! ## The leftmost match and its first result -/

/-- The match `exec` reports starts at the first index where the matcher succeeds. -/
theorem exec_leftmost (re : RegExp) :
    ∀ (s : List Char) (y : MState), exec re s = some y →
      ∃ pre t, s = pre ++ t ∧ (matchRe re.ignoreCase re.body ⟨t, none⟩).head? = some y ∧
        ∀ p2 t2, s = p2 ++ t2 → p2.length < pre.length →
          matchRe re.ignoreCase re.body ⟨t2, none⟩ = [] := by
  intro s
  induction s with
  | nil =>
    intro y h
    refine ⟨[], [], rfl, by simpa [exec] using h, ?_⟩
    intro p2 t2 _ hlt
    simp at hlt
  | cons c s ih =>
    intro y h
    rw [exec] at h
    split at h
    · rename_i y0 h0
      simp only [Option.some.injEq] at h
      subst h
      refine ⟨[], c :: s, rfl, h0, ?_⟩
      intro p2 t2 _ hlt
      simp at hlt
    · rename_i h0
      rcases ih y h with ⟨pre, t, hs, hy, hleft⟩
      refine ⟨c :: pre, t, by simp [hs], hy, ?_⟩
      intro p2 t2 h2 hlt
      cases p2 with
      | nil =>
        simp only [List.nil_append] at h2
        subst h2
        simpa using h0
      | cons c2 p2 =>
        simp only [List.cons_append, List.cons.injEq] at h2
        exact hleft p2 t2 h2.2 (by simpa using hlt)

theorem head_flatMap_inv {α β : Type} (f : α → List β) (z : β) :
    ∀ l : List α, (l.flatMap f).head? = some z → ∃ a ∈ l, (f a).head? = some z := by
  intro l
  induction l with
  | nil => intro h; simp at h
  | cons a l ih =>
    intro h
    cases hfa : f a with
    | nil =>
      simp only [List.flatMap_cons, hfa, List.nil_append] at h
      rcases ih h with ⟨b, hb, hz⟩
      exact ⟨b, List.mem_cons_of_mem _ hb, hz⟩
    | cons b t =>
      simp only [List.flatMap_cons, hfa, List.cons_append, List.head?_cons] at h
      exact ⟨a, List.mem_cons_self _ _, by rw [hfa]; exact h⟩

/-- The first result of `a b` is the first result of `b` after some result of `a`. -/
theorem head_seq_inv {ic : Bool} {a b : Regex} {x z : MState}
    (h : (matchRe ic (.seq a b) x).head? = some z) :
    ∃ y ∈ matchRe ic a x, (matchRe ic b y).head? = some z := by
  simp only [matchRe] at h
  exact head_flatMap_inv _ z _ h

theorem matchRe_seq_empty (ic : Bool) (a : Regex) (x : MState) :
    matchRe ic (.seq a .empty) x = matchRe ic a x := by
  simp only [matchRe]
  induction matchRe ic a x with
  | nil => rfl
  | cons y l ih => simp [List.flatMap_cons, ih]

theorem repeatMatcher_zero_mem (m : MState → List MState) (fuel : Nat) (max : Option Nat)
    (x : MState) : x ∈ repeatMatcher m fuel 0 max x := by
  cases fuel with
  | zero => simp [repeatMatcher]
  | succ fuel =>
    by_cases hmax : max = some 0
    · simp [repeatMatcher, hmax]
    · simp [repeatMatcher, hmax]

/-- The first result of a bounded greedy quantifier over a character set: a run of matching
characters was read, of the greatest length allowed or up to a character that does not
match. -/
theorem head_repeat_set_inv (ic inv : Bool) (items : List ClassItem) (cap : Option (List Char)) :
    ∀ (fuel min max : Nat) (s : List Char) (z : MState), s.length ≤ fuel →
      (repeatMatcher (matchRe ic (.set inv items)) fuel min (some max) ⟨s, cap⟩).head? = some z →
      ∃ w, s = w ++ z.rest ∧ (∀ c ∈ w, setMatches ic inv items c = true) ∧
        (w.length = max ∨ ∀ c, z.rest.head? = some c → setMatches ic inv items c = false) := by
  intro fuel
  induction fuel with
  | zero =>
    intro min max s z hlen h
    have hs : s = [] := List.length_eq_zero.1 (by omega)
    subst hs
    simp only [repeatMatcher, List.head?_cons, Option.some.injEq] at h
    subst h
    exact ⟨[], rfl, by simp, Or.inr (by simp)⟩
  | succ fuel ih =>
    intro min max s z hlen h
    by_cases hmax : max = 0
    · subst hmax
      simp only [repeatMatcher, if_true, List.head?_cons, Option.some.injEq] at h
      subst h
      exact ⟨[], rfl, by simp, Or.inl rfl⟩
    · have hmax2 : (some max : Option Nat) ≠ some 0 := by simpa using hmax
      cases s with
      | nil =>
        have hm : matchRe ic (.set inv items) ⟨[], cap⟩ = [] := by simp [matchRe]
        by_cases hmin : min = 0
        · subst hmin
          simp [repeatMatcher, hmax, hm] at h
          subst h
          exact ⟨[], rfl, by simp, Or.inr (by simp)⟩
        · simp [repeatMatcher, hmax, hm, hmin] at h
      | cons c s =>
        by_cases hc : setMatches ic inv items c = true
        · have hm : matchRe ic (.set inv items) ⟨c :: s, cap⟩ = [⟨s, cap⟩] := by
            simp [matchRe, hc]
          have hne : repeatMatcher (matchRe ic (.set inv items)) fuel (min - 1)
              (some (max - 1)) ⟨s, cap⟩ ≠ [] ∨ min ≠ 0 := by
            by_cases hmin : min = 0
            · left
              subst hmin
              exact List.ne_nil_of_mem (repeatMatcher_zero_mem _ fuel _ _)
            · exact Or.inr hmin
          have hhead : (repeatMatcher (matchRe ic (.set inv items)) fuel (min - 1)
              (some (max - 1)) ⟨s, cap⟩).head? = some z := by
            by_cases hmin : min = 0
            · subst hmin
              rcases hne with hne | hne
              · obtain ⟨z0, tl, hz0⟩ := List.exists_cons_of_ne_nil hne
                simp only [Nat.zero_sub] at hz0
                simp [repeatMatcher, hmax, hm, hz0] at h
                subst h
                simp [hz0]
              · exact absurd rfl hne
            · simpa [repeatMatcher, hmax, hm, hmin] using h
          rcases ih (min - 1) (max - 1) s z (by simpa using hlen) hhead with ⟨w, hw, hall, hend⟩
          refine ⟨c :: w, by simp [hw], ?_, ?_⟩
          · intro d hd
            rcases List.mem_cons.1 hd with rfl | hd
            · exact hc
            · exact hall d hd
          · rcases hend with hend | hend
            · left
              simp only [List.length_cons, hend]
              omega
            · exact Or.inr hend
        · have hc2 : setMatches ic inv items c = false := by simpa using hc
          have hm : matchRe ic (.set inv items) ⟨c :: s, cap⟩ = [] := by
            simp [matchRe, hc2]
          by_cases hmin : min = 0
          · subst hmin
            simp [repeatMatcher, hmax, hm] at h
            subst h
            exact ⟨[], rfl, by simp, Or.inr (by
              intro d hd
              simp only [List.head?_cons, Option.some.injEq] at hd
              subst hd
              exact hc2)⟩
          · simp [repeatMatcher, hmax, hm, hmin] at h

theorem head_between_inv (ic inv : Bool) (items : List ClassItem) (min max : Nat) (x z : MState)
    (h : (matchRe ic (between min max (.set inv items)) x).head? = some z) :
    ∃ w, x.rest = w ++ z.rest ∧ (∀ c ∈ w, setMatches ic inv items c = true) ∧
      (w.length = max ∨ ∀ c, z.rest.head? = some c → setMatches ic inv items c = false) := by
  simp only [between, matchRe] at h
  exact head_repeat_set_inv ic inv items x.cap _ min max x.rest z (by omega) h


/-- The first result of a group is made from the first result of its body. -/
theorem head_group_inv {ic : Bool} {r : Regex} {x y : MState}
    (h : (matchRe ic (.group r) x).head? = some y) :
    ∃ z, (matchRe ic r x).head? = some z ∧
      y = ⟨z.rest, some (x.rest.take (x.rest.length - z.rest.length))⟩ := by
  simp only [matchRe] at h
  cases hl : matchRe ic r x with
  | nil => simp [hl] at h
  | cons z tl =>
    simp only [hl, List.map_cons, List.head?_cons, Option.some.injEq] at h
    exact ⟨z, rfl, h.symm⟩

/-! ## The label `date` followed by a date token -/

/-- A word of a literal has the length of the literal and its letters, in some letter case. -/
theorem matches_lit_word : ∀ (ks w : List Char), (∀ k ∈ ks, 97 ≤ k.toNat ∧ k.toNat ≤ 122) →
    Matches true (ks.foldr (fun c r => .seq (.set false [.chr c]) r) .empty) w →
    w.length = ks.length ∧ startsWithAnyCase ks w = true := by
  intro ks
  induction ks with
  | nil =>
    intro w _ h
    have := matches_empty_inv h
    subst this
    exact ⟨rfl, rfl⟩
  | cons k ks ih =>
    intro w hks h
    rcases matches_chr_seq_inv h with ⟨c, v, rfl, hc, hv⟩
    rcases ih v (fun k hk => hks k (List.mem_cons_of_mem _ hk)) hv with ⟨hlen, hsw⟩
    refine ⟨by simp [hlen], ?_⟩
    simp only [startsWithAnyCase, Bool.and_eq_true]
    exact ⟨sameLetter_of_setMatches k c (hks k (List.mem_cons_self _ _)) hc, hsw⟩

/-- A literal matches its letters in any letter case. -/
theorem mem_lit_of_startsWith (rest : List Char) (cap : Option (List Char)) :
    ∀ (ks w : List Char), (∀ k ∈ ks, 97 ≤ k.toNat ∧ k.toNat ≤ 122) → w.length = ks.length →
      startsWithAnyCase ks w = true →
      (⟨rest, cap⟩ : MState) ∈
        matchRe true (ks.foldr (fun c r => .seq (.set false [.chr c]) r) .empty)
          ⟨w ++ rest, cap⟩ := by
  intro ks
  induction ks with
  | nil =>
    intro w _ hlen _
    have : w = [] := List.length_eq_zero.1 (by simpa using hlen)
    subst this
    simp [matchRe]
  | cons k ks ih =>
    intro w hks hlen hsw
    cases w with
    | nil => simp at hlen
    | cons c w =>
      simp only [startsWithAnyCase, Bool.and_eq_true] at hsw
      simp only [List.length_cons, add_left_inj] at hlen
      have hc : setMatches true false [.chr k] c = true := by
        rw [setMatches_eq_sameLetter k c (hks k (List.mem_cons_self _ _))]
        exact hsw.1
      exact mem_seq true _ _ _ ⟨w ++ rest, cap⟩ _ (mem_set true false _ c _ cap hc)
        (ih w (fun k hk => hks k (List.mem_cons_of_mem _ hk)) hlen hsw.2)

/-- Words of `:?`. -/
theorem matches_opt_colon {ic : Bool} {w : List Char} (h : Matches ic (opt (lit ":")) w) :
    w = [] ∨ w = [':'] := by
  rcases matches_rep_inv h with ⟨h0, _⟩ | ⟨_, u, v, huv, hu, hv⟩
  · exact Or.inl h0
  · right
    rcases matches_chr_seq_inv hu with ⟨k, e, rfl, hk, he⟩
    have := matches_empty_inv he
    subst this
    have hk2 : k = ':' := (setMatches_chr ic ':' k (by decide)).1 hk
    subst hk2
    rcases matches_rep_inv hv with ⟨hv0, _⟩ | ⟨hmax, _⟩
    · subst hv0
      exact huv
    · simp at hmax

theorem mem_opt_colon (ic : Bool) (col rest : List Char) (cap : Option (List Char))
    (hcol : col = [] ∨ col = [':']) :
    (⟨rest, cap⟩ : MState) ∈ matchRe ic (opt (lit ":")) ⟨col ++ rest, cap⟩ := by
  rcases hcol with rfl | rfl
  · exact mem_rep_zero ic _ _ _
  · apply List.mem_of_mem_head?
    exact head_opt_take ic _ _ ⟨rest, cap⟩
      (head_seq ic _ _ _ ⟨rest, cap⟩ _
        (head_set ic false _ ':' _ cap ((setMatches_chr ic ':' ':' (by decide)).2 rfl))
        (head_empty _ _)) (by simp)

/-- The first date pattern matches at the label `date` followed by a date token. -/
theorem matchRe_labeled_date (lab g1 col g2 tok rest : List Char) (hlen : lab.length = 4)
    (hlab : startsWithAnyCase "date".data lab = true)
    (hg1 : ∀ c ∈ g1, isWhiteSpace c = true) (hcol : col = [] ∨ col = [':'])
    (hg2 : ∀ c ∈ g2, isWhiteSpace c = true) (htok : IsDateToken tok) :
    matchRe true (cat [lit "date", star ws, opt (lit ":"), star ws, .group dateToken])
      ⟨lab ++ (g1 ++ (col ++ (g2 ++ (tok ++ rest)))), none⟩ ≠ [] := by
  have hws : ∀ g : List Char, (∀ c ∈ g, isWhiteSpace c = true) →
      ∀ c ∈ g, setMatches true false [.space] c = true := by
    intro g hg c hc
    rw [setMatches_space]
    exact hg c hc
  have hgroup : (⟨rest, some ((tok ++ rest).take ((tok ++ rest).length - rest.length))⟩ : MState)
      ∈ matchRe true (.group dateToken) ⟨tok ++ rest, none⟩ := by
    simp only [matchRe]
    exact List.mem_map.2 ⟨_, matchRe_dateToken true tok rest none htok, rfl⟩
  have hall : (⟨rest, some ((tok ++ rest).take ((tok ++ rest).length - rest.length))⟩ : MState)
      ∈ matchRe true (cat [lit "date", star ws, opt (lit ":"), star ws, .group dateToken])
        ⟨lab ++ (g1 ++ (col ++ (g2 ++ (tok ++ rest)))), none⟩ :=
    mem_seq true _ _ _ ⟨g1 ++ (col ++ (g2 ++ (tok ++ rest))), none⟩ _
      (mem_lit_of_startsWith _ none "date".data lab (by decide) hlen hlab)
      (mem_seq true _ _ _ ⟨col ++ (g2 ++ (tok ++ rest)), none⟩ _
        (mem_rep_set true false [.space] 0 none g1 _ none (hws g1 hg1) (by simp) (by simp))
        (mem_seq true _ _ _ ⟨g2 ++ (tok ++ rest), none⟩ _
          (mem_opt_colon true col _ none hcol)
          (mem_seq true _ _ _ ⟨tok ++ rest, none⟩ _
            (mem_rep_set true false [.space] 0 none g2 _ none (hws g2 hg2) (by simp) (by simp))
            (mem_seq true _ _ _ _ _ hgroup (by simp [cat, matchRe])))))
  exact List.ne_nil_of_mem hall

/-- The first result of the date token pattern: the token read, with as many digits of the
year as there are, up to four. -/
theorem head_dateToken_inv (ic : Bool) (x z : MState)
    (h : (matchRe ic dateToken x).head? = some z) :
    ∃ tok, x.rest = tok ++ z.rest ∧ IsCapturedDate tok z.rest := by
  rcases head_seq_inv h with ⟨z1, hz1, h⟩
  rcases head_seq_inv h with ⟨z2, hz2, h⟩
  rcases head_seq_inv h with ⟨z3, hz3, h⟩
  rcases head_seq_inv h with ⟨z4, hz4, h⟩
  have h5 : (matchRe ic (between 2 4 dg) z4).head? = some z := by
    have e : matchRe ic (cat [between 2 4 dg]) z4 = matchRe ic (between 2 4 dg) z4 :=
      matchRe_seq_empty ic _ z4
    rw [← e]
    exact h
  rcases matchRe_sound ic _ _ _ hz1 with ⟨d1, e1, m1⟩
  rcases matchRe_sound ic _ _ _ hz2 with ⟨u1, e2, m2⟩
  rcases matchRe_sound ic _ _ _ hz3 with ⟨d2, e3, m3⟩
  rcases matchRe_sound ic _ _ _ hz4 with ⟨u2, e4, m4⟩
  rcases matchRe_sound ic _ _ _ (List.mem_of_mem_head? h5) with ⟨d3, e5, m5⟩
  rcases head_between_inv ic false [.digit] 2 4 z4 z h5 with ⟨d3g, e5g, _, hend⟩
  have hd3 : d3g = d3 := List.append_cancel_right (e5g.symm.trans e5)
  subst hd3
  rcases matches_digits m1 (by intro k hk; cases hk; decide) with ⟨hd1, hl1, hk1⟩
  rcases matches_digits m3 (by intro k hk; cases hk; decide) with ⟨hd2, hl2, hk2⟩
  rcases matches_digits m5 (by intro k hk; cases hk; decide) with ⟨hd3, hl3, hk3⟩
  rcases matches_set_inv m2 with ⟨s1, rfl, hs1⟩
  rcases matches_set_inv m4 with ⟨s2, rfl, hs2⟩
  have k1 := hk1 2 rfl
  have k2 := hk2 2 rfl
  have k3 := hk3 4 rfl
  refine ⟨d1 ++ s1 :: (d2 ++ s2 :: d3g), ?_, d1, d2, d3g, s1, s2, rfl, ?_, by omega, by omega,
    ⟨hl3, k3⟩, (setMatches_separator ic s1).1 hs1, (setMatches_separator ic s2).1 hs2, ?_⟩
  · rw [e1, e2, e3, e4, e5]
    simp
  · intro c hc
    simp only [List.mem_append] at hc
    rcases hc with (hc | hc) | hc
    · exact hd1 c hc
    · exact hd2 c hc
    · exact hd3 c hc
  · rcases hend with hend | hend
    · exact Or.inl hend
    · exact Or.inr (fun c hc => by rw [← setMatches_digit ic]; exact hend c hc)

/-- The first result of the first date pattern: what was read is the label `date`, white
space, an optional `:`, white space and the token, which is the capture. -/
theorem head_labeled_date_inv (t : List Char) (y : MState)
    (h : (matchRe true (cat [lit "date", star ws, opt (lit ":"), star ws, .group dateToken])
      ⟨t, none⟩).head? = some y) :
    ∃ tok, LabeledDateAt t [] tok y.rest ∧ IsCapturedDate tok y.rest ∧ y.cap = some tok := by
  rcases head_seq_inv h with ⟨y1, hy1, h⟩
  rcases head_seq_inv h with ⟨y2, hy2, h⟩
  rcases head_seq_inv h with ⟨y3, hy3, h⟩
  rcases head_seq_inv h with ⟨y4, hy4, h⟩
  have h5 : (matchRe true (.group dateToken) y4).head? = some y := by
    have e : matchRe true (cat [.group dateToken]) y4 = matchRe true (.group dateToken) y4 :=
      matchRe_seq_empty true _ y4
    rw [← e]
    exact h
  rcases head_group_inv h5 with ⟨z, hz, hzy⟩
  rcases head_dateToken_inv true y4 z hz with ⟨tok, etok, hcap⟩
  rcases matchRe_sound true _ _ _ hy1 with ⟨lab, e1, m1⟩
  rcases matchRe_sound true _ _ _ hy2 with ⟨g1, e2, m2⟩
  rcases matchRe_sound true _ _ _ hy3 with ⟨col, e3, m3⟩
  rcases matchRe_sound true _ _ _ hy4 with ⟨g2, e4, m4⟩
  rcases matches_lit_word "date".data lab (by decide) m1 with ⟨hlen, hlab⟩
  have hg1 := (matches_rep_set true false [.space] g1 0 none m2 (by simp)).1
  have hg2 := (matches_rep_set true false [.space] g2 0 none m4 (by simp)).1
  have hyr : y.rest = z.rest := by rw [hzy]
  have hyc : y.cap = some tok := by
    rw [hzy, etok]
    simp only [take_length_sub]
  refine ⟨tok, ⟨lab, g1, col, g2, ?_, hlen, hlab, ?_, matches_opt_colon m3, ?_⟩, ?_, hyc⟩
  · simp only [List.nil_append]
    have e1t : t = lab ++ y1.rest := e1
    rw [e1t, e2, e3, e4, etok, hyr]
  · intro c hc
    rw [← setMatches_space true]
    exact hg1 c hc
  · intro c hc
    rw [← setMatches_space true]
    exact hg2 c hc
  · rw [hyr]
    exact hcap

/-- A captured date token has no white space around it. -/
theorem trim_capturedDate (tok rest : List Char) (h : IsCapturedDate tok rest) :
    trim tok = tok := by
  rcases h with ⟨d1, d2, d3, s1, s2, rfl, hd, _, _, _, hs1, hs2, _⟩
  apply trim_eq_self
  intro c hc
  have hsep : ∀ s : Char, (s = '/' ∨ s = '-') → isWhiteSpace s = false := by
    intro s hs
    rcases hs with rfl | rfl <;> decide
  simp only [List.mem_append, List.mem_cons] at hc
  rcases hc with hc | rfl | hc | rfl | hc
  · exact isWhiteSpace_of_isDigit c (hd c (by simp [hc]))
  · exact hsep _ hs1
  · exact isWhiteSpace_of_isDigit c (hd c (by simp [hc]))
  · exact hsep _ hs2
  · exact isWhiteSpace_of_isDigit c (hd c (by simp [hc]))

/-- C22: the bare date pattern is a fallback. In every text where the label `date`
(followed by optional white space and `:`) is followed by a numeric date token, `date` is
the token read at the leftmost such place: the label, the gap, and the token with as many
digits of the year as there are, up to four. Date tokens without a label that stand earlier
in the text do not matter. -/
theorem date_of_leftmost_label (text : String) (pre tok rest : List Char)
    (hocc : LabeledDateAt text.data pre tok rest) (htok : IsDateToken tok) :
    ∃ d, extractInvoiceData text = .ok d ∧
      ∃ pre1 tok1 rest1, LabeledDateAt text.data pre1 tok1 rest1 ∧ IsCapturedDate tok1 rest1 ∧
        (∀ p2 t2 r2, LabeledDateAt text.data p2 t2 r2 → IsDateToken t2 →
          pre1.length ≤ p2.length) ∧
        d.date = String.mk tok1 := by
  rcases hocc with ⟨lab, g1, col, g2, htext, hlen, hlab, hg1, hcol, hg2⟩
  have hne := matchRe_labeled_date lab g1 col g2 tok rest hlen hlab hg1 hcol hg2 htok
  have hsome := exec_isSome_of_suffix
    ⟨true, cat [lit "date", star ws, opt (lit ":"), star ws, .group dateToken]⟩ text.data
    (lab ++ (g1 ++ (col ++ (g2 ++ (tok ++ rest))))) ⟨pre, htext.symm⟩ hne
  cases he : exec ⟨true, cat [lit "date", star ws, opt (lit ":"), star ws, .group dateToken]⟩
      text.data with
  | none => simp [he] at hsome
  | some y =>
    rcases exec_leftmost _ text.data y he with ⟨pre1, t, hs, hhead, hleft⟩
    rcases head_labeled_date_inv t y hhead with ⟨tok1, ⟨lab1, k1, col1, k2, et, h1, h2, h3, h4, h5⟩,
      hcap, hyc⟩
    refine ⟨_, extractInvoiceData_eq _, pre1, tok1, y.rest,
      ⟨lab1, k1, col1, k2, by rw [hs, et]; simp, h1, h2, h3, h4, h5⟩, hcap, ?_, ?_⟩
    · intro p2 t2 r2 hocc2 htok2
      rcases hocc2 with ⟨lab2, m1, col2, m2, htext2, hl2, hlab2, hm1, hcol2, hm2⟩
      by_contra hlt
      have := hleft p2 _ htext2 (by omega)
      exact matchRe_labeled_date lab2 m1 col2 m2 t2 r2 hl2 hlab2 hm1 hcol2 hm2 htok2 this
    · simp only [extractedRecord, fieldText, datePatterns, firstMatch, he, hyc,
        trim_capturedDate tok1 y.rest hcap]

/-- C22 at a text with a bare date token before the labelled one. -/
theorem date_of_leftmost_label_witness :
    LabeledDateAt "01/01/2020\nDate: 02/02/2021".data "01/01/2020\n".data "02/02/2021".data [] ∧
    IsDateToken "02/02/2021".data ∧
    ∃ d, extractInvoiceData "01/01/2020\nDate: 02/02/2021" = .ok d ∧ d.date = "02/02/2021" ∧
      ∃ pre1 tok1 rest1,
        LabeledDateAt "01/01/2020\nDate: 02/02/2021".data pre1 tok1 rest1 ∧
        IsCapturedDate tok1 rest1 ∧ d.date = String.mk tok1 := by
  have hocc : LabeledDateAt "01/01/2020\nDate: 02/02/2021".data "01/01/2020\n".data
      "02/02/2021".data [] :=
    ⟨"Date".data, [], [':'], [' '], by decide, by decide, by decide, by simp, Or.inr rfl,
      by decide⟩
  have htok : IsDateToken "02/02/2021".data :=
    ⟨"02".data, "02".data, "2021".data, '/', '/', by decide, by decide, Or.inr rfl, Or.inr rfl,
      Or.inr rfl, Or.inl rfl, Or.inl rfl⟩
  rcases date_of_leftmost_label "01/01/2020\nDate: 02/02/2021" _ _ _ hocc htok with
    ⟨d, hd, pre1, tok1, rest1, h1, h2, _, h4⟩
  have hd2 : d = extractedRecord "01/01/2020\nDate: 02/02/2021" :=
    Except.ok.inj (hd.symm.trans (extractInvoiceData_eq _))
  refine ⟨hocc, htok, d, hd, ?_, pre1, tok1, rest1, h1, h2, h4⟩
  rw [hd2]
  decide

/-! ## Texts that differ in letter case -/

theorem sameUpToCase_cases (c c2 : Char) (h : sameUpToCase c c2 = true) :
    c2 = c ∨ (65 ≤ c.toNat ∧ c.toNat ≤ 90 ∧ c2.toNat = c.toNat + 32) ∨
      (65 ≤ c2.toNat ∧ c2.toNat ≤ 90 ∧ c.toNat = c2.toNat + 32) := by
  simp only [sameUpToCase, isAsciiLetter, Bool.or_eq_true, Bool.and_eq_true, beq_iff_eq,
    decide_eq_true_eq] at h
  rcases h with h | ⟨⟨h1, h2⟩, h3⟩
  · exact Or.inl h
  · rcases h3 with h3 | h3
    · right; left; omega
    · right; right; omega

theorem caseVariant_refl : ∀ t : List Char, caseVariant t t = true
  | [] => rfl
  | c :: t => by simp [caseVariant, sameUpToCase, caseVariant_refl t]

theorem caseVariant_length : ∀ (t t2 : List Char), caseVariant t t2 = true → t.length = t2.length
  | [], [], _ => rfl
  | [], _ :: _, h => by simp [caseVariant] at h
  | _ :: _, [], h => by simp [caseVariant] at h
  | c :: t, c2 :: t2, h => by
    simp only [caseVariant, Bool.and_eq_true] at h
    simp [caseVariant_length t t2 h.2]

theorem caseVariant_take : ∀ (n : Nat) (t t2 : List Char), caseVariant t t2 = true →
    caseVariant (t.take n) (t2.take n) = true
  | 0, _, _, _ => by simp [caseVariant]
  | _ + 1, [], [], _ => by simp [caseVariant]
  | _ + 1, [], _ :: _, h => by simp [caseVariant] at h
  | _ + 1, _ :: _, [], h => by simp [caseVariant] at h
  | n + 1, c :: t, c2 :: t2, h => by
    simp only [caseVariant, Bool.and_eq_true] at h
    simp only [List.take_succ_cons, caseVariant, Bool.and_eq_true]
    exact ⟨h.1, caseVariant_take n t t2 h.2⟩

/-- A text without ASCII letters has no other variant than itself. -/
theorem caseVariant_eq : ∀ (t t2 : List Char), caseVariant t t2 = true →
    (∀ c ∈ t, isAsciiLetter c = false) → t2 = t
  | [], [], _, _ => rfl
  | [], _ :: _, h, _ => by simp [caseVariant] at h
  | _ :: _, [], h, _ => by simp [caseVariant] at h
  | c :: t, c2 :: t2, h, hl => by
    simp only [caseVariant, Bool.and_eq_true] at h
    have hc := hl c (List.mem_cons_self _ _)
    have e : c2 = c := by
      rcases sameUpToCase_cases c c2 h.1 with e | ⟨h1, h2, _⟩ | ⟨h1, h2, h3⟩
      · exact e
      · simp only [isAsciiLetter, Bool.or_eq_false_iff, Bool.and_eq_false_iff,
          decide_eq_false_iff_not] at hc
        omega
      · simp only [isAsciiLetter, Bool.or_eq_false_iff, Bool.and_eq_false_iff,
          decide_eq_false_iff_not] at hc
        omega
    rw [e, caseVariant_eq t t2 h.2 (fun d hd => hl d (List.mem_cons_of_mem _ hd))]

theorem isWhiteSpace_of_letter (c : Char) (h : 65 ≤ c.toNat ∧ c.toNat ≤ 122) :
    isWhiteSpace c = false := by
  simp only [isWhiteSpace, Bool.or_eq_false_iff, Bool.and_eq_false_iff, beq_eq_false_iff_ne,
    ne_eq, decide_eq_false_iff_not]
  omega

/-- With the `i` flag a member of a class matches both letter cases of a letter or none. -/
theorem matchesChar_variant (it : ClassItem) (c c2 : Char) (h : sameUpToCase c c2 = true) :
    it.matchesChar true c = it.matchesChar true c2 := by
  have key : ∀ a b : Char, 65 ≤ a.toNat → a.toNat ≤ 90 → b.toNat = a.toNat + 32 →
      it.matchesChar true a = it.matchesChar true b := by
    intro a b h1 h2 h3
    have ca : canonCode a = a.toNat := by rw [canonCode, if_neg (by omega)]
    have la : lowerCode a = a.toNat + 32 := by rw [lowerCode, if_pos (by omega)]
    have cb : canonCode b = a.toNat := by rw [canonCode, if_pos (by omega)]; omega
    have lb : lowerCode b = a.toNat + 32 := by rw [lowerCode, if_neg (by omega)]; omega
    cases it with
    | space =>
      simp only [ClassItem.matchesChar]
      rw [isWhiteSpace_of_letter a (by omega), isWhiteSpace_of_letter b (by omega)]
    | chr k =>
      simp only [ClassItem.matchesChar, ca, la, cb, lb, h3, Bool.true_and]
      cases (ClassItem.chr k).hasCode a.toNat <;> cases (ClassItem.chr k).hasCode (a.toNat + 32) <;> rfl
    | range lo hi =>
      simp only [ClassItem.matchesChar, ca, la, cb, lb, h3, Bool.true_and]
      cases (ClassItem.range lo hi).hasCode a.toNat <;>
        cases (ClassItem.range lo hi).hasCode (a.toNat + 32) <;> rfl
    | digit =>
      simp only [ClassItem.matchesChar, ca, la, cb, lb, h3, Bool.true_and]
      cases ClassItem.digit.hasCode a.toNat <;> cases ClassItem.digit.hasCode (a.toNat + 32) <;> rfl
  rcases sameUpToCase_cases c c2 h with e | ⟨h1, h2, h3⟩ | ⟨h1, h2, h3⟩
  · rw [e]
  · exact key c c2 h1 h2 h3
  · exact (key c2 c h1 h2 h3).symm

theorem setMatches_variant (inv : Bool) (items : List ClassItem) (c c2 : Char)
    (h : sameUpToCase c c2 = true) :
    setMatches true inv items c = setMatches true inv items c2 := by
  have e : (items.any fun it => it.matchesChar true c)
      = (items.any fun it => it.matchesChar true c2) := by
    induction items with
    | nil => rfl
    | cons it items ih => simp only [List.any_cons, ih, matchesChar_variant it c c2 h]
  simp only [setMatches, e]

/-- With the `i` flag every pattern treats the two letter cases alike. -/
theorem caseStable_ignoreCase : ∀ r : Regex, r.caseStable true
  | .set inv items => fun c c2 h => setMatches_variant inv items c c2 h
  | .seq a b => ⟨caseStable_ignoreCase a, caseStable_ignoreCase b⟩
  | .rep r _ _ => caseStable_ignoreCase r
  | .group r => caseStable_ignoreCase r
  | .empty => trivial

theorem isDigit_variant (c c2 : Char) (h : sameUpToCase c c2 = true) : isDigit c = isDigit c2 := by
  rcases sameUpToCase_cases c c2 h with e | ⟨h1, h2, h3⟩ | ⟨h1, h2, h3⟩
  · rw [e]
  · have a : isDigit c = false := by
      simp only [isDigit, Bool.and_eq_false_iff, decide_eq_false_iff_not]; omega
    have b : isDigit c2 = false := by
      simp only [isDigit, Bool.and_eq_false_iff, decide_eq_false_iff_not]; omega
    rw [a, b]
  · have a : isDigit c = false := by
      simp only [isDigit, Bool.and_eq_false_iff, decide_eq_false_iff_not]; omega
    have b : isDigit c2 = false := by
      simp only [isDigit, Bool.and_eq_false_iff, decide_eq_false_iff_not]; omega
    rw [a, b]

/-- The date token pattern has no letter: it treats the letter cases alike without the `i`
flag too. -/
theorem caseStable_dateToken (ic : Bool) : (cat [.group dateToken]).caseStable ic := by
  have hd : ∀ c c2, sameUpToCase c c2 = true →
      setMatches ic false [.digit] c = setMatches ic false [.digit] c2 := by
    intro c c2 h
    rw [setMatches_digit, setMatches_digit, isDigit_variant c c2 h]
  have hs : ∀ c c2, sameUpToCase c c2 = true →
      setMatches ic false [.chr '/', .chr '-'] c = setMatches ic false [.chr '/', .chr '-'] c2 := by
    intro c c2 h
    have hiff : ∀ d : Char, (65 ≤ d.toNat ∧ d.toNat ≤ 122) →
        setMatches ic false [.chr '/', .chr '-'] d = false := by
      intro d hd
      rw [Bool.eq_false_iff]
      intro hm
      rcases (setMatches_separator ic d).1 hm with e | e
      · subst e
        have : '/'.toNat = 47 := rfl
        omega
      · subst e
        have : '-'.toNat = 45 := rfl
        omega
    rcases sameUpToCase_cases c c2 h with e | ⟨h1, h2, h3⟩ | ⟨h1, h2, h3⟩
    · rw [e]
    · rw [hiff c (by omega), hiff c2 (by omega)]
    · rw [hiff c (by omega), hiff c2 (by omega)]
  exact ⟨⟨hd, hs, hd, hs, hd, trivial⟩, trivial⟩

theorem stateVariant_refl (x : MState) : StateVariant x x := by
  refine ⟨caseVariant_refl _, ?_⟩
  cases x.cap with
  | none => rfl
  | some a => exact caseVariant_refl a

/-- The quantifier step keeps two matches on variant texts in step. -/
theorem repeatMatcher_variant (m : MState → List MState)
    (hm : ∀ x x2, StateVariant x x2 → List.Forall₂ StateVariant (m x) (m x2)) :
    ∀ (fuel min : Nat) (max : Option Nat) (x x2 : MState), StateVariant x x2 →
      List.Forall₂ StateVariant (repeatMatcher m fuel min max x)
        (repeatMatcher m fuel min max x2) := by
  intro fuel
  induction fuel with
  | zero =>
    intro min max x x2 h
    simp only [repeatMatcher]
    exact List.Forall₂.cons h List.Forall₂.nil
  | succ fuel ih =>
    intro min max x x2 h
    have hlen : x.rest.length = x2.rest.length := caseVariant_length _ _ h.1
    have hflat : List.Forall₂ StateVariant
        ((m x).flatMap fun y =>
          if min = 0 ∧ y.rest.length = x.rest.length then []
          else repeatMatcher m fuel (min - 1) (max.map (· - 1)) y)
        ((m x2).flatMap fun y =>
          if min = 0 ∧ y.rest.length = x2.rest.length then []
          else repeatMatcher m fuel (min - 1) (max.map (· - 1)) y) := by
      refine List.rel_flatMap (hm x x2 h) ?_
      intro y y2 hy
      have hl2 : y.rest.length = y2.rest.length := caseVariant_length _ _ hy.1
      by_cases hc : min = 0 ∧ y.rest.length = x.rest.length
      · have hc2 : min = 0 ∧ y2.rest.length = x2.rest.length := ⟨hc.1, by omega⟩
        simp only [if_pos hc, if_pos hc2]
        exact List.Forall₂.nil
      · have hc2 : ¬ (min = 0 ∧ y2.rest.length = x2.rest.length) := by
          intro h2
          exact hc ⟨h2.1, by omega⟩
        simp only [if_neg hc, if_neg hc2]
        exact ih _ _ y y2 hy
    simp only [repeatMatcher]
    by_cases hmax : max = some 0
    · simp only [if_pos hmax]
      exact List.Forall₂.cons h List.Forall₂.nil
    · simp only [if_neg hmax]
      by_cases hmin : min ≠ 0
      · simp only [if_pos hmin]
        exact hflat
      · simp only [if_neg hmin]
        exact List.rel_append hflat (List.Forall₂.cons h List.Forall₂.nil)

/-- On two texts that differ in letter case only, a pattern that treats the letter cases
alike has the same results in the same order, up to letter case. -/
theorem matchRe_variant (ic : Bool) : ∀ r : Regex, r.caseStable ic →
    ∀ x x2, StateVariant x x2 → List.Forall₂ StateVariant (matchRe ic r x) (matchRe ic r x2) := by
  intro r
  induction r with
  | set inv items =>
    intro hr x x2 h
    rcases x with ⟨s, cap⟩
    rcases x2 with ⟨s2, cap2⟩
    cases s with
    | nil =>
      cases s2 with
      | nil => simp only [matchRe]; exact List.Forall₂.nil
      | cons c2 s2 => simp [StateVariant, caseVariant] at h
    | cons c s =>
      cases s2 with
      | nil => simp [StateVariant, caseVariant] at h
      | cons c2 s2 =>
        have hcv : sameUpToCase c c2 = true ∧ caseVariant s s2 = true := by
          simpa [StateVariant, caseVariant] using h.1
        have e := hr c c2 hcv.1
        simp only [matchRe]
        by_cases hm : setMatches ic inv items c = true
        · have hm2 : setMatches ic inv items c2 = true := by rw [← e]; exact hm
          simp only [hm, hm2, if_true]
          exact List.Forall₂.cons ⟨hcv.2, h.2⟩ List.Forall₂.nil
        · have hmf : setMatches ic inv items c = false := by simpa using hm
          have hm2 : setMatches ic inv items c2 = false := by rw [← e]; exact hmf
          simp only [hmf, hm2]
          exact List.Forall₂.nil
  | seq a b iha ihb =>
    intro hr x x2 h
    simp only [matchRe]
    exact List.rel_flatMap (iha hr.1 x x2 h) (fun y y2 hy => ihb hr.2 y y2 hy)
  | rep r min max ih =>
    intro hr x x2 h
    have hlen : x.rest.length = x2.rest.length := caseVariant_length _ _ h.1
    simp only [matchRe, hlen]
    exact repeatMatcher_variant _ (ih hr) _ _ _ x x2 h
  | group r ih =>
    intro hr x x2 h
    have hlen : x.rest.length = x2.rest.length := caseVariant_length _ _ h.1
    simp only [matchRe]
    refine List.rel_map ?_ (ih hr x x2 h)
    intro y y2 hy
    have hl2 : y.rest.length = y2.rest.length := caseVariant_length _ _ hy.1
    refine ⟨hy.1, ?_⟩
    simp only [capVariant, hlen, hl2]
    exact caseVariant_take _ _ _ h.1
  | empty =>
    intro _ x x2 h
    simp only [matchRe]
    exact List.Forall₂.cons h List.Forall₂.nil

theorem head_forall2 {α : Type} (R : α → α → Prop) (l l2 : List α) (h : List.Forall₂ R l l2) :
    (l.head? = none ∧ l2.head? = none) ∨
    ∃ y y2, l.head? = some y ∧ l2.head? = some y2 ∧ R y y2 := by
  cases h with
  | nil => exact Or.inl ⟨rfl, rfl⟩
  | cons hy _ => exact Or.inr ⟨_, _, rfl, rfl, hy⟩

/-- The search loop on two texts that differ in letter case only: no match on both, or
matches that agree up to letter case. -/
theorem exec_variant (re : RegExp) (hre : re.body.caseStable re.ignoreCase) :
    ∀ (s s2 : List Char), caseVariant s s2 = true →
      (exec re s = none ∧ exec re s2 = none) ∨
      ∃ y y2, exec re s = some y ∧ exec re s2 = some y2 ∧ StateVariant y y2 := by
  have hhead : ∀ (s s2 : List Char), caseVariant s s2 = true →
      ((matchRe re.ignoreCase re.body ⟨s, none⟩).head? = none ∧
        (matchRe re.ignoreCase re.body ⟨s2, none⟩).head? = none) ∨
      ∃ y y2, (matchRe re.ignoreCase re.body ⟨s, none⟩).head? = some y ∧
        (matchRe re.ignoreCase re.body ⟨s2, none⟩).head? = some y2 ∧ StateVariant y y2 := by
    intro s s2 h
    exact head_forall2 _ _ _
      (matchRe_variant re.ignoreCase re.body hre ⟨s, none⟩ ⟨s2, none⟩ ⟨h, rfl⟩)
  intro s
  induction s with
  | nil =>
    intro s2 h
    cases s2 with
    | nil => simpa [exec] using hhead [] [] h
    | cons c2 s2 => simp [caseVariant] at h
  | cons c s ih =>
    intro s2 h
    cases s2 with
    | nil => simp [caseVariant] at h
    | cons c2 s2 =>
      have htail : caseVariant s s2 = true := by
        simp only [caseVariant, Bool.and_eq_true] at h
        exact h.2
      rcases hhead (c :: s) (c2 :: s2) h with ⟨h1, h2⟩ | ⟨y, y2, h1, h2, hy⟩
      · rw [exec, exec, h1, h2]
        exact ih s2 htail
      · rw [exec, exec, h1, h2]
        exact Or.inr ⟨y, y2, rfl, rfl, hy⟩

/-- The loop over a list of patterns on two texts that differ in letter case only. -/
theorem firstMatch_variant (s s2 : List Char) (h : caseVariant s s2 = true) :
    ∀ ps : List RegExp, (∀ p ∈ ps, p.body.caseStable p.ignoreCase) →
      (firstMatch ps s = none ∧ firstMatch ps s2 = none) ∨
      ∃ c c2, firstMatch ps s = some c ∧ firstMatch ps s2 = some c2 ∧ capVariant c c2 = true := by
  intro ps
  induction ps with
  | nil => intro _; exact Or.inl ⟨rfl, rfl⟩
  | cons p ps ih =>
    intro hps
    rcases exec_variant p (hps p (List.mem_cons_self _ _)) s s2 h with
      ⟨h1, h2⟩ | ⟨y, y2, h1, h2, hy⟩
    · simp only [firstMatch, h1, h2]
      exact ih (fun q hq => hps q (List.mem_cons_of_mem _ hq))
    · simp only [firstMatch, h1, h2]
      exact Or.inr ⟨_, _, rfl, rfl, hy.2⟩

/-- When the captures of the patterns have no letter, the loop gives the same result on two
texts that differ in letter case only. -/
theorem firstMatch_variant_eq (ps : List RegExp) (s s2 : List Char)
    (h : caseVariant s s2 = true) (hst : ∀ p ∈ ps, p.body.caseStable p.ignoreCase)
    (hp : ∀ p ∈ ps, ∃ g, p.body.groupBody = some g ∧
      ∀ w, Matches p.ignoreCase g w → ∀ c ∈ w, isAsciiLetter c = false) :
    firstMatch ps s2 = firstMatch ps s := by
  rcases firstMatch_variant s s2 h ps hst with ⟨h1, h2⟩ | ⟨c, c2, h1, h2, hc⟩
  · rw [h1, h2]
  · rcases firstMatch_cap ps _ hp s c h1 with ⟨w, rfl, hw⟩
    cases c2 with
    | none => simp [capVariant] at hc
    | some w2 =>
      have : w2 = w := caseVariant_eq w w2 hc hw
      rw [h1, h2, this]

theorem not_letter_of_digit (c : Char) (h : isDigit c = true ∨ c = '/' ∨ c = '-' ∨ c = ',' ∨ c = '.') :
    isAsciiLetter c = false := by
  rcases h with h | rfl | rfl | rfl | rfl
  · simp only [isDigit, Bool.and_eq_true, decide_eq_true_eq] at h
    simp only [isAsciiLetter, Bool.or_eq_false_iff, Bool.and_eq_false_iff,
      decide_eq_false_iff_not]
    omega
  · decide
  · decide
  · decide
  · decide

/-- Words of the date token pattern: digits and separators. -/
theorem matches_dateToken_chars (ic : Bool) (w : List Char) (h : Matches ic dateToken w) :
    ∀ c ∈ w, isDigit c = true ∨ c = '/' ∨ c = '-' := by
  rcases matches_seq_inv h with ⟨d1, r1, rfl, m1, h⟩
  rcases matches_seq_inv h with ⟨u1, r2, rfl, m2, h⟩
  rcases matches_seq_inv h with ⟨d2, r3, rfl, m3, h⟩
  rcases matches_seq_inv h with ⟨u2, r4, rfl, m4, h⟩
  rcases matches_seq_inv h with ⟨d3, r5, rfl, m5, h⟩
  have := matches_empty_inv h
  subst this
  have hd1 := (matches_digits m1 (by intro k hk; cases hk; decide)).1
  have hd2 := (matches_digits m3 (by intro k hk; cases hk; decide)).1
  have hd3 := (matches_digits m5 (by intro k hk; cases hk; decide)).1
  rcases matches_set_inv m2 with ⟨s1, rfl, hs1⟩
  rcases matches_set_inv m4 with ⟨s2, rfl, hs2⟩
  intro c hc
  simp only [List.mem_append, List.mem_singleton, List.not_mem_nil, or_false] at hc
  rcases hc with hc | rfl | hc | rfl | hc
  · exact Or.inl (hd1 c hc)
  · exact Or.inr ((setMatches_separator ic _).1 hs1)
  · exact Or.inl (hd2 c hc)
  · exact Or.inr ((setMatches_separator ic _).1 hs2)
  · exact Or.inl (hd3 c hc)

/-- Words of the percentage pattern: digits and dots. -/
theorem matches_percent_chars (ic : Bool) (w : List Char) (h : Matches ic percentNumber w) :
    ∀ c ∈ w, isDigit c = true ∨ c = '.' := by
  rcases matches_seq_inv h with ⟨u1, r1, rfl, m1, h⟩
  rcases matches_seq_inv h with ⟨u2, r2, rfl, m2, h⟩
  have := matches_empty_inv h
  subst this
  have hd1 := (matches_digits m1 (by simp)).1
  have hu2 : ∀ c ∈ u2, isDigit c = true ∨ c = '.' := by
    rcases matches_rep_inv m2 with ⟨h0, _⟩ | ⟨_, u, v, huv, hu, hv⟩
    · subst h0
      simp
    · rcases matches_rep_inv hv with ⟨hv0, _⟩ | ⟨hmax, _⟩
      · subst hv0
        rcases matches_seq_inv hu with ⟨f1, f2, rfl, hf1, hf2⟩
        rcases matches_chr_seq_inv hf1 with ⟨k, e, rfl, hk, he⟩
        have := matches_empty_inv he
        subst this
        have hk2 : k = '.' := (setMatches_chr ic '.' k (by decide)).1 hk
        subst hk2
        rcases matches_seq_inv hf2 with ⟨ds, e2, rfl, hds2, he2⟩
        have := matches_empty_inv he2
        subst this
        have hdd := (matches_digits hds2 (by simp)).1
        subst huv
        intro c hc
        simp only [List.mem_append, List.mem_cons, List.mem_singleton, List.not_mem_nil,
          or_false, List.append_nil, false_or] at hc
        rcases hc with rfl | hc
        · exact Or.inr rfl
        · exact Or.inl (hdd c hc)
      · simp at hmax
  intro c hc
  simp only [List.mem_append, List.append_nil] at hc
  rcases hc with hc | hc
  · exact Or.inl (hd1 c hc)
  · exact hu2 c hc

theorem firstMatch_date_variant (s s2 : List Char) (h : caseVariant s s2 = true) :
    firstMatch datePatterns s2 = firstMatch datePatterns s := by
  refine firstMatch_variant_eq datePatterns s s2 h ?_ ?_
  · intro p hmem
    simp only [datePatterns, List.mem_cons, List.mem_singleton, List.not_mem_nil,
      or_false] at hmem
    rcases hmem with rfl | rfl | rfl | rfl
    · exact caseStable_ignoreCase _
    · exact caseStable_ignoreCase _
    · exact caseStable_ignoreCase _
    · exact caseStable_dateToken false
  · intro p hmem
    simp only [datePatterns, List.mem_cons, List.mem_singleton, List.not_mem_nil,
      or_false] at hmem
    rcases hmem with rfl | rfl | rfl | rfl <;>
      exact ⟨dateToken, rfl, fun w hw c hc => not_letter_of_digit c (by
        rcases matches_dateToken_chars _ w hw c hc with h | h | h
        · exact Or.inl h
        · exact Or.inr (Or.inl h)
        · exact Or.inr (Or.inr (Or.inl h)))⟩

theorem firstMatch_dueDate_variant (s s2 : List Char) (h : caseVariant s s2 = true) :
    firstMatch dueDatePatterns s2 = firstMatch dueDatePatterns s := by
  refine firstMatch_variant_eq dueDatePatterns s s2 h ?_ ?_
  · intro p hmem
    simp only [dueDatePatterns, List.mem_cons, List.mem_singleton, List.not_mem_nil,
      or_false] at hmem
    rcases hmem with rfl | rfl | rfl <;> exact caseStable_ignoreCase _
  · intro p hmem
    simp only [dueDatePatterns, List.mem_cons, List.mem_singleton, List.not_mem_nil,
      or_false] at hmem
    rcases hmem with rfl | rfl | rfl <;>
      exact ⟨dateToken, rfl, fun w hw c hc => not_letter_of_digit c (by
        rcases matches_dateToken_chars _ w hw c hc with h | h | h
        · exact Or.inl h
        · exact Or.inr (Or.inl h)
        · exact Or.inr (Or.inr (Or.inl h)))⟩

theorem firstMatch_total_variant (s s2 : List Char) (h : caseVariant s s2 = true) :
    firstMatch totalPatterns s2 = firstMatch totalPatterns s := by
  refine firstMatch_variant_eq totalPatterns s s2 h ?_ ?_
  · intro p hmem
    simp only [totalPatterns, List.mem_cons, List.mem_singleton, List.not_mem_nil,
      or_false] at hmem
    rcases hmem with rfl | rfl | rfl | rfl | rfl <;> exact caseStable_ignoreCase _
  · intro p hmem
    simp only [totalPatterns, List.mem_cons, List.mem_singleton, List.not_mem_nil,
      or_false] at hmem
    rcases hmem with rfl | rfl | rfl | rfl | rfl <;>
      exact ⟨amount, rfl, fun w hw c hc => not_letter_of_digit c (by
        rcases (matches_amount_shape _ w hw).1 c hc with h | h | h
        · exact Or.inl h
        · exact Or.inr (Or.inr (Or.inr (Or.inl h)))
        · exact Or.inr (Or.inr (Or.inr (Or.inr h))))⟩

theorem firstMatch_percent_variant (ps : List RegExp) (s s2 : List Char)
    (h : caseVariant s s2 = true)
    (hps : ∀ p ∈ ps, p.ignoreCase = true ∧ p.body.groupBody = some percentNumber) :
    firstMatch ps s2 = firstMatch ps s := by
  refine firstMatch_variant_eq ps s s2 h ?_ ?_
  · intro p hmem
    rw [(hps p hmem).1]
    exact caseStable_ignoreCase _
  · intro p hmem
    exact ⟨percentNumber, (hps p hmem).2, fun w hw c hc => not_letter_of_digit c (by
      rcases matches_percent_chars _ w hw c hc with h | h
      · exact Or.inl h
      · exact Or.inr (Or.inr (Or.inr (Or.inr h))))⟩

/-- C21: label matching is blind to letter case. For two texts that differ only in the
letter case of ASCII letters, `extractInvoiceData` returns the same `date`, `due_date`,
`total_amount`, `tax_rate` and `discount_rate`. -/
theorem fields_case_insensitive (t t2 : String) (h : caseVariant t.data t2.data = true) :
    ∃ d d2, extractInvoiceData t = .ok d ∧ extractInvoiceData t2 = .ok d2 ∧
      d2.date = d.date ∧ d2.due_date = d.due_date ∧ d2.total_amount = d.total_amount ∧
      d2.tax_rate = d.tax_rate ∧ d2.discount_rate = d.discount_rate := by
  refine ⟨_, _, extractInvoiceData_eq t, extractInvoiceData_eq t2, ?_, ?_, ?_, ?_, ?_⟩
  · simp only [extractedRecord, fieldText, firstMatch_date_variant _ _ h]
  · simp only [extractedRecord, fieldText, firstMatch_dueDate_variant _ _ h]
  · simp only [extractedRecord, totalText, firstMatch_total_variant _ _ h]
  · simp only [extractedRecord, rateField]
    rw [firstMatch_percent_variant taxPatterns _ _ h (by
      intro p hmem
      simp only [taxPatterns, List.mem_cons, List.mem_singleton, List.not_mem_nil,
        or_false] at hmem
      rcases hmem with rfl | rfl | rfl <;> exact ⟨rfl, rfl⟩)]
  · simp only [extractedRecord, rateField]
    rw [firstMatch_percent_variant discountPatterns _ _ h (by
      intro p hmem
      simp only [discountPatterns, List.mem_cons, List.mem_singleton, List.not_mem_nil,
        or_false] at hmem
      rcases hmem with rfl | rfl <;> exact ⟨rfl, rfl⟩)]

/-- C21 at two spellings of the labels of one invoice. -/
theorem fields_case_insensitive_witness :
    caseVariant "Date: 01/02/2023\nTOTAL: $5\ntax: 7%".data
      "DATE: 01/02/2023\ntotal: $5\nTax: 7%".data = true ∧
    ∃ d d2, extractInvoiceData "Date: 01/02/2023\nTOTAL: $5\ntax: 7%" = .ok d ∧
      extractInvoiceData "DATE: 01/02/2023\ntotal: $5\nTax: 7%" = .ok d2 ∧
      d2.date = d.date ∧ d2.due_date = d.due_date ∧ d2.total_amount = d.total_amount ∧
      d2.tax_rate = d.tax_rate ∧ d2.discount_rate = d.discount_rate :=
  ⟨by decide, fields_case_insensitive _ _ (by decide)⟩

/-! ## The client: sending the pending invoices -/

/-- A request that succeeds empties the state and the stored list when no invoice has an
`id`: the test `inv.id !== invoice.id` compares `undefined` with `undefined`. -/
theorem syncStep_ok_of_no_id (pendingInvoices : List ClientInvoice) (invoice : ClientInvoice)
    (st : PendingStore) (hinv : invoice.id = none)
    (hall : ∀ inv ∈ pendingInvoices, inv.id = none)
    (hst : ∀ inv ∈ st.pendingInvoices, inv.id = none) :
    syncStep pendingInvoices invoice .ok st = ⟨[], some []⟩ := by
  have h1 : ∀ l : List ClientInvoice, (∀ inv ∈ l, inv.id = none) →
      l.filter (fun inv => inv.id != invoice.id) = [] := by
    intro l hl
    rw [List.filter_eq_nil_iff]
    intro a ha
    simp [hl a ha, hinv]
  simp only [syncStep, h1 _ hall, h1 _ hst]

/-- C26 (the code departs from the claim): two payloads of `saveInvoice` are saved as
pending; the request of the first succeeds and the request of the second is rejected. After
the pass the pending list is empty in the state and in storage, although the list of the
invoices whose request did not succeed holds the second invoice. -/
theorem sync_drops_unsent_invoice (p1 p2 : String) (s1 s2 c1 c2 : Option String)
    (now1 now2 : String) :
    syncPendingInvoices (fun k => if k = 0 then .ok else .threw)
        (savePendingInvoice (invoicePayload p2 s2 c2 now2)
          (savePendingInvoice (invoicePayload p1 s1 c1 now1) ⟨[], none⟩))
      = ⟨[], some []⟩ ∧
    unsentInvoices (fun k => if k = 0 then .ok else .threw)
        [invoicePayload p1 s1 c1 now1, invoicePayload p2 s2 c2 now2] 0
      = [invoicePayload p2 s2 c2 now2] := by
  constructor
  · simp [syncPendingInvoices, savePendingInvoice, syncLoop, syncStep, invoicePayload]
  · simp [unsentInvoices]

/-! ## The client: totals of the invoice form -/

/-- The fold of `calculateSubtotal` from any start value. -/
theorem foldl_subtotal (items : List FormItem) : ∀ acc : ℚ,
    items.foldl (fun sum item => sum + item.quantity * item.rate) acc
      = acc + (items.map fun item => item.quantity * item.rate).sum := by
  induction items with
  | nil => intro acc; simp
  | cons it rest ih => intro acc; simp [ih, add_assoc]

/-- C27: in `InvoiceCreator` the subtotal is the sum of `quantity * rate` over the items
(0 without items), tax and discount are the subtotal times the rate over 100, and the total
is `subtotal + tax - discount`; so the total is `subtotal * (100 + tax_rate - discount_rate)
/ 100` over exact arithmetic, the tax is taken on the undiscounted subtotal, and with equal
tax and discount rates the total is the subtotal. -/
theorem calculateTotal_formula (items : List FormItem) (tax_rate discount_rate : ℚ) :
    calculateSubtotal ⟨items, tax_rate, discount_rate⟩
      = (items.map fun item => item.quantity * item.rate).sum ∧
    calculateSubtotal ⟨[], tax_rate, discount_rate⟩ = 0 ∧
    calculateTax ⟨items, tax_rate, discount_rate⟩
      = calculateSubtotal ⟨items, tax_rate, discount_rate⟩ * tax_rate / 100 ∧
    calculateDiscount ⟨items, tax_rate, discount_rate⟩
      = calculateSubtotal ⟨items, tax_rate, discount_rate⟩ * discount_rate / 100 ∧
    calculateTotal ⟨items, tax_rate, discount_rate⟩
      = calculateSubtotal ⟨items, tax_rate, discount_rate⟩
        + calculateTax ⟨items, tax_rate, discount_rate⟩
        - calculateDiscount ⟨items, tax_rate, discount_rate⟩ ∧
    calculateTotal ⟨items, tax_rate, discount_rate⟩
      = calculateSubtotal ⟨items, tax_rate, discount_rate⟩
        * (100 + tax_rate - discount_rate) / 100 ∧
    calculateTax ⟨items, tax_rate, discount_rate⟩ = calculateTax ⟨items, tax_rate, 0⟩ ∧
    calculateTotal ⟨items, tax_rate, tax_rate⟩
      = calculateSubtotal ⟨items, tax_rate, tax_rate⟩ := by
  refine ⟨?_, rfl, rfl, rfl, rfl, ?_, rfl, ?_⟩
  · simp [calculateSubtotal, foldl_subtotal]
  · simp only [calculateTotal, calculateTax, calculateDiscount]; ring
  · simp only [calculateTotal, calculateTax, calculateDiscount]; ring


end InvoiceExtraction
